import Mathlib

/-!
Verification of the function-level IR code generator of the latte-compiler
repository (`src/codegen/function.rs`, with the IR data model from
`src/model/ir.rs`).

The Rust code is shallowly embedded: the mutable `FunctionCodeGen`/`Env`
state becomes an explicit state record `St`; `HashMap`s become association
lists with insert-or-replace semantics; `HashSet` iteration is determinized
to parent-chain order with duplicates removed; machine integers (`u32`
labels and register numbers) are modelled as `Nat` (the two sentinel labels
keep their concrete `2^32 - 1` / `2^32 - 2` values); `i32` literals are
`Int`.  Sites where the Rust code panics (`unwrap` on `None`,
`unreachable!()`, slice-index out of range) set a `panicked` flag on the
state and continue with a harmless junk value, so that panics stay
observable while every function is total.  The mutual recursion of
`process_block` / `process_expression` is made structural with a fuel
parameter that decreases at every nested call; fuel exhaustion returns the
state unchanged.
-/

namespace Latte

/-- IR types, from `ir::Type` (`Type::Class` carries the class name,
`Type::Func` a return type and argument types). -/
inductive Ty where
  | void
  | int
  | bool
  | char
  | ptr (t : Ty)
  | cls (name : String)
  | func (ret : Ty) (args : List Ty)

mutual

/-- Boolean equality on `Ty` (structural; `deriving` does not handle the
nested `List Ty`). -/
def Ty.beq : Ty → Ty → Bool
  | .void, .void => true
  | .int, .int => true
  | .bool, .bool => true
  | .char, .char => true
  | .ptr a, .ptr b => Ty.beq a b
  | .cls a, .cls b => a = b
  | .func r1 a1, .func r2 a2 => Ty.beq r1 r2 && Ty.beqList a1 a2
  | _, _ => false

/-- Boolean equality on lists of `Ty`. -/
def Ty.beqList : List Ty → List Ty → Bool
  | [], [] => true
  | x :: xs, y :: ys => Ty.beq x y && Ty.beqList xs ys
  | _, _ => false

end

mutual

theorem Ty.beq_iff : ∀ a b : Ty, Ty.beq a b = true ↔ a = b
  | .void, b => by cases b <;> simp [Ty.beq]
  | .int, b => by cases b <;> simp [Ty.beq]
  | .bool, b => by cases b <;> simp [Ty.beq]
  | .char, b => by cases b <;> simp [Ty.beq]
  | .ptr a, b => by
      cases b <;> simp [Ty.beq]
      exact Ty.beq_iff a _
  | .cls n, b => by cases b <;> simp [Ty.beq]
  | .func r1 a1, b => by
      cases b <;> simp [Ty.beq]
      rw [Ty.beq_iff r1 _, Ty.beqList_iff a1 _]

theorem Ty.beqList_iff : ∀ a b : List Ty, Ty.beqList a b = true ↔ a = b
  | [], b => by cases b <;> simp [Ty.beqList]
  | x :: xs, b => by
      cases b <;> simp [Ty.beqList]
      rw [Ty.beq_iff x _, Ty.beqList_iff xs _]

end

instance : DecidableEq Ty := fun a b => decidable_of_iff _ (Ty.beq_iff a b)

/-- IR values, from `ir::Value`.  `RegNum` and `GlobalStrNum` are `Nat`. -/
inductive Value where
  | litInt (n : Int)
  | litBool (b : Bool)
  | litNullPtr (t : Option Ty)
  | register (r : Nat) (t : Ty)
  | globalRegister (name : String) (t : Ty)
deriving DecidableEq

/-- `ir::ArithOp`. -/
inductive ArithOp where
  | add | sub | mul | div | mod
deriving DecidableEq

/-- `ir::CmpOp`. -/
inductive CmpOp where
  | lt | le | gt | ge | eq | ne
deriving DecidableEq

/-- `ir::Operation`.  `castGlobalString`'s `Nat` is the byte length of the
string plus one, as in the source. -/
inductive Operation where
  | ret (v : Option Value)
  | functionCall (res : Option Nat) (retType : Ty) (callee : Value) (args : List Value)
  | arithmetic (r : Nat) (op : ArithOp) (lhs rhs : Value)
  | compare (r : Nat) (op : CmpOp) (lhs rhs : Value)
  | getElementPtr (r : Nat) (t : Ty) (indices : List Value)
  | castGlobalString (r : Nat) (len : Nat) (v : Value)
  | castPtr (dst : Nat) (dstType : Ty) (srcValue : Value)
  | castPtrToInt (dst : Nat) (srcValue : Value)
  | load (r : Nat) (addr : Value)
  | store (v addr : Value)
  | branch1 (l : Nat)
  | branch2 (c : Value) (tl fl : Nat)
deriving DecidableEq

/-- `ir::PhiEntry = (RegNum, Type, Vec<(Value, Label)>)`. -/
abbrev PhiEntry := Nat × Ty × List (Value × Nat)

/-- `ir::Block`.  The `HashSet` of φ-entries is a list; the set's `insert`
is modelled as append-if-absent. -/
structure Block where
  label : Nat
  phi_set : List PhiEntry
  predecessors : List Nat
  body : List Operation
deriving DecidableEq

/-- `ir::Function`. -/
structure IRFunction where
  ret_type : Ty
  name : String
  args : List (Nat × Ty)
  blocks : List Block
deriving DecidableEq

/-- `Value::get_type`, translated verbatim. -/
def Value.get_type : Value → Ty
  | .litInt _ => .int
  | .litBool _ => .bool
  | .litNullPtr (some t) => t
  | .litNullPtr none => .ptr .char
  | .register _ t => t
  | .globalRegister _ t => t

/-- Source-language types, from `ast::InnerType` (the `ast` module is not
in the sources; its shape is fixed by the pattern matches in
`codegen/function.rs` and by the spec). -/
inductive AstType where
  | int
  | bool
  | string
  | array (t : AstType)
  | cls (name : String)
  | null
  | void
deriving DecidableEq

/-- `ast::BinaryOp`, as matched in `codegen/function.rs`. -/
inductive BinaryOp where
  | and | or
  | add | sub | mul | div | mod
  | lt | le | gt | ge | eq | ne
deriving DecidableEq

/-- `ast::InnerUnaryOp`. -/
inductive UnaryOp where
  | intNeg | boolNeg
deriving DecidableEq

/-- `ast::InnerExpr`, with spans dropped. -/
inductive Expr where
  | litVar (name : String)
  | litInt (n : Int)
  | litBool (b : Bool)
  | litStr (s : String)
  | litNull
  | castType (e : Expr) (t : AstType)
  | funCall (function_name : String) (args : List Expr)
  | binaryOp (lhs : Expr) (op : BinaryOp) (rhs : Expr)
  | unaryOp (op : UnaryOp) (e : Expr)
  | newArray (elem_type : AstType) (elem_cnt : Expr)
  | newObject (t : AstType)
  | arrayElem (array : Expr) (index : Expr)
  | objField (obj : Expr) (is_obj_an_array : Option Bool) (field : String)
  | objMethodCall (obj : Expr) (method_name : String) (args : List Expr)

/-- `ast::InnerStmt`; an `ast::Block` is its list of statements. -/
inductive Stmt where
  | empty
  | block (stmts : List Stmt)
  | decl (var_type : AstType) (var_items : List (String × Option Expr))
  | assign (lhs rhs : Expr)
  | incr (lhs : Expr)
  | decr (lhs : Expr)
  | ret (e : Option Expr)
  | cond (c : Expr) (true_branch : List Stmt) (false_branch : Option (List Stmt))
  | whileStmt (c : Expr) (body : List Stmt)
  | forEach (iter_type : AstType) (iter_name : String) (array : Expr) (body : List Stmt)
  | expr (e : Expr)
  | error

/-- `ast::FunDef` (return type, name, arguments, body). -/
structure FunDef where
  ret_type : AstType
  name : String
  args : List (AstType × String)
  body : List Stmt

/-- `ast::THIS_VAR`. -/
def THIS_VAR : String := "this"

/-- `semantics::global_context::FunDesc`, restricted to the fields the
code generator reads. -/
structure FunDesc where
  ret_type : AstType
  args_types : List AstType

/-- The class registry interface used by the generator
(`codegen::class::ClassRegistry` is an external collaborator; only these
two queries are called). -/
structure ClassDescR where
  get_method_number_and_type : String → Nat × Ty
  get_field_number_and_type : String → Nat × Ty

/-- The read-only context a `FunctionCodeGen` is built over: the
`GlobalContext` function table, the optional enclosing class
(`ClassDesc::get_name`), the class registry and
`codegen::class::get_size_of_primitive`. -/
structure Ctx where
  get_function_description : String → Option FunDesc
  class_ctx : Option String
  class_registry : String → ClassDescR
  get_size_of_primitive : Ty → Int

/-- `Type::from_ast`. -/
def Ty.from_ast : AstType → Ty
  | .int => .int
  | .bool => .bool
  | .string => .ptr .char
  | .array subtype => .ptr (Ty.from_ast subtype)
  | .cls name => .ptr (.cls name)
  | .null => .ptr .char
  | .void => .void

/-- `Type::from_class_name`. -/
def Ty.from_class_name (class_name : String) : Ty := .ptr (.cls class_name)

/-- `Type::from_function_desc`. -/
def Ty.from_function_desc (d : FunDesc) : Ty :=
  .ptr (.func (Ty.from_ast d.ret_type) (d.args_types.map Ty.from_ast))

/-- `ir::format_global_string`. -/
def format_global_string (no : Nat) : String := ".str." ++ toString no

/-- `ir::format_method_name`. -/
def format_method_name (class_name method_name : String) : String :=
  class_name ++ "." ++ method_name

/-- `ir::get_class_vtable_type`. -/
def get_class_vtable_type (name : String) : Ty :=
  .ptr (.cls (name ++ ".vtable.type"))

/-- `ir::format_class_vtable_data`. -/
def format_class_vtable_data (name : String) : String :=
  "cls." ++ name ++ ".vtable.data"

/-- An environment frame, from `EnvFrame`: optional parent label and a
name-to-value map (association list standing for the `HashMap`). -/
structure EnvFrame where
  parent : Option Nat
  locals : List (String × Value)
deriving DecidableEq

/-- `ARGS_LABEL = Label(u32::MAX)`. -/
def ARGS_LABEL : Nat := 2 ^ 32 - 1

/-- `UNREACHABLE_LABEL = Label(u32::MAX - 1)`. -/
def UNREACHABLE_LABEL : Nat := 2 ^ 32 - 2

/-- The initial value of `Env::next_proxy_frame`, `Label(u32::MAX - 42)`. -/
def INITIAL_PROXY_LABEL : Nat := 2 ^ 32 - 43

/-- The whole mutable state of a `FunctionCodeGen` (its `Env` inlined),
plus the `panicked` flag recording that a Rust panic site was hit. -/
structure St where
  frames : List (Nat × EnvFrame)
  next_proxy_frame : Nat
  blocks : List Block
  next_reg_num : Nat
  global_strings : List (String × Nat)
  panicked : Bool
deriving DecidableEq

/-- Mark the state as having hit a Rust panic (`unreachable!()`, a failed
`unwrap`, or an out-of-range index). -/
def St.setPanic (s : St) : St := { s with panicked := true }

/-- `HashMap::get` on an association list. -/
def mapGet {α β : Type} [DecidableEq α] (l : List (α × β)) (k : α) : Option β :=
  (l.find? (fun p => p.1 = k)).map (·.2)

/-- `HashMap::insert` on an association list: replace the binding if the
key is present, append otherwise. -/
def mapSet {α β : Type} [DecidableEq α] (l : List (α × β)) (k : α) (v : β) :
    List (α × β) :=
  if (l.find? (fun p => p.1 = k)).isSome then
    l.map (fun p => if p.1 = k then (k, v) else p)
  else
    l ++ [(k, v)]

/-- `Env::allocate_new_frame`: insert a fresh frame; a duplicate label is
the `unreachable!()` assert. -/
def allocate_new_frame (s : St) (label parent_label : Nat) : St :=
  let old := mapGet s.frames label
  let s' := { s with frames := mapSet s.frames label ⟨some parent_label, []⟩ }
  match old with
  | none => s'
  | some _ => s'.setPanic

/-- `Env::add_new_local_variable`: declaration; redeclaration in the same
frame is the `unreachable!()` assert. -/
def add_new_local_variable (s : St) (frame : Nat) (name : String) (value : Value) : St :=
  match mapGet s.frames frame with
  | none => s.setPanic
  | some fr =>
      let old := mapGet fr.locals name
      let s' := { s with
        frames := mapSet s.frames frame { fr with locals := mapSet fr.locals name value } }
      match old with
      | none => s'
      | some _ => s'.setPanic

/-- The parent-chain walk of `Env::update_existing_local_variable`,
made total with fuel (the chain of a well-formed environment is shorter
than the number of frames; running out of fuel models the divergence a
cyclic chain would cause and is flagged).  `fs` is the frame map. -/
def update_walk (name : String) (value : Value) : Nat → Option Nat →
    List (Nat × EnvFrame) → Option (List (Nat × EnvFrame))
  | 0, _, _ => none
  | _ + 1, none, _ => none
  | fuel + 1, some f, fs =>
      match mapGet fs f with
      | none => none
      | some fr =>
          if (mapGet fr.locals name).isSome then
            some (mapSet fs f { fr with locals := mapSet fr.locals name value })
          else
            update_walk name value fuel fr.parent fs

/-- `Env::update_existing_local_variable` (`unreachable!()` when the walk
finds no binding). -/
def update_existing_local_variable (s : St) (frame : Nat) (name : String)
    (value : Value) : St :=
  match update_walk name value (s.frames.length + 1) (some frame) s.frames with
  | some fs => { s with frames := fs }
  | none => s.setPanic

/-- The parent-chain walk of `Env::get_variable`; an unbound name is the
`unreachable!()` and yields a junk value. -/
def get_variable_walk (fs : List (Nat × EnvFrame)) (name : String) : Nat → Option Nat → Value
  | 0, _ => .litInt 0
  | _ + 1, none => .litInt 0
  | fuel + 1, some f =>
      match mapGet fs f with
      | none => .litInt 0
      | some fr =>
          match mapGet fr.locals name with
          | some v => v
          | none => get_variable_walk fs name fuel fr.parent

/-- `Env::get_variable`. -/
def get_variable (s : St) (frame : Nat) (name : String) : Value :=
  get_variable_walk s.frames name (s.frames.length + 1) (some frame)

/-- The parent-chain walk of `Env::get_all_visible_local_variables`. -/
def visible_walk (fs : List (Nat × EnvFrame)) : Nat → Option Nat → List String
  | 0, _ => []
  | _ + 1, none => []
  | fuel + 1, some f =>
      match mapGet fs f with
      | none => []
      | some fr => fr.locals.map (·.1) ++ visible_walk fs fuel fr.parent

/-- `Env::get_all_visible_local_variables`.  The `HashSet` result is
determinized to chain order with the first occurrence of each name kept. -/
def get_all_visible_local_variables (s : St) (frame : Nat) : List String :=
  (visible_walk s.frames (s.frames.length + 1) (some frame)).dedup

/-- `Env::insert_empty_proxy_frame`: draw a label from the descending
proxy counter and splice an empty frame between `frame_label` and its
parent (`frame.parent.unwrap()` panics when there is no parent). -/
def insert_empty_proxy_frame (s : St) (frame_label : Nat) : St × Nat :=
  let proxy_frame_label := s.next_proxy_frame
  let s := { s with next_proxy_frame := s.next_proxy_frame - 1 }
  match mapGet s.frames frame_label with
  | none => (s.setPanic, proxy_frame_label)
  | some fr =>
      match fr.parent with
      | none => (s.setPanic, proxy_frame_label)
      | some parent =>
          let s := { s with
            frames := mapSet s.frames frame_label { fr with parent := some proxy_frame_label } }
          (allocate_new_frame s proxy_frame_label parent, proxy_frame_label)

/-- One copy step of `Env::create_proxy_env`'s loop body. -/
def copy_into_frame (target : Nat) (src_frame : Nat) (s : St) (n : String) : St :=
  let value := get_variable s src_frame n
  match mapGet s.frames target with
  | none => s.setPanic
  | some fr =>
      { s with frames := mapSet s.frames target { fr with locals := mapSet fr.locals n value } }

/-- `Env::create_proxy_env`: snapshot every visible binding of
`frame_label` into a freshly spliced proxy frame. -/
def create_proxy_env (s : St) (frame_label : Nat) : St × Nat :=
  let names := get_all_visible_local_variables s frame_label
  let (s, proxy_frame_label) := insert_empty_proxy_frame s frame_label
  (names.foldl (copy_into_frame proxy_frame_label frame_label) s, proxy_frame_label)

/-- `Env::apply_proxy_env`: copy every visible binding of `proxy` into
`target`, overwriting. -/
def apply_proxy_env (s : St) (proxy target : Nat) : St :=
  let names := get_all_visible_local_variables s proxy
  names.foldl (copy_into_frame target proxy) s

/-- `FunctionCodeGen::get_block` used for mutation: apply `f` to the block
at `label` (an out-of-range index panics in Rust). -/
def get_block_modify (s : St) (label : Nat) (f : Block → Block) : St :=
  if h : label < s.blocks.length then
    { s with blocks := s.blocks.set label (f (s.blocks.get ⟨label, h⟩)) }
  else
    s.setPanic

/-- Append an operation to the body of the block at `label`. -/
def push_op (s : St) (label : Nat) (op : Operation) : St :=
  get_block_modify s label (fun b => { b with body := b.body ++ [op] })

/-- `HashSet::insert` into a block's φ-set. -/
def insert_phi (s : St) (label : Nat) (e : PhiEntry) : St :=
  get_block_modify s label
    (fun b => { b with phi_set := if e ∈ b.phi_set then b.phi_set else b.phi_set ++ [e] })

/-- `FunctionCodeGen::allocate_new_block`: the new label is
`blocks.len()` (the `as u32` narrowing is immaterial below `2^32`), and a
fresh environment frame with the given parent is allocated for it. -/
def allocate_new_block (s : St) (parent_env_label : Nat) : St × Nat :=
  let label := s.blocks.length
  let s := { s with blocks := s.blocks ++ [⟨label, [], [], []⟩] }
  (allocate_new_frame s label parent_env_label, label)

/-- `FunctionCodeGen::add_branch1_op`. -/
def add_branch1_op (s : St) (src dst : Nat) : St :=
  let s := push_op s src (.branch1 dst)
  get_block_modify s dst (fun b => { b with predecessors := b.predecessors ++ [src] })

/-- `FunctionCodeGen::add_branch2_op`. -/
def add_branch2_op (s : St) (src : Nat) (c : Value) (br1 br2 : Nat) : St :=
  let s := push_op s src (.branch2 c br1 br2)
  let s := get_block_modify s br1 (fun b => { b with predecessors := b.predecessors ++ [src] })
  get_block_modify s br2 (fun b => { b with predecessors := b.predecessors ++ [src] })

/-- `FunctionCodeGen::get_new_reg_num`. -/
def get_new_reg_num (s : St) : St × Nat :=
  ({ s with next_reg_num := s.next_reg_num + 1 }, s.next_reg_num)

/-- `FunctionCodeGen::get_global_string`: intern a string literal by
content into the shared global-string table. -/
def get_global_string (s : St) (string : String) : St × Value :=
  let str_type : Ty := .ptr .char
  match mapGet s.global_strings string with
  | some num => (s, .globalRegister (format_global_string num) str_type)
  | none =>
      let reg := s.global_strings.length
      ({ s with global_strings := s.global_strings ++ [(string, reg)] },
       .globalRegister (format_global_string reg) str_type)


/-- `FunctionCodeGen::generate_calculation_of_ref_to_array_length`: build a
`Ptr(Int)` reference to the length stored at `base[-1]`. -/
def generate_calculation_of_ref_to_array_length (s : St) (cur_label : Nat)
    (array_ptr : Value) : St × Value :=
  let array_type := array_ptr.get_type
  let (s, elem_type) :=
    match array_type with
    | .ptr subtype => (s, subtype)
    | _ => (s.setPanic, Ty.int)
  let int_ptr_type : Ty := .ptr .int
  let (s, casted_reg) :=
    match elem_type with
    | .int =>
        match array_ptr with
        | .register reg _ => (s, reg)
        | _ => (s.setPanic, 0)
    | _ =>
        let (s, casted_reg) := get_new_reg_num s
        (push_op s cur_label
          (.castPtr casted_reg int_ptr_type array_ptr), casted_reg)
  let (s, result_reg) := get_new_reg_num s
  let s := push_op s cur_label
    (.getElementPtr result_reg .int
      [.register casted_reg int_ptr_type, .litInt (-1)])
  (s, .register result_reg int_ptr_type)

mutual

/-- `FunctionCodeGen::process_expression`.  Takes the expression and the
current label, returns the new current label and the expression's value.
The `fuel` parameter makes the mutual recursion structural; it strictly
exceeds the recursion depth of every actual call. -/
def process_expression (ctx : Ctx) : Nat → Expr → Nat → St → St × Nat × Value
  | 0, _, cur_label, s => (s, cur_label, .litInt 0)
  | fuel + 1, e, cur_label, s =>
    match e with
    | .litVar var_name => (s, cur_label, get_variable s cur_label var_name)
    | .litInt int_val => (s, cur_label, .litInt int_val)
    | .litBool bool_val => (s, cur_label, .litBool bool_val)
    | .litStr str_val =>
        if str_val = "" then
          (s, cur_label, .litNullPtr (some (.ptr .char)))
        else
          let (s, reg_num) := get_new_reg_num s
          let (s, str_ir_val) := get_global_string s str_val
          let s :=
            match str_ir_val with
            | .globalRegister _ _ =>
                push_op s cur_label
                  (.castGlobalString reg_num (str_val.utf8ByteSize + 1) str_ir_val)
            | _ => s.setPanic
          (s, cur_label, .register reg_num (.ptr .char))
    | .litNull => (s, cur_label, .litNullPtr none)
    | .castType e dst_type =>
        let (s, new_label, expr_val) := process_expression ctx fuel e cur_label s
        let dst_type := Ty.from_ast dst_type
        match expr_val with
        | .litNullPtr _ => (s, new_label, .litNullPtr (some dst_type))
        | _ =>
            let (s, new_reg) := get_new_reg_num s
            let s := push_op s new_label (.castPtr new_reg dst_type expr_val)
            (s, new_label, .register new_reg dst_type)
    | .funCall function_name args =>
        let (s, fun_type) :=
          match ctx.get_function_description function_name with
          | some desc => (s, Ty.from_function_desc desc)
          | none => (s.setPanic, Ty.ptr (.func .int []))
        let function_value := Value.globalRegister function_name fun_type
        process_fun_call ctx fuel function_value none args cur_label s
    | .binaryOp _ op _ =>
      match op with
      | .and | .or =>
          let (s, true_label) := allocate_new_block s cur_label
          let (s, false_label) := allocate_new_block s cur_label
          let s := process_expression_cond ctx fuel e cur_label true_label false_label s
          let (s, cont_label) := allocate_new_block s cur_label
          let s := add_branch1_op s true_label cont_label
          let s := add_branch1_op s false_label cont_label
          let (s, new_reg) := get_new_reg_num s
          let s := insert_phi s cont_label
            (new_reg, .bool,
              [(.litBool true, true_label), (.litBool false, false_label)])
          (s, cont_label, .register new_reg .bool)
      | .add | .sub | .mul | .div | .mod =>
        match e with
        | .binaryOp lhs _ rhs =>
          let (s, new_label, lhs_val) := process_expression ctx fuel lhs cur_label s
          let (s, new_label, rhs_val) := process_expression ctx fuel rhs new_label s
          match lhs_val.get_type with
          | .int =>
              let new_op : ArithOp :=
                match op with
                | .add => .add
                | .sub => .sub
                | .mul => .mul
                | .div => .div
                | _ => .mod
              let (s, new_reg) := get_new_reg_num s
              let s := push_op s new_label (.arithmetic new_reg new_op lhs_val rhs_val)
              (s, new_label, .register new_reg .int)
          | .ptr t =>
              let str_type : Ty := .ptr t
              let (s, new_reg) := get_new_reg_num s
              let fun_type : Ty := .ptr (.func str_type [str_type, str_type])
              let s := push_op s new_label
                (.functionCall (some new_reg) str_type
                  (.globalRegister "_bltn_string_concat" fun_type)
                  [lhs_val, rhs_val])
              (s, new_label, .register new_reg str_type)
          | _ => (s.setPanic, new_label, .litInt 0)
        | _ => (s.setPanic, cur_label, .litInt 0)
      | .lt | .le | .gt | .ge | .eq | .ne =>
        match e with
        | .binaryOp lhs _ rhs =>
          let (s, new_label, lhs_val) := process_expression ctx fuel lhs cur_label s
          let (s, new_label, rhs_val) := process_expression ctx fuel rhs new_label s
          match lhs_val.get_type with
          | .int | .bool =>
              let new_op : CmpOp :=
                match op with
                | .lt => .lt
                | .le => .le
                | .gt => .gt
                | .ge => .ge
                | .eq => .eq
                | _ => .ne
              let (s, new_reg) := get_new_reg_num s
              let s := push_op s new_label (.compare new_reg new_op lhs_val rhs_val)
              (s, new_label, .register new_reg .bool)
          | .ptr subtype =>
            match subtype with
            | .char =>
                let (s, fun_name) :=
                  match op with
                  | .eq => (s, "_bltn_string_eq")
                  | .ne => (s, "_bltn_string_ne")
                  | _ => (s.setPanic, "_bltn_string_eq")
                let (s, new_reg) := get_new_reg_num s
                let str_type : Ty := .ptr .char
                let fun_type : Ty := .ptr (.func .bool [str_type, str_type])
                -- note: the source pushes to `cur_label` here, not `new_label`
                let s := push_op s cur_label
                  (.functionCall (some new_reg) .bool
                    (.globalRegister fun_name fun_type) [lhs_val, rhs_val])
                (s, cur_label, .register new_reg .bool)
            | _ =>
                -- objects & arrays
                let (s, cmp_op) :=
                  match op with
                  | .eq => (s, CmpOp.eq)
                  | .ne => (s, CmpOp.ne)
                  | _ => (s.setPanic, CmpOp.eq)
                let (s, new_reg) := get_new_reg_num s
                -- note: the source pushes to `cur_label` here, not `new_label`
                let s := push_op s cur_label (.compare new_reg cmp_op lhs_val rhs_val)
                (s, cur_label, .register new_reg .bool)
          | _ => (s.setPanic, new_label, .litInt 0)
        | _ => (s.setPanic, cur_label, .litInt 0)
    | .unaryOp op lhs =>
      match op with
      | .intNeg =>
          let (s, new_label, value) := process_expression ctx fuel lhs cur_label s
          let (s, new_reg) := get_new_reg_num s
          let s := push_op s new_label
            (.arithmetic new_reg .sub (.litInt 0) value)
          (s, new_label, .register new_reg .int)
      | .boolNeg =>
          let (s, new_label, value) := process_expression ctx fuel lhs cur_label s
          let (s, new_reg) := get_new_reg_num s
          let s := push_op s new_label
            (.arithmetic new_reg .sub (.litBool true) value)
          (s, new_label, .register new_reg .bool)
    | .newArray elem_type elem_cnt =>
        let elem_type_ir := Ty.from_ast elem_type
        let elem_size := ctx.get_size_of_primitive elem_type_ir
        let (s, new_label, elem_cnt_value) := process_expression ctx fuel elem_cnt cur_label s
        let (s, reg_num) := get_new_reg_num s
        let (s, casted_reg_num) := get_new_reg_num s
        let array_type_ir : Ty := .ptr elem_type_ir
        let void_ptr_type : Ty := .ptr .char
        let malloc_type : Ty := .ptr (.func void_ptr_type [.int, .int])
        let s := push_op s new_label
          (.functionCall (some reg_num) void_ptr_type
            (.globalRegister "_bltn_alloc_array" malloc_type)
            [elem_cnt_value, .litInt elem_size])
        let s := push_op s new_label
          (.castPtr casted_reg_num array_type_ir (.register reg_num void_ptr_type))
        (s, new_label, .register casted_reg_num array_type_ir)
    | .newObject class_type =>
      match class_type with
      | .cls class_name =>
          let class_type : Ty := .cls class_name
          let class_type_ptr : Ty := .ptr class_type
          -- calc object size
          let (s, size_ptr_reg) := get_new_reg_num s
          let (s, size_int_reg) := get_new_reg_num s
          let s := push_op s cur_label
            (.getElementPtr size_ptr_reg class_type
              [.litNullPtr (some class_type_ptr), .litInt 1])
          let s := push_op s cur_label
            (.castPtrToInt size_int_reg (.register size_ptr_reg class_type_ptr))
          -- malloc
          let (s, allocd_void_ptr_reg) := get_new_reg_num s
          let (s, allocd_cl_ptr_reg) := get_new_reg_num s
          let allocd_cl_ptr_val := Value.register allocd_cl_ptr_reg class_type_ptr
          let void_ptr_type : Ty := .ptr .char
          let malloc_type : Ty := .ptr (.func void_ptr_type [.int])
          let s := push_op s cur_label
            (.functionCall (some allocd_void_ptr_reg) void_ptr_type
              (.globalRegister "_bltn_malloc" malloc_type)
              [.register size_int_reg .int])
          let s := push_op s cur_label
            (.castPtr allocd_cl_ptr_reg class_type_ptr
              (.register allocd_void_ptr_reg void_ptr_type))
          -- set vtable
          let (s, vtable_ptr_reg) := get_new_reg_num s
          let vtable_type := get_class_vtable_type class_name
          let vtable_val := Value.globalRegister
            (format_class_vtable_data class_name) vtable_type
          let s := push_op s cur_label
            (.getElementPtr vtable_ptr_reg class_type
              [allocd_cl_ptr_val, .litInt 0, .litInt 0])
          let s := push_op s cur_label
            (.store vtable_val (.register vtable_ptr_reg (.ptr vtable_type)))
          (s, cur_label, allocd_cl_ptr_val)
      | _ => (s.setPanic, cur_label, .litInt 0)
    | .arrayElem _ _ =>
        let (s, new_label, elem_ref_value) :=
          process_lvalue_ref_expression ctx fuel e cur_label s
        let (s, new_reg) := get_new_reg_num s
        let (s, elem_type) :=
          match elem_ref_value with
          | .register _ (.ptr subtype) => (s, subtype)
          | _ => (s.setPanic, Ty.int)
        let s := push_op s new_label (.load new_reg elem_ref_value)
        (s, new_label, .register new_reg elem_type)
    | .objField _ _ _ =>
        let (s, new_label, elem_ref_value) :=
          process_lvalue_ref_expression ctx fuel e cur_label s
        let (s, new_reg) := get_new_reg_num s
        let (s, elem_type) :=
          match elem_ref_value with
          | .register _ (.ptr subtype) => (s, subtype)
          | _ => (s.setPanic, Ty.int)
        let s := push_op s new_label (.load new_reg elem_ref_value)
        (s, new_label, .register new_reg elem_type)
    | .objMethodCall obj method_name args =>
        let (s, new_label, this_value) := process_expression ctx fuel obj cur_label s
        -- load vtable
        let (s, this_type) :=
          match this_value with
          | .register _ t => (s, t)
          | _ => (s.setPanic, Ty.ptr (.cls ""))
        let (s, elem_this_type) :=
          match this_type with
          | .ptr t => (s, t)
          | _ => (s.setPanic, Ty.cls "")
        let (s, class_name) :=
          match this_type with
          | .ptr (.cls name) => (s, name)
          | _ => (s.setPanic, "")
        let vtable_type := get_class_vtable_type class_name
        let (s, vtable_reg) := get_new_reg_num s
        let vtable_val := Value.register vtable_reg vtable_type
        let (s, vtable_ptr_reg) := get_new_reg_num s
        let vtable_ptr_type : Ty := .ptr vtable_type
        let vtable_ptr_val := Value.register vtable_ptr_reg vtable_ptr_type
        let s := push_op s new_label
          (.getElementPtr vtable_ptr_reg elem_this_type
            [this_value, .litInt 0, .litInt 0])
        let s := push_op s new_label (.load vtable_reg vtable_ptr_val)
        -- load the method from vtable
        let (s, vtable_elem_type) :=
          match vtable_type with
          | .ptr t => (s, t)
          | _ => (s.setPanic, Ty.cls "")
        let class_desc := ctx.class_registry class_name
        let (method_number, method_type) :=
          class_desc.get_method_number_and_type method_name
        let method_ptr_type : Ty := .ptr method_type
        let (s, method_ptr_reg) := get_new_reg_num s
        let (s, method_reg) := get_new_reg_num s
        let method_ptr_val := Value.register method_ptr_reg method_ptr_type
        let method_val := Value.register method_reg method_type
        let s := push_op s new_label
          (.getElementPtr method_ptr_reg vtable_elem_type
            [vtable_val, .litInt 0, .litInt (method_number : Int)])
        let s := push_op s new_label (.load method_reg method_ptr_val)
        -- cast this if needed
        let (s, casted_this_value) :=
          match method_type with
          | .ptr (.func _ args_types) =>
              if args_types.getD 0 .int ≠ this_type then
                let (s, casted_reg) := get_new_reg_num s
                let s := push_op s new_label
                  (.castPtr casted_reg (args_types.getD 0 .int) this_value)
                (s, Value.register casted_reg (args_types.getD 0 .int))
              else
                (s, this_value)
          | _ => (s.setPanic, this_value)
        -- do the call; note: the source passes `cur_label` here, not `new_label`
        process_fun_call ctx fuel method_val (some casted_this_value) args cur_label s
termination_by structural fuel _ _ _ => fuel

/-- The argument loop of the `process_fun_call` closure: evaluate the
arguments left to right, threading the current label. -/
def process_args (ctx : Ctx) : Nat → List Expr → Nat → St → St × Nat × List Value
  | 0, _, cur_label, s => (s, cur_label, [])
  | _ + 1, [], cur_label, s => (s, cur_label, [])
  | fuel + 1, a :: rest, cur_label, s =>
      let (s, cur_label, value) := process_expression ctx fuel a cur_label s
      let (s, cur_label, values) := process_args ctx fuel rest cur_label s
      (s, cur_label, value :: values)
termination_by structural fuel _ _ _ => fuel

/-- The `process_fun_call` closure of `FunctionCodeGen::process_expression`. -/
def process_fun_call (ctx : Ctx) :
    Nat → Value → Option Value → List Expr → Nat → St → St × Nat × Value
  | 0, _, _, _, cur_label, s => (s, cur_label, .litInt 0)
  | fuel + 1, function_value, this_ptr, args, cur_label, s =>
      let (s, fun_ret_type) :=
        match function_value with
        | .register _ (.ptr (.func t _)) => (s, t)
        | .globalRegister _ (.ptr (.func t _)) => (s, t)
        | _ => (s.setPanic, Ty.int)
      let (s, cur_label, args_values) := process_args ctx fuel args cur_label s
      let args_values := this_ptr.toList ++ args_values
      let (s, reg_num) := get_new_reg_num s
      let op_reg_num : Option Nat :=
        match fun_ret_type with
        | .void => none
        | _ => some reg_num
      let s := push_op s cur_label
        (.functionCall op_reg_num fun_ret_type function_value args_values)
      (s, cur_label, .register reg_num fun_ret_type)
termination_by structural fuel _ _ _ _ _ => fuel

/-- `FunctionCodeGen::process_expression_cond`: lower a boolean expression
as a branch condition with explicit true/false target labels. -/
def process_expression_cond (ctx : Ctx) : Nat → Expr → Nat → Nat → Nat → St → St
  | 0, _, _, _, _, s => s
  | fuel + 1, e, cur_label, true_label, false_label, s =>
    match e with
    | .binaryOp lhs .and rhs =>
        let (s, mid_label) := allocate_new_block s cur_label
        let s := process_expression_cond ctx fuel lhs cur_label mid_label false_label s
        process_expression_cond ctx fuel rhs mid_label true_label false_label s
    | .binaryOp lhs .or rhs =>
        let (s, mid_label) := allocate_new_block s cur_label
        let s := process_expression_cond ctx fuel lhs cur_label true_label mid_label s
        process_expression_cond ctx fuel rhs mid_label true_label false_label s
    | .unaryOp .boolNeg lhs =>
        process_expression_cond ctx fuel lhs cur_label false_label true_label s
    | _ =>
        let (s, new_label, value) := process_expression ctx fuel e cur_label s
        add_branch2_op s new_label value true_label false_label
termination_by structural fuel _ _ _ _ _ => fuel

/-- `FunctionCodeGen::process_lvalue_ref_expression`: lower an lvalue to a
typed reference. -/
def process_lvalue_ref_expression (ctx : Ctx) : Nat → Expr → Nat → St → St × Nat × Value
  | 0, _, cur_label, s => (s, cur_label, .litInt 0)
  | fuel + 1, e, cur_label, s =>
    match e with
    | .arrayElem array index =>
        let (s, new_label, array_value) := process_expression ctx fuel array cur_label s
        let (s, new_label, index_value) := process_expression ctx fuel index new_label s
        let (s, new_reg) := get_new_reg_num s
        let array_type := array_value.get_type
        let (s, elem_type) :=
          match array_type with
          | .ptr subtype => (s, subtype)
          | _ => (s.setPanic, Ty.int)
        let s := push_op s new_label
          (.getElementPtr new_reg elem_type [array_value, index_value])
        (s, new_label, .register new_reg array_type)
    | .objField obj is_obj_an_array field =>
        let (s, new_label, obj_ptr_value) := process_expression ctx fuel obj cur_label s
        let (s, field_ptr_val) :=
          match is_obj_an_array with
          | some true =>
              generate_calculation_of_ref_to_array_length s new_label obj_ptr_value
          | some false =>
              let (s, field_ptr_reg) := get_new_reg_num s
              let (s, class_type) :=
                match obj_ptr_value with
                | .register _ (.ptr t) => (s, t)
                | _ => (s.setPanic, Ty.cls "")
              let (s, class_desc) :=
                match class_type with
                | .cls name => (s, ctx.class_registry name)
                | _ => (s.setPanic, ctx.class_registry "")
              let (field_number, field_type) :=
                class_desc.get_field_number_and_type field
              let s := push_op s new_label
                (.getElementPtr field_ptr_reg class_type
                  [obj_ptr_value, .litInt 0, .litInt (field_number : Int)])
              (s, Value.register field_ptr_reg (.ptr field_type))
          | none => (s.setPanic, Value.litInt 0)
        (s, new_label, field_ptr_val)
    | _ => (s.setPanic, cur_label, .litInt 0)
termination_by structural fuel _ _ _ => fuel

end



/-- The loop body of `FunctionCodeGen::calculate_phi_set_for_if` for one
visible name. -/
def phi_if_step (common_pred common_succ : Nat) (br1 br1_proxy br2 br2_proxy : Nat)
    (s : St) (name : String) : St :=
  let value0 := get_variable s common_pred name
  let value1 := get_variable s br1_proxy name
  let value2 := get_variable s br2_proxy name
  if value0 ≠ value1 ∨ value0 ≠ value2 then
    let (s, new_value) :=
      if value1 = value2 then
        (s, value1) -- no need to emit phi function, just update environment
      else
        let (s, reg_num) := get_new_reg_num s
        let reg_type := value1.get_type
        let s := insert_phi s common_succ
          (reg_num, reg_type, [(value1, br1), (value2, br2)])
        (s, Value.register reg_num reg_type)
    update_existing_local_variable s common_succ name new_value
  else
    s

/-- `FunctionCodeGen::calculate_phi_set_for_if`. -/
def calculate_phi_set_for_if (s : St) (common_pred common_succ : Nat)
    (br1 : Nat × Nat) (br2 : Nat × Nat) : St :=
  let names := get_all_visible_local_variables s common_pred
  names.foldl (phi_if_step common_pred common_succ br1.1 br1.2 br2.1 br2.2) s

/-- The loop body of `prepare_env_and_stub_phi_set_for_loop_cond` for one
visible name. -/
def stub_step (pred_label cond_label : Nat)
    (acc : St × List (String × Value × Value)) (name : String) :
    St × List (String × Value × Value) :=
  let (s, stub_info) := acc
  let value := get_variable s pred_label name
  let (s, reg_num) := get_new_reg_num s
  let phi_value := Value.register reg_num value.get_type
  (update_existing_local_variable s cond_label name phi_value,
   stub_info ++ [(name, value, phi_value)])

/-- `FunctionCodeGen::prepare_env_and_stub_phi_set_for_loop_cond`: for
every visible name allocate a fresh register, rebind the name through the
cond frame to it, and record `(name, pre-header value, stub register)`. -/
def prepare_env_and_stub_phi_set_for_loop_cond (s : St) (pred_label cond_label : Nat) :
    St × List (String × Value × Value) :=
  let names := get_all_visible_local_variables s pred_label
  names.foldl (stub_step pred_label cond_label) (s, [])

/-- The loop body of `finalize_phi_set_for_loop_cond` for one stub entry. -/
def finalize_step (pred_label cond_label : Nat) (proxy_label : Option Nat)
    (end_body_label : Nat) (s : St) (info : String × Value × Value) : St :=
  let (name, value1, phi_value) := info
  let phi_vec := [(value1, pred_label)]
  let (s, phi_vec) :=
    if end_body_label ≠ UNREACHABLE_LABEL then
      match proxy_label with
      | none => (s.setPanic, phi_vec ++ [(Value.litInt 0, end_body_label)])
      | some proxy =>
          let value2 := get_variable s proxy name
          (s, phi_vec ++ [(value2, end_body_label)])
    else
      (s, phi_vec)
  let (s, reg_num, reg_type) :=
    match phi_value with
    | .register reg_num reg_type => (s, reg_num, reg_type)
    | _ => (s.setPanic, 0, Ty.int)
  insert_phi s cond_label (reg_num, reg_type, phi_vec)

/-- `FunctionCodeGen::finalize_phi_set_for_loop_cond`.  The body-end
predecessor is read off the cond block's predecessor list; with two
predecessors and no proxy the source `unwrap`s `None` and panics. -/
def finalize_phi_set_for_loop_cond (s : St) (pred_label cond_label : Nat)
    (proxy_label : Option Nat) (stub_info : List (String × Value × Value)) : St :=
  let (s, end_body_label) :=
    match s.blocks.get? cond_label with
    | none => (s.setPanic, UNREACHABLE_LABEL)
    | some b =>
        match b.predecessors with
        | [_] => (s, UNREACHABLE_LABEL)
        | [p0, p1] => (s, if p0 ≠ pred_label then p0 else p1)
        | _ => (s.setPanic, UNREACHABLE_LABEL)
  stub_info.foldl (finalize_step pred_label cond_label proxy_label end_body_label) s

/-- The shared body of the `Incr`/`Decr` statement arms. -/
def process_incr_decr (ctx : Ctx) (fuel : Nat) (op : ArithOp) (lhs : Expr)
    (cur_label : Nat) (s : St) : St × Nat :=
  match lhs with
  | .litVar var_name =>
      let (s, new_reg) := get_new_reg_num s
      let val_l := get_variable s cur_label var_name
      let val_r := Value.litInt 1
      let s := push_op s cur_label (.arithmetic new_reg op val_l val_r)
      let val_res := Value.register new_reg .int
      (update_existing_local_variable s cur_label var_name val_res, cur_label)
  | .arrayElem _ _ | .objField _ _ _ =>
      let (s, cur_label, ref_val) := process_lvalue_ref_expression ctx fuel lhs cur_label s
      let (s, loaded_reg) := get_new_reg_num s
      let (s, changed_reg) := get_new_reg_num s -- after +/- 1
      let s := push_op s cur_label (.load loaded_reg ref_val)
      let s := push_op s cur_label
        (.arithmetic changed_reg op (.register loaded_reg .int) (.litInt 1))
      let changed_value := Value.register changed_reg .int
      let s := push_op s cur_label (.store changed_value ref_val)
      (s, cur_label)
  | _ => (s.setPanic, cur_label)

/-- The item loop of the `Decl` statement arm. -/
def process_decl_items (ctx : Ctx) (fuel : Nat) (var_type : AstType) :
    List (String × Option Expr) → Nat → St → St × Nat
  | [], cur_label, s => (s, cur_label)
  | (var_name, var_init) :: rest, cur_label, s =>
      let (s, cur_label, value) :=
        match var_init with
        | some e => process_expression ctx fuel e cur_label s
        | none =>
            match var_type with
            | .int => (s, cur_label, Value.litInt 0)
            | .bool => (s, cur_label, Value.litBool false)
            | .string | .array _ | .cls _ =>
                (s, cur_label, Value.litNullPtr (some (Ty.from_ast var_type)))
            | .null | .void => (s.setPanic, cur_label, Value.litInt 0)
      let s := add_new_local_variable s cur_label var_name value
      process_decl_items ctx fuel var_type rest cur_label s

mutual

/-- `FunctionCodeGen::process_block`: optionally open a new block branched
to from the parent, then drive the statement list. -/
def process_block (ctx : Ctx) : Nat → List Stmt → Nat → Bool → St → St × Nat
  | 0, _, _, _, s => (s, UNREACHABLE_LABEL)
  | fuel + 1, stmts, parent_label, allocate_flag, s =>
      let (s, cur_label) :=
        if allocate_flag then
          let (s, new_label) := allocate_new_block s parent_label
          (add_branch1_op s parent_label new_label, new_label)
        else
          (s, parent_label)
      process_stmts ctx fuel stmts cur_label s
termination_by structural fuel _ _ _ _ => fuel

/-- The statement loop of `FunctionCodeGen::process_block`: the
`UNREACHABLE` sentinel short-circuits the remaining statements. -/
def process_stmts (ctx : Ctx) : Nat → List Stmt → Nat → St → St × Nat
  | 0, _, _, s => (s, UNREACHABLE_LABEL)
  | _ + 1, [], cur_label, s => (s, cur_label)
  | fuel + 1, stmt :: rest, cur_label, s =>
      let (s, cur_label') := process_stmt ctx fuel stmt cur_label s
      if cur_label' = UNREACHABLE_LABEL then
        (s, UNREACHABLE_LABEL)
      else
        process_stmts ctx fuel rest cur_label' s
termination_by structural fuel _ _ _ => fuel

/-- One statement of `FunctionCodeGen::process_block`'s `for` loop. -/
def process_stmt (ctx : Ctx) : Nat → Stmt → Nat → St → St × Nat
  | 0, _, _, s => (s, UNREACHABLE_LABEL)
  | fuel + 1, stmt, cur_label, s =>
    match stmt with
    | .empty => (s, cur_label)
    | .block bl =>
        let (s, end_block_label) := process_block ctx fuel bl cur_label true s
        if end_block_label = UNREACHABLE_LABEL then
          (s, UNREACHABLE_LABEL)
        else
          let (s, cont_label) := allocate_new_block s cur_label
          let s := add_branch1_op s end_block_label cont_label
          (s, cont_label)
    | .decl var_type var_items =>
        process_decl_items ctx fuel var_type var_items cur_label s
    | .assign lhs rhs =>
        let (s, cur_label, rhs_value) := process_expression ctx fuel rhs cur_label s
        match lhs with
        | .litVar var_name =>
            (update_existing_local_variable s cur_label var_name rhs_value, cur_label)
        | .arrayElem _ _ | .objField _ _ _ =>
            let (s, cur_label, ref_val) :=
              process_lvalue_ref_expression ctx fuel lhs cur_label s
            (push_op s cur_label (.store rhs_value ref_val), cur_label)
        | _ => (s.setPanic, cur_label)
    | .incr lhs => process_incr_decr ctx fuel .add lhs cur_label s
    | .decr lhs => process_incr_decr ctx fuel .sub lhs cur_label s
    | .ret opt_expr =>
        let (s, cur_label, opt_value) :=
          match opt_expr with
          | some e =>
              let (s, cur_label, v) := process_expression ctx fuel e cur_label s
              (s, cur_label, some v)
          | none => (s, cur_label, none)
        let opt_value :=
          match opt_value with
          | some (Value.register _ .void) => none
          | _ => opt_value
        let s := push_op s cur_label (.ret opt_value)
        (s, UNREACHABLE_LABEL)
    | .cond c true_branch false_branch =>
      match c with
      | .litBool true =>
          let (s, end_true_label) := process_block ctx fuel true_branch cur_label true s
          if end_true_label = UNREACHABLE_LABEL then
            (s, UNREACHABLE_LABEL)
          else
            let (s, cont_label) := allocate_new_block s cur_label
            let s := add_branch1_op s end_true_label cont_label
            (s, cont_label)
      | .litBool false =>
          match false_branch with
          | some bl =>
              let (s, end_false_label) := process_block ctx fuel bl cur_label true s
              if end_false_label = UNREACHABLE_LABEL then
                (s, UNREACHABLE_LABEL)
              else
                let (s, cont_label) := allocate_new_block s cur_label
                let s := add_branch1_op s end_false_label cont_label
                (s, cont_label)
          | none => (s, cur_label)
      | _ =>
        match false_branch with
        | none =>
            let (s, true_label) := allocate_new_block s cur_label
            -- the extra false block simplifies calculation of the phi set
            let (s, false_label) := allocate_new_block s cur_label
            let (s, cont_label) := allocate_new_block s cur_label
            let s := process_expression_cond ctx fuel c cur_label true_label false_label s
            let (s, true_proxy_label) := create_proxy_env s true_label
            let (s, end_true_label) := process_block ctx fuel true_branch true_label false s
            let s := add_branch1_op s false_label cont_label
            let s :=
              if end_true_label ≠ UNREACHABLE_LABEL then
                let s := add_branch1_op s end_true_label cont_label
                calculate_phi_set_for_if s cur_label cont_label
                  (end_true_label, true_proxy_label) (false_label, false_label)
              else
                s
            (s, cont_label)
        | some bl =>
            let (s, true_label) := allocate_new_block s cur_label
            let (s, false_label) := allocate_new_block s cur_label
            let s := process_expression_cond ctx fuel c cur_label true_label false_label s
            let (s, true_proxy_label) := create_proxy_env s true_label
            let (s, false_proxy_label) := create_proxy_env s false_label
            let (s, end_true_label) := process_block ctx fuel true_branch true_label false s
            let (s, end_false_label) := process_block ctx fuel bl false_label false s
            if end_true_label = UNREACHABLE_LABEL then
              if end_false_label = UNREACHABLE_LABEL then
                (s, UNREACHABLE_LABEL)
              else
                let (s, cont_label) := allocate_new_block s cur_label
                let s := add_branch1_op s end_false_label cont_label
                let s := apply_proxy_env s false_proxy_label cont_label
                (s, cont_label)
            else
              if end_false_label = UNREACHABLE_LABEL then
                let (s, cont_label) := allocate_new_block s cur_label
                let s := add_branch1_op s end_true_label cont_label
                let s := apply_proxy_env s true_proxy_label cont_label
                (s, cont_label)
              else
                let (s, cont_label) := allocate_new_block s cur_label
                let s := add_branch1_op s end_false_label cont_label
                let s := add_branch1_op s end_true_label cont_label
                let s := calculate_phi_set_for_if s cur_label cont_label
                  (end_true_label, true_proxy_label) (end_false_label, false_proxy_label)
                (s, cont_label)
    | .whileStmt c body =>
      match c with
      | .litBool false => (s, cur_label)
      | .litBool true =>
          let (s, body_label) := allocate_new_block s cur_label
          let (s, stub_info) :=
            prepare_env_and_stub_phi_set_for_loop_cond s cur_label body_label
          let s := add_branch1_op s cur_label body_label
          let (s, end_body_label) := process_block ctx fuel body body_label false s
          let s :=
            if end_body_label ≠ UNREACHABLE_LABEL then
              add_branch1_op s end_body_label body_label
            else
              s
          let s := finalize_phi_set_for_loop_cond s cur_label body_label none stub_info
          (s, UNREACHABLE_LABEL)
      | _ =>
          let (s, cond_label) := allocate_new_block s cur_label
          let (s, stub_info) :=
            prepare_env_and_stub_phi_set_for_loop_cond s cur_label cond_label
          let (s, body_label) := allocate_new_block s cond_label
          let (s, cont_label) := allocate_new_block s cond_label
          let (s, proxy_label) := create_proxy_env s body_label
          let s := add_branch1_op s cur_label cond_label
          let s := process_expression_cond ctx fuel c cond_label body_label cont_label s
          let (s, end_body_label) := process_block ctx fuel body body_label false s
          let s :=
            if end_body_label ≠ UNREACHABLE_LABEL then
              add_branch1_op s end_body_label cond_label
            else
              s
          let s := finalize_phi_set_for_loop_cond s cur_label cond_label
            (some proxy_label) stub_info
          (s, cont_label)
    | .forEach iter_type iter_name array body =>
        -- calculate array
        let (s, cur_label, arr_val) := process_expression ctx fuel array cur_label s
        let arr_type := arr_val.get_type
        let elem_type := Ty.from_ast iter_type
        -- calculate its length
        let (s, length_reg) := get_new_reg_num s
        let (s, length_ref_val) :=
          generate_calculation_of_ref_to_array_length s cur_label arr_val
        let s := push_op s cur_label (.load length_reg length_ref_val)
        let length_val := Value.register length_reg .int
        -- calc base+length=end
        let (s, end_ptr_reg) := get_new_reg_num s
        let s := push_op s cur_label
          (.getElementPtr end_ptr_reg elem_type [arr_val, length_val])
        let end_ptr_val := Value.register end_ptr_reg arr_type
        -- loop: while it<end { name=*it; it++; <body> }
        let (s, cond_label) := allocate_new_block s cur_label
        let (s, stub_info) :=
          prepare_env_and_stub_phi_set_for_loop_cond s cur_label cond_label
        let (s, body_label) := allocate_new_block s cond_label
        let (s, cont_label) := allocate_new_block s cond_label
        let (s, proxy_label) := create_proxy_env s body_label
        let s := add_branch1_op s cur_label cond_label
        -- loop cond
        let (s, cur_it_reg) := get_new_reg_num s
        let (s, next_it_reg) := get_new_reg_num s
        let (s, cond_reg) := get_new_reg_num s
        let cur_it_val := Value.register cur_it_reg arr_type
        let next_it_val := Value.register next_it_reg arr_type
        let cond_val := Value.register cond_reg .bool
        let s := push_op s cond_label (.compare cond_reg .lt cur_it_val end_ptr_val)
        let s := add_branch2_op s cond_label cond_val body_label cont_label
        -- loop body
        let (s, loaded_iter_reg) := get_new_reg_num s
        let loaded_iter_val := Value.register loaded_iter_reg elem_type
        let s := push_op s body_label (.load loaded_iter_reg cur_it_val)
        let (s, loop_iter_env_label) := insert_empty_proxy_frame s body_label
        let s := add_new_local_variable s loop_iter_env_label iter_name loaded_iter_val
        let s := push_op s body_label
          (.getElementPtr next_it_reg elem_type [cur_it_val, .litInt 1])
        let (s, end_body_label) := process_block ctx fuel body body_label false s
        let phi_vec := [(arr_val, cur_label)] -- for iter ptr
        let (s, phi_vec) :=
          if end_body_label ≠ UNREACHABLE_LABEL then
            (add_branch1_op s end_body_label cond_label,
             phi_vec ++ [(next_it_val, end_body_label)])
          else
            (s, phi_vec)
        let s := finalize_phi_set_for_loop_cond s cur_label cond_label
          (some proxy_label) stub_info
        let s := insert_phi s cond_label (cur_it_reg, arr_type, phi_vec)
        (s, cont_label)
    | .expr e =>
        let (s, new_label, _) := process_expression ctx fuel e cur_label s
        (s, new_label)
    | .error => (s.setPanic, cur_label)
termination_by structural fuel _ _ _ => fuel

end

/-- The initial `FunctionCodeGen` state (`FunctionCodeGen::new` plus
`Env::new`): only the arguments frame exists, no blocks, register counter
zero, and the caller-supplied global-string table. -/
def mk_codegen (global_strings : List (String × Nat)) : St where
  frames := [(ARGS_LABEL, ⟨none, []⟩)]
  next_proxy_frame := INITIAL_PROXY_LABEL
  blocks := []
  next_reg_num := 0
  global_strings := global_strings
  panicked := false

/-- The `add_to_args` closure of `generate_function_ir`. -/
def add_to_args (s : St) (ir_args : List (Nat × Ty)) (arg_type : Ty)
    (arg_name : String) : St × List (Nat × Ty) :=
  let (s, reg_num) := get_new_reg_num s
  let arg_val := Value.register reg_num arg_type
  (add_new_local_variable s ARGS_LABEL arg_name arg_val,
   ir_args ++ [(reg_num, arg_type)])

/-- The parameter loop of `generate_function_ir`. -/
def add_args_loop : List (AstType × String) → St → List (Nat × Ty) → St × List (Nat × Ty)
  | [], s, acc => (s, acc)
  | (ast_type, ast_ident) :: rest, s, acc =>
      let (s, acc) := add_to_args s acc (Ty.from_ast ast_type) ast_ident
      add_args_loop rest s acc

mutual

/-- Executable size of an expression (fuel accounting). -/
def Expr.fsize : Expr → Nat
  | .litVar _ => 1
  | .litInt _ => 1
  | .litBool _ => 1
  | .litStr _ => 1
  | .litNull => 1
  | .castType e _ => e.fsize + 1
  | .funCall _ args => exprListFsize args + 1
  | .binaryOp lhs _ rhs => lhs.fsize + rhs.fsize + 1
  | .unaryOp _ e => e.fsize + 1
  | .newArray _ e => e.fsize + 1
  | .newObject _ => 1
  | .arrayElem a i => a.fsize + i.fsize + 1
  | .objField o _ _ => o.fsize + 1
  | .objMethodCall o _ args => o.fsize + exprListFsize args + 1
termination_by e => sizeOf e

/-- Executable size of an expression list. -/
def exprListFsize : List Expr → Nat
  | [] => 1
  | e :: rest => e.fsize + exprListFsize rest + 1
termination_by l => sizeOf l

end

mutual

/-- Executable size of a statement (fuel accounting). -/
def Stmt.fsize : Stmt → Nat
  | .empty => 1
  | .block stmts => stmtListFsize stmts + 1
  | .decl _ items => declItemsFsize items + 1
  | .assign lhs rhs => lhs.fsize + rhs.fsize + 1
  | .incr lhs => lhs.fsize + 1
  | .decr lhs => lhs.fsize + 1
  | .ret none => 1
  | .ret (some e) => e.fsize + 1
  | .cond c tb none => c.fsize + stmtListFsize tb + 1
  | .cond c tb (some fb) => c.fsize + stmtListFsize tb + stmtListFsize fb + 1
  | .whileStmt c body => c.fsize + stmtListFsize body + 1
  | .forEach _ _ a body => a.fsize + stmtListFsize body + 1
  | .expr e => e.fsize + 1
  | .error => 1
termination_by st => sizeOf st

/-- Executable size of a statement list. -/
def stmtListFsize : List Stmt → Nat
  | [] => 1
  | st :: rest => st.fsize + stmtListFsize rest + 1
termination_by l => sizeOf l

/-- Executable size of a declaration item list. -/
def declItemsFsize : List (String × Option Expr) → Nat
  | [] => 1
  | (_, none) :: rest => declItemsFsize rest + 1
  | (_, some e) :: rest => e.fsize + declItemsFsize rest + 1
termination_by l => sizeOf l

end

/-- The fuel supplied to the structurally recursive drivers; it strictly
dominates the recursion depth of the Rust original on this input. -/
def fuel_of (fun_def : FunDef) : Nat := 4 * stmtListFsize fun_def.body + 16

/-- `FunctionCodeGen::generate_function_ir`.  Also returns the final
builder state (for the global-string table and the panic flag). -/
def generate_function_ir (ctx : Ctx) (global_strings : List (String × Nat))
    (fun_def : FunDef) : IRFunction × St :=
  let s := mk_codegen global_strings
  let (s, ir_args, fun_name) :=
    match ctx.class_ctx with
    | some class_name =>
        let fun_name := format_method_name class_name fun_def.name
        let (s, ir_args) := add_to_args s [] (Ty.from_class_name class_name) THIS_VAR
        (s, ir_args, fun_name)
    | none => (s, ([] : List (Nat × Ty)), fun_def.name)
  let (s, ir_args) := add_args_loop fun_def.args s ir_args
  let (s, entry_point) := allocate_new_block s ARGS_LABEL
  let (s, last_label) := process_block ctx (fuel_of fun_def) fun_def.body entry_point false s
  let s :=
    if last_label ≠ UNREACHABLE_LABEL then
      push_op s last_label (.ret none)
    else
      s
  ({ ret_type := Ty.from_ast fun_def.ret_type
     name := fun_name
     args := ir_args
     blocks := s.blocks }, s)



/-! ### Generic association-list lemmas -/

theorem mapGet_append_of_none {α β : Type} [DecidableEq α] (l : List (α × β))
    (k : α) (v : β) (h : mapGet l k = none) :
    mapGet (l ++ [(k, v)]) k = some v := by
  unfold mapGet at *
  rw [List.find?_append]
  have hf : l.find? (fun p => decide (p.1 = k)) = none := by
    cases hfind : l.find? (fun p => decide (p.1 = k)) with
    | none => rfl
    | some p => rw [hfind] at h; simp at h
  rw [hf]
  simp [List.find?]

/-! ### C8: interning of string literals -/

/-- C8.  Interning of non-empty string literals is idempotent on equal
content: the first occurrence of a string inserts it into the
global-string table with a fresh `GlobalStrNum` (here: fresh relative to a
table whose numbers are below its length, as every table built by
`get_global_string` is); every later call with equal content leaves the
table unchanged and returns the same global symbol; and the `LitStr` arm
of `process_expression` emits a `CastGlobalString` of byte length
`len + 1` on the interned symbol. -/
theorem global_string_interning
    (s : St) (str : String)
    (hvals : ∀ v ∈ s.global_strings.map Prod.snd, v < s.global_strings.length) :
    ((get_global_string (get_global_string s str).1 str).2 = (get_global_string s str).2
      ∧ (get_global_string (get_global_string s str).1 str).1 = (get_global_string s str).1)
    ∧ (mapGet s.global_strings str = none →
        (get_global_string s str).1.global_strings
            = s.global_strings ++ [(str, s.global_strings.length)]
          ∧ (get_global_string s str).2
              = .globalRegister (format_global_string s.global_strings.length) (.ptr .char)
          ∧ s.global_strings.length ∉ s.global_strings.map Prod.snd)
    ∧ (∀ num, mapGet s.global_strings str = some num →
        get_global_string s str = (s, .globalRegister (format_global_string num) (.ptr .char)))
    ∧ (∀ ctx fuel cur, str ≠ "" →
        process_expression ctx (fuel + 1) (.litStr str) cur s =
          (push_op (get_global_string { s with next_reg_num := s.next_reg_num + 1 } str).1 cur
            (.castGlobalString s.next_reg_num (str.utf8ByteSize + 1)
              (get_global_string { s with next_reg_num := s.next_reg_num + 1 } str).2),
           cur, .register s.next_reg_num (.ptr .char))) := by
  refine ⟨?_, ?_, ?_, ?_⟩
  · rcases h : mapGet s.global_strings str with _ | num
    · have h2 := mapGet_append_of_none s.global_strings str s.global_strings.length h
      constructor <;> simp [get_global_string, h, h2]
    · constructor <;> simp [get_global_string, h]
  · intro h
    have hfresh : s.global_strings.length ∉ s.global_strings.map Prod.snd := by
      intro hmem
      exact absurd (hvals _ hmem) (lt_irrefl _)
    refine ⟨?_, ?_, hfresh⟩ <;> simp [get_global_string, h]
  · intro num h
    simp [get_global_string, h]
  · intro ctx fuel cur hne
    rcases h : mapGet s.global_strings str with _ | num <;>
      simp [process_expression, hne, get_new_reg_num, get_global_string, h]

/-- Witness for `global_string_interning` at a concrete table and string. -/
theorem global_string_interning_witness :
    ((get_global_string (get_global_string ⟨[], INITIAL_PROXY_LABEL, [], 0, [("a", 0)], false⟩ "b").1 "b").2
        = (get_global_string ⟨[], INITIAL_PROXY_LABEL, [], 0, [("a", 0)], false⟩ "b").2
      ∧ (get_global_string (get_global_string ⟨[], INITIAL_PROXY_LABEL, [], 0, [("a", 0)], false⟩ "b").1 "b").1
        = (get_global_string ⟨[], INITIAL_PROXY_LABEL, [], 0, [("a", 0)], false⟩ "b").1) := by
  have h := global_string_interning ⟨[], INITIAL_PROXY_LABEL, [], 0, [("a", 0)], false⟩ "b"
    (by decide)
  exact h.1



theorem mapGet_cons {α β : Type} [DecidableEq α] (p : α × β) (l : List (α × β)) (k : α) :
    mapGet (p :: l) k = if p.1 = k then some p.2 else mapGet l k := by
  unfold mapGet
  rw [List.find?_cons]
  by_cases hp : p.1 = k <;> simp [hp]

theorem mapGet_replace_self {α β : Type} [DecidableEq α] (l : List (α × β)) (k : α) (v : β)
    (h : (mapGet l k).isSome) :
    mapGet (l.map (fun p => if p.1 = k then (k, v) else p)) k = some v := by
  induction l with
  | nil => simp [mapGet] at h
  | cons p rest ih =>
      rw [mapGet_cons] at h
      by_cases hp : p.1 = k
      · simp only [List.map_cons, if_pos hp]
        rw [mapGet_cons]
        simp
      · simp only [List.map_cons, if_neg hp]
        rw [mapGet_cons, if_neg hp]
        rw [if_neg hp] at h
        exact ih h

theorem mapGet_replace_ne {α β : Type} [DecidableEq α] (l : List (α × β)) (k k' : α) (v : β)
    (h : k' ≠ k) :
    mapGet (l.map (fun p => if p.1 = k then (k, v) else p)) k' = mapGet l k' := by
  induction l with
  | nil => simp [mapGet]
  | cons p rest ih =>
      by_cases hp : p.1 = k
      · simp only [List.map_cons, if_pos hp]
        rw [mapGet_cons, mapGet_cons]
        have hk : ¬(k = k') := fun hh => h hh.symm
        rw [if_neg hk, if_neg (by rw [hp]; exact hk)]
        exact ih
      · simp only [List.map_cons, if_neg hp]
        rw [mapGet_cons, mapGet_cons]
        by_cases hq : p.1 = k'
        · simp [hq]
        · rw [if_neg hq, if_neg hq]
          exact ih

theorem mapGet_append_single_ne {α β : Type} [DecidableEq α] (l : List (α × β))
    (k k' : α) (v : β) (h : k' ≠ k) :
    mapGet (l ++ [(k, v)]) k' = mapGet l k' := by
  induction l with
  | nil =>
      rw [List.nil_append, mapGet_cons]
      rw [if_neg (fun hh => h hh.symm)]
  | cons p rest ih =>
      rw [List.cons_append, mapGet_cons, mapGet_cons]
      by_cases hq : p.1 = k'
      · simp [hq]
      · rw [if_neg hq, if_neg hq]
        exact ih

theorem mapGet_mapSet_self {α β : Type} [DecidableEq α] (l : List (α × β)) (k : α) (v : β) :
    mapGet (mapSet l k v) k = some v := by
  unfold mapSet
  split
  · next hfound =>
      exact mapGet_replace_self l k v (by unfold mapGet; cases hfind : l.find? (fun p => decide (p.1 = k)) with
        | none => rw [hfind] at hfound; simp at hfound
        | some p => simp [hfind])
  · next hfound =>
      apply mapGet_append_of_none
      unfold mapGet
      cases hfind : l.find? (fun p => decide (p.1 = k)) with
      | none => rfl
      | some p => rw [hfind] at hfound; simp at hfound

theorem mapGet_mapSet_ne {α β : Type} [DecidableEq α] (l : List (α × β)) (k k' : α) (v : β)
    (h : k' ≠ k) : mapGet (mapSet l k v) k' = mapGet l k' := by
  unfold mapSet
  split
  · exact mapGet_replace_ne l k k' v h
  · exact mapGet_append_single_ne l k k' v h

theorem mem_keys_of_mapGet_isSome {α β : Type} [DecidableEq α] {l : List (α × β)} {k : α}
    (h : (mapGet l k).isSome) : k ∈ l.map Prod.fst := by
  induction l with
  | nil => simp [mapGet] at h
  | cons p rest ih =>
      rw [mapGet_cons] at h
      by_cases hp : p.1 = k
      · simp only [List.map_cons, List.mem_cons]
        exact Or.inl hp.symm
      · rw [if_neg hp] at h
        simp only [List.map_cons, List.mem_cons]
        exact Or.inr (ih h)

/-- `mapSet` keeps the key multiset sensible: its keys are the old keys,
plus `k` appended when it was absent. -/
theorem mapSet_keys_subset {α β : Type} [DecidableEq α] (l : List (α × β)) (k : α) (v : β) :
    ((mapSet l k v).map Prod.fst) = l.map Prod.fst ∨
    ((mapSet l k v).map Prod.fst) = l.map Prod.fst ++ [k] := by
  unfold mapSet
  split
  · left
    induction l with
    | nil => simp
    | cons p rest _ =>
        simp only [List.map_map, List.map_inj_left, Function.comp_apply]
        intro q _
        by_cases hq : q.1 = k
        · rw [if_pos hq]; exact hq.symm
        · rw [if_neg hq]
  · right
    simp

/-! ### Parent chains of the environment -/

/-- The frame labels encountered when walking the parent chain from a
frame down to the root (the arguments frame). -/
inductive ChainFrom (fs : List (Nat × EnvFrame)) : Nat → List Nat → Prop where
  | root (l : Nat) (fr : EnvFrame) :
      mapGet fs l = some fr → fr.parent = none → ChainFrom fs l [l]
  | step (l : Nat) (fr : EnvFrame) (p : Nat) (rest : List Nat) :
      mapGet fs l = some fr → fr.parent = some p →
      ChainFrom fs p rest → ChainFrom fs l (l :: rest)

theorem ChainFrom.mem_keys {fs : List (Nat × EnvFrame)} {l : Nat} {path : List Nat} (h : ChainFrom fs l path) :
    ∀ x ∈ path, x ∈ fs.map Prod.fst := by
  induction h with
  | root l fr hget _ =>
      intro x hx
      rw [List.mem_singleton] at hx
      subst hx
      exact mem_keys_of_mapGet_isSome (by rw [hget]; rfl)
  | step l fr p rest hget _ _ ih =>
      intro x hx
      rcases List.mem_cons.mp hx with rfl | hx
      · exact mem_keys_of_mapGet_isSome (by rw [hget]; rfl)
      · exact ih x hx

theorem ChainFrom.length_le {fs : List (Nat × EnvFrame)} {l : Nat} {path : List Nat}
    (h : ChainFrom fs l path) (hnd : path.Nodup) : path.length ≤ fs.length := by
  have hsub : path ⊆ fs.map Prod.fst := fun x hx => h.mem_keys x hx
  have := (List.subperm_of_subset hnd hsub).length_le
  simpa using this

/-- The first frame label along a path whose frame binds `name`. -/
def first_containing (fs : List (Nat × EnvFrame)) : List Nat → String → Option Nat
  | [], _ => none
  | l :: rest, name =>
      match mapGet fs l with
      | none => none
      | some fr =>
          if (mapGet fr.locals name).isSome then some l
          else first_containing fs rest name

/-- The value bound to `name` in the first frame along the path that
binds it. -/
def chain_lookup (fs : List (Nat × EnvFrame)) : List Nat → String → Option Value
  | [], _ => none
  | l :: rest, name =>
      match mapGet fs l with
      | none => none
      | some fr =>
          match mapGet fr.locals name with
          | some v => some v
          | none => chain_lookup fs rest name

theorem get_variable_walk_eq_chain {fs : List (Nat × EnvFrame)} {name : String} :
    ∀ {l : Nat} {path : List Nat} {fuel : Nat}, ChainFrom fs l path → path.length ≤ fuel →
    get_variable_walk fs name fuel (some l) = (chain_lookup fs path name).getD (.litInt 0) := by
  intro l path
  induction path generalizing l with
  | nil => intro fuel h; cases h
  | cons x rest ih =>
      intro fuel h hlen
      cases h with
      | root l fr hget hpar =>
          match fuel, hlen with
          | fuel + 1, _ =>
            simp only [get_variable_walk, hget, chain_lookup]
            cases hloc : mapGet fr.locals name with
            | none =>
                rw [hpar]
                cases fuel <;> simp [get_variable_walk]
            | some v => simp
      | step l fr p rest' hget hpar hch =>
          match fuel, hlen with
          | fuel + 1, hlen =>
            simp only [get_variable_walk, hget, chain_lookup]
            cases hloc : mapGet fr.locals name with
            | none =>
                rw [hpar]
                exact ih hch (by simpa using Nat.le_of_succ_le_succ hlen)
            | some v => simp

theorem update_walk_eq_chain_none {fs : List (Nat × EnvFrame)} {name : String} {v : Value} :
    ∀ {l : Nat} {path : List Nat} {fuel : Nat}, ChainFrom fs l path → path.length ≤ fuel →
    first_containing fs path name = none →
    update_walk name v fuel (some l) fs = none := by
  intro l path
  induction path generalizing l with
  | nil => intro fuel h; cases h
  | cons x rest ih =>
      intro fuel h hlen hfc
      cases h with
      | root l fr hget hpar =>
          match fuel, hlen with
          | fuel + 1, _ =>
            simp only [first_containing, hget] at hfc
            simp only [update_walk, hget]
            split at hfc
            · exact absurd hfc (by simp)
            · next hloc =>
                rw [if_neg hloc, hpar]
                cases fuel <;> simp [update_walk]
      | step l fr p rest' hget hpar hch =>
          match fuel, hlen with
          | fuel + 1, hlen =>
            simp only [first_containing, hget] at hfc
            simp only [update_walk, hget]
            split at hfc
            · exact absurd hfc (by simp)
            · next hloc =>
                rw [if_neg hloc, hpar]
                exact ih hch (by simpa using Nat.le_of_succ_le_succ hlen) hfc

theorem update_walk_eq_chain_some {fs : List (Nat × EnvFrame)} {name : String} {v : Value} :
    ∀ {l : Nat} {path : List Nat} {fuel : Nat} {f : Nat}, ChainFrom fs l path →
    path.length ≤ fuel →
    first_containing fs path name = some f →
    ∃ fr, mapGet fs f = some fr ∧ (mapGet fr.locals name).isSome ∧
      update_walk name v fuel (some l) fs =
        some (mapSet fs f { fr with locals := mapSet fr.locals name v }) := by
  intro l path
  induction path generalizing l with
  | nil => intro fuel f h; cases h
  | cons x rest ih =>
      intro fuel f h hlen hfc
      cases h with
      | root l fr hget hpar =>
          match fuel, hlen with
          | fuel + 1, _ =>
            simp only [first_containing, hget] at hfc
            simp only [update_walk, hget]
            split at hfc
            · next hloc =>
                rcases Option.some.inj hfc with rfl
                exact ⟨fr, hget, hloc, by rw [if_pos hloc]⟩
            · next hloc =>
                rw [if_neg hloc, hpar]
                exfalso
                cases fuel <;> simp [first_containing] at hfc
      | step l fr p rest' hget hpar hch =>
          match fuel, hlen with
          | fuel + 1, hlen =>
            simp only [first_containing, hget] at hfc
            simp only [update_walk, hget]
            split at hfc
            · next hloc =>
                rcases Option.some.inj hfc with rfl
                exact ⟨fr, hget, hloc, by rw [if_pos hloc]⟩
            · next hloc =>
                rw [if_neg hloc]
                rw [hpar]
                exact ih hch (by simpa using Nat.le_of_succ_le_succ hlen) hfc



theorem mapGet_isSome_of_mem_keys {α β : Type} [DecidableEq α] {l : List (α × β)} {k : α}
    (h : k ∈ l.map Prod.fst) : (mapGet l k).isSome := by
  induction l with
  | nil => simp at h
  | cons p rest ih =>
      rw [mapGet_cons]
      by_cases hp : p.1 = k
      · simp [hp]
      · rw [if_neg hp]
        rcases List.mem_cons.mp h with h1 | h1
        · exact absurd h1.symm hp
        · exact ih h1

theorem mapSet_mapSet_self {α β : Type} [DecidableEq α] (l : List (α × β)) (k : α) (v w : β) :
    mapSet (mapSet l k v) k w = mapSet l k w := by
  have hsome2 : (List.find? (fun p => decide (p.1 = k)) (mapSet l k v)).isSome := by
    have := mapGet_mapSet_self l k v
    unfold mapGet at this
    cases hf : (mapSet l k v).find? (fun p => decide (p.1 = k)) with
    | none => rw [hf] at this; simp at this
    | some p => rfl
  by_cases hfound : (List.find? (fun p => decide (p.1 = k)) l).isSome
  · have h1 : mapSet l k v = l.map (fun p => if p.1 = k then (k, v) else p) := by
      unfold mapSet; rw [if_pos hfound]
    have h2 : mapSet (mapSet l k v) k w
        = (mapSet l k v).map (fun p => if p.1 = k then (k, w) else p) := by
      generalize hM : mapSet l k v = M at hsome2 ⊢
      unfold mapSet
      rw [if_pos hsome2]
    have h3 : mapSet l k w = l.map (fun p => if p.1 = k then (k, w) else p) := by
      unfold mapSet; rw [if_pos hfound]
    rw [h2, h1, h3, List.map_map]
    apply List.map_congr_left
    intro q _
    by_cases hq : q.1 = k <;> simp [hq]
  · have h1 : mapSet l k v = l ++ [(k, v)] := by
      unfold mapSet; rw [if_neg hfound]
    have hnone : (List.find? (fun p => decide (p.1 = k)) l) = none := by
      cases hf : l.find? (fun p => decide (p.1 = k)) with
      | none => rfl
      | some p => rw [hf] at hfound; simp at hfound
    have h2 : mapSet (mapSet l k v) k w
        = (mapSet l k v).map (fun p => if p.1 = k then (k, w) else p) := by
      generalize hM : mapSet l k v = M at hsome2 ⊢
      unfold mapSet
      rw [if_pos hsome2]
    have h3 : mapSet l k w = l ++ [(k, w)] := by
      unfold mapSet; rw [if_neg hfound]
    rw [h2, h1, h3, List.map_append]
    have h4 : List.map (fun p => if p.1 = k then (k, w) else p) l = l := by
      conv_rhs => rw [← List.map_id l]
      apply List.map_congr_left
      intro q hq
      have : ¬q.1 = k := by
        intro hh
        rw [List.find?_eq_none] at hnone
        exact absurd (by simpa using hh) (by simpa using hnone q hq)
      rw [if_neg this]
      rfl
    rw [h4]
    simp

theorem mapSet_length_of_isSome {α β : Type} [DecidableEq α] {l : List (α × β)} {k : α}
    (v : β) (h : (mapGet l k).isSome) : (mapSet l k v).length = l.length := by
  unfold mapSet
  have : (List.find? (fun p => decide (p.1 = k)) l).isSome := by
    unfold mapGet at h
    cases hf : l.find? (fun p => decide (p.1 = k)) with
    | none => rw [hf] at h; simp at h
    | some p => rfl
  rw [if_pos this, List.length_map]

theorem mapSet_length_of_none {α β : Type} [DecidableEq α] {l : List (α × β)} {k : α}
    (v : β) (h : mapGet l k = none) : (mapSet l k v).length = l.length + 1 := by
  unfold mapSet
  have : ¬(List.find? (fun p => decide (p.1 = k)) l).isSome := by
    unfold mapGet at h
    cases hf : l.find? (fun p => decide (p.1 = k)) with
    | none => simp
    | some p => rw [hf] at h; simp at h
  rw [if_neg this, List.length_append, List.length_cons, List.length_nil]

theorem ChainFrom.transfer {fs fs' : List (Nat × EnvFrame)} {l : Nat} {path : List Nat}
    (h : ChainFrom fs l path)
    (hagree : ∀ x ∈ path, mapGet fs' x = mapGet fs x) :
    ChainFrom fs' l path := by
  induction h with
  | root l fr hget hpar =>
      exact ChainFrom.root l fr (by rw [hagree l (by simp), hget]) hpar
  | step l fr p rest hget hpar hch ih =>
      refine ChainFrom.step l fr p rest (by rw [hagree l (by simp), hget]) hpar (ih ?_)
      intro x hx
      exact hagree x (List.mem_cons_of_mem _ hx)

theorem chain_lookup_transfer {fs fs' : List (Nat × EnvFrame)} {path : List Nat} {name : String}
    (hagree : ∀ x ∈ path, mapGet fs' x = mapGet fs x) :
    chain_lookup fs' path name = chain_lookup fs path name := by
  induction path with
  | nil => rfl
  | cons x rest ih =>
      simp only [chain_lookup]
      rw [hagree x (by simp)]
      cases mapGet fs x with
      | none => rfl
      | some fr =>
          dsimp only
          cases mapGet fr.locals name with
          | some v => rfl
          | none => exact ih (fun y hy => hagree y (List.mem_cons_of_mem _ hy))

theorem ChainFrom.isSome_of_mem {fs : List (Nat × EnvFrame)} {l : Nat} {path : List Nat}
    (h : ChainFrom fs l path) : ∀ x ∈ path, (mapGet fs x).isSome := by
  induction h with
  | root l fr hget _ =>
      intro x hx
      rw [List.mem_singleton] at hx
      subst hx
      rw [hget]; rfl
  | step l fr p rest hget _ _ ih =>
      intro x hx
      rcases List.mem_cons.mp hx with rfl | hx
      · rw [hget]; rfl
      · exact ih x hx



theorem ChainFrom.head_eq {fs : List (Nat × EnvFrame)} {l : Nat} {path : List Nat} (h : ChainFrom fs l path) :
    path.head? = some l := by
  cases h <;> rfl

theorem chain_lookup_cons_miss {fs : List (Nat × EnvFrame)} {l : Nat} {path : List Nat} {fr : EnvFrame} {n : String}
    (h : mapGet fs l = some fr) (hn : mapGet fr.locals n = none) :
    chain_lookup fs (l :: path) n = chain_lookup fs path n := by
  simp [chain_lookup, h, hn]

theorem chain_lookup_cons_hit {fs : List (Nat × EnvFrame)} {l : Nat} {path : List Nat} {fr : EnvFrame} {n : String}
    {v : Value} (h : mapGet fs l = some fr) (hv : mapGet fr.locals n = some v) :
    chain_lookup fs (l :: path) n = some v := by
  simp [chain_lookup, h, hv]

/-! ### Specification of `create_proxy_env` -/

/-- The state after `insert_empty_proxy_frame s L`, with the proxy's
locals generalized (the snapshot fold only ever rewrites those). -/
def spliced (s : St) (L P p0 : Nat) (frL : EnvFrame) (locs : List (String × Value)) : St :=
  { s with
    next_proxy_frame := s.next_proxy_frame - 1,
    frames := mapSet (mapSet s.frames L { frL with parent := some p0 }) p0 ⟨some P, locs⟩ }

theorem insert_empty_proxy_frame_eq (s : St) (L P : Nat) (frL : EnvFrame)
    (hL : mapGet s.frames L = some frL) (hpar : frL.parent = some P)
    (hfresh : mapGet s.frames s.next_proxy_frame = none) :
    insert_empty_proxy_frame s L = (spliced s L P s.next_proxy_frame frL [], s.next_proxy_frame) := by
  have hne : s.next_proxy_frame ≠ L := by
    intro h
    rw [h, hL] at hfresh
    cases hfresh
  unfold insert_empty_proxy_frame
  simp only [hL, hpar]
  unfold allocate_new_frame
  rw [mapGet_mapSet_ne _ _ _ _ hne, hfresh]
  rfl

theorem spliced_frames_L (s : St) (L P p0 : Nat) (frL : EnvFrame) (locs : List (String × Value))
    (hL : mapGet s.frames L = some frL) (hne : p0 ≠ L) :
    mapGet (spliced s L P p0 frL locs).frames L = some { frL with parent := some p0 } := by
  unfold spliced
  dsimp only
  rw [mapGet_mapSet_ne _ _ _ _ (fun h => hne h.symm), mapGet_mapSet_self]

theorem spliced_frames_p0 (s : St) (L P p0 : Nat) (frL : EnvFrame) (locs : List (String × Value)) :
    mapGet (spliced s L P p0 frL locs).frames p0 = some ⟨some P, locs⟩ := by
  unfold spliced
  dsimp only
  rw [mapGet_mapSet_self]

theorem spliced_frames_other (s : St) (L P p0 : Nat) (frL : EnvFrame)
    (locs : List (String × Value)) (l : Nat) (h1 : l ≠ L) (h2 : l ≠ p0) :
    mapGet (spliced s L P p0 frL locs).frames l = mapGet s.frames l := by
  unfold spliced
  dsimp only
  rw [mapGet_mapSet_ne _ _ _ _ h2, mapGet_mapSet_ne _ _ _ _ h1]

theorem spliced_frames_length (s : St) (L P p0 : Nat) (frL : EnvFrame)
    (locs : List (String × Value)) (hL : mapGet s.frames L = some frL)
    (hfresh : mapGet s.frames p0 = none) :
    (spliced s L P p0 frL locs).frames.length = s.frames.length + 1 := by
  have hne : p0 ≠ L := by
    intro h
    rw [h, hL] at hfresh
    cases hfresh
  unfold spliced
  dsimp only
  rw [mapSet_length_of_none _ (by rw [mapGet_mapSet_ne _ _ _ _ hne]; exact hfresh)]
  rw [mapSet_length_of_isSome _ (by rw [hL]; rfl)]
theorem spliced_chain (s : St) (L P p0 : Nat) (frL : EnvFrame) (locs : List (String × Value))
    (rest' : List Nat) (hch : ChainFrom s.frames L (L :: P :: rest'))
    (hnd : (L :: P :: rest').Nodup)
    (hL : mapGet s.frames L = some frL)
    (hfresh : mapGet s.frames p0 = none) :
    ChainFrom (spliced s L P p0 frL locs).frames L (L :: p0 :: P :: rest') := by
  have hne : p0 ≠ L := by
    intro h
    rw [h, hL] at hfresh
    cases hfresh
  have hchP : ChainFrom s.frames P (P :: rest') := by
    cases hch with
    | step _ fr p rest hget hpar hch2 =>
        have hh := hch2.head_eq
        simp only [List.head?_cons, Option.some.injEq] at hh
        subst hh
        exact hch2
  have hnotin : ∀ x ∈ (P :: rest'), x ≠ L ∧ x ≠ p0 := by
    intro x hx
    constructor
    · intro h
      subst h
      exact (List.nodup_cons.mp hnd).1 hx
    · intro h
      subst h
      have := hch.isSome_of_mem x (List.mem_cons_of_mem _ hx)
      rw [hfresh] at this
      cases this
  have hchP' : ChainFrom (spliced s L P p0 frL locs).frames P (P :: rest') := by
    apply hchP.transfer
    intro x hx
    exact spliced_frames_other s L P p0 frL locs x (hnotin x hx).1 (hnotin x hx).2
  exact ChainFrom.step L { frL with parent := some p0 } p0 _
    (spliced_frames_L s L P p0 frL locs hL hne) rfl
    (ChainFrom.step p0 ⟨some P, locs⟩ P _ (spliced_frames_p0 s L P p0 frL locs) rfl hchP')

theorem get_variable_spliced (s : St) (L P p0 : Nat) (frL : EnvFrame)
    (locs : List (String × Value)) (rest' : List Nat) (n : String)
    (hch : ChainFrom s.frames L (L :: P :: rest'))
    (hnd : (L :: P :: rest').Nodup)
    (hL : mapGet s.frames L = some frL)
    (hfresh : mapGet s.frames p0 = none)
    (hn : mapGet locs n = none) :
    get_variable (spliced s L P p0 frL locs) L n = get_variable s L n := by
  have hne : p0 ≠ L := by
    intro h
    rw [h, hL] at hfresh
    cases hfresh
  have hnotin : ∀ x ∈ (P :: rest'), x ≠ L ∧ x ≠ p0 := by
    intro x hx
    refine ⟨fun h => ?_, fun h => ?_⟩
    · subst h
      exact (List.nodup_cons.mp hnd).1 hx
    · subst h
      have := hch.isSome_of_mem x (List.mem_cons_of_mem _ hx)
      rw [hfresh] at this
      cases this
  have hch' := spliced_chain s L P p0 frL locs rest' hch hnd hL hfresh
  have hlen : (L :: P :: rest').length ≤ s.frames.length := hch.length_le hnd
  have hlen' : (L :: p0 :: P :: rest').length ≤ (spliced s L P p0 frL locs).frames.length + 1 := by
    rw [spliced_frames_length s L P p0 frL locs hL hfresh]
    simp only [List.length_cons] at hlen ⊢
    omega
  unfold get_variable
  rw [get_variable_walk_eq_chain hch' hlen', get_variable_walk_eq_chain hch (by omega)]
  congr 1
  cases hloc : mapGet frL.locals n with
  | some v =>
      rw [chain_lookup_cons_hit (spliced_frames_L s L P p0 frL locs hL hne) hloc,
        chain_lookup_cons_hit hL hloc]
  | none =>
      rw [chain_lookup_cons_miss (spliced_frames_L s L P p0 frL locs hL hne) hloc,
        chain_lookup_cons_miss hL hloc,
        chain_lookup_cons_miss (spliced_frames_p0 s L P p0 frL locs) hn]
      apply chain_lookup_transfer
      intro x hx
      exact spliced_frames_other s L P p0 frL locs x (hnotin x hx).1 (hnotin x hx).2



theorem copy_fold_eq (s : St) (L P : Nat) (frL : EnvFrame) (rest' : List Nat)
    (hch : ChainFrom s.frames L (L :: P :: rest'))
    (hnd : (L :: P :: rest').Nodup)
    (hL : mapGet s.frames L = some frL)
    (hfresh : mapGet s.frames s.next_proxy_frame = none) :
    ∀ (names : List String) (locs : List (String × Value)),
    names.Nodup → (∀ n ∈ names, mapGet locs n = none) →
    names.foldl (copy_into_frame s.next_proxy_frame L) (spliced s L P s.next_proxy_frame frL locs)
      = spliced s L P s.next_proxy_frame frL
          (names.foldl (fun ls n => mapSet ls n (get_variable s L n)) locs) := by
  intro names
  induction names with
  | nil => intro locs _ _; rfl
  | cons n rest ih =>
      intro locs hnodup hnone
      have hstep : copy_into_frame s.next_proxy_frame L
          (spliced s L P s.next_proxy_frame frL locs) n
          = spliced s L P s.next_proxy_frame frL (mapSet locs n (get_variable s L n)) := by
        unfold copy_into_frame
        rw [get_variable_spliced s L P s.next_proxy_frame frL locs rest' n hch hnd hL hfresh
          (hnone n (by simp))]
        rw [spliced_frames_p0]
        unfold spliced
        simp only [St.mk.injEq, and_true, true_and]
        rw [mapSet_mapSet_self]
      rw [List.foldl_cons, hstep]
      apply ih
      · exact (List.nodup_cons.mp hnodup).2
      · intro m hm
        have hmn : m ≠ n := by
          intro h
          subst h
          exact (List.nodup_cons.mp hnodup).1 hm
        rw [mapGet_mapSet_ne _ _ _ _ hmn]
        exact hnone m (List.mem_cons_of_mem _ hm)

/-- The proxy locals produced by the snapshot: every visible name bound to
its pre-snapshot value. -/
def snapshot_locals (s : St) (L : Nat) : List (String × Value) :=
  (get_all_visible_local_variables s L).foldl
    (fun ls n => mapSet ls n (get_variable s L n)) []

theorem create_proxy_env_eq (s : St) (L P : Nat) (frL : EnvFrame) (rest' : List Nat)
    (hch : ChainFrom s.frames L (L :: P :: rest'))
    (hnd : (L :: P :: rest').Nodup)
    (hL : mapGet s.frames L = some frL)
    (hpar : frL.parent = some P)
    (hfresh : mapGet s.frames s.next_proxy_frame = none) :
    create_proxy_env s L
      = (spliced s L P s.next_proxy_frame frL (snapshot_locals s L), s.next_proxy_frame) := by
  unfold create_proxy_env
  rw [insert_empty_proxy_frame_eq s L P frL hL hpar hfresh]
  dsimp only
  have hnodup : (get_all_visible_local_variables s L).Nodup := by
    unfold get_all_visible_local_variables
    exact List.nodup_dedup _
  rw [copy_fold_eq s L P frL rest' hch hnd hL hfresh
    (get_all_visible_local_variables s L) [] hnodup (fun n _ => rfl)]
  rfl

theorem foldl_mapSet_get_notmem {g : String → Value} {names : List String}
    {locs : List (String × Value)} {n : String} (h : n ∉ names) :
    mapGet (names.foldl (fun ls m => mapSet ls m (g m)) locs) n = mapGet locs n := by
  induction names generalizing locs with
  | nil => rfl
  | cons m rest ih =>
      rw [List.foldl_cons]
      rw [ih (fun hmem => h (List.mem_cons_of_mem _ hmem))]
      exact mapGet_mapSet_ne _ _ _ _ (fun hh => h (hh ▸ List.mem_cons_self m rest))

theorem foldl_mapSet_get_mem {g : String → Value} {names : List String}
    {locs : List (String × Value)} {n : String} (hnd : names.Nodup) (h : n ∈ names) :
    mapGet (names.foldl (fun ls m => mapSet ls m (g m)) locs) n = some (g n) := by
  induction names generalizing locs with
  | nil => simp at h
  | cons m rest ih =>
      rw [List.foldl_cons]
      rcases List.mem_cons.mp h with rfl | hmem
      · rw [foldl_mapSet_get_notmem (List.nodup_cons.mp hnd).1]
        exact mapGet_mapSet_self _ _ _
      · exact ih (List.nodup_cons.mp hnd).2 hmem



/-! ### C2: proxy frames and updates -/

/-- C2, counterexample.  Environment: the arguments frame binds `x` to
`LitInt 0`; frame `0` (empty) is its child.  After `create_proxy_env 0`
and `update(0, x, LitInt 1)`: the arguments frame still binds `x` to `0`
(the update did **not** rebind past the proxy into the real enclosing
scope) and the proxy maps `x` to the **new** value `1`, not its
pre-snapshot value `0` — contradicting the claim. -/
theorem proxy_update_counterexample :
    (mapGet ((mapGet (update_existing_local_variable
        (create_proxy_env ⟨[(ARGS_LABEL, ⟨none, [("x", .litInt 0)]⟩),
          (0, ⟨some ARGS_LABEL, []⟩)], INITIAL_PROXY_LABEL, [], 0, [], false⟩ 0).1
        0 "x" (.litInt 1)).frames ARGS_LABEL).getD ⟨none, []⟩).locals "x"
      = some (.litInt 0))
    ∧ (mapGet ((mapGet (update_existing_local_variable
        (create_proxy_env ⟨[(ARGS_LABEL, ⟨none, [("x", .litInt 0)]⟩),
          (0, ⟨some ARGS_LABEL, []⟩)], INITIAL_PROXY_LABEL, [], 0, [], false⟩ 0).1
        0 "x" (.litInt 1)).frames INITIAL_PROXY_LABEL).getD ⟨none, []⟩).locals "x"
      = some (.litInt 1))
    ∧ ¬(mapGet ((mapGet (update_existing_local_variable
        (create_proxy_env ⟨[(ARGS_LABEL, ⟨none, [("x", .litInt 0)]⟩),
          (0, ⟨some ARGS_LABEL, []⟩)], INITIAL_PROXY_LABEL, [], 0, [], false⟩ 0).1
        0 "x" (.litInt 1)).frames INITIAL_PROXY_LABEL).getD ⟨none, []⟩).locals "x"
      = some (.litInt 0)) := by
  refine ⟨by decide, by decide, by decide⟩

/-- C2, amended.  After `create_proxy_env` snapshots every visible binding
of frame `L` into the spliced proxy, a subsequent `update(L, name, v)`
rebinds `name` in `L` itself when `L`'s own frame binds it, and otherwise
in the **proxy** (which absorbs the update and afterwards maps `name` to
the new value `v`, not to its pre-snapshot value); every frame other than
`L` and the proxy keeps its pre-snapshot bindings unchanged. -/
theorem proxy_update_amended
    (s : St) (L P : Nat) (frL : EnvFrame) (rest' : List Nat) (name : String) (v : Value)
    (hch : ChainFrom s.frames L (L :: P :: rest'))
    (hnd : (L :: P :: rest').Nodup)
    (hL : mapGet s.frames L = some frL)
    (hpar : frL.parent = some P)
    (hfresh : mapGet s.frames s.next_proxy_frame = none)
    (hvis : name ∈ get_all_visible_local_variables s L) :
    (create_proxy_env s L).2 = s.next_proxy_frame
    ∧ (∀ n ∈ get_all_visible_local_variables s L,
        mapGet ((mapGet (create_proxy_env s L).1.frames s.next_proxy_frame).getD
          ⟨none, []⟩).locals n = some (get_variable s L n))
    ∧ ((mapGet frL.locals name).isSome →
        mapGet (update_existing_local_variable (create_proxy_env s L).1 L name v).frames L
            = some ⟨some s.next_proxy_frame, mapSet frL.locals name v⟩
        ∧ mapGet (update_existing_local_variable (create_proxy_env s L).1 L name v).frames
              s.next_proxy_frame
            = mapGet (create_proxy_env s L).1.frames s.next_proxy_frame)
    ∧ (mapGet frL.locals name = none →
        mapGet (update_existing_local_variable (create_proxy_env s L).1 L name v).frames L
            = mapGet (create_proxy_env s L).1.frames L
        ∧ mapGet (update_existing_local_variable (create_proxy_env s L).1 L name v).frames
              s.next_proxy_frame
            = some ⟨some P, mapSet (snapshot_locals s L) name v⟩
        ∧ mapGet ((mapGet (update_existing_local_variable (create_proxy_env s L).1 L name
              v).frames s.next_proxy_frame).getD ⟨none, []⟩).locals name = some v)
    ∧ (∀ l, l ≠ L → l ≠ s.next_proxy_frame →
        mapGet (update_existing_local_variable (create_proxy_env s L).1 L name v).frames l
          = mapGet s.frames l) := by
  have hne : s.next_proxy_frame ≠ L := by
    intro h
    rw [h, hL] at hfresh
    cases hfresh
  have heq := create_proxy_env_eq s L P frL rest' hch hnd hL hpar hfresh
  have hnodup : (get_all_visible_local_variables s L).Nodup := by
    unfold get_all_visible_local_variables
    exact List.nodup_dedup _
  have hsnap : ∀ n ∈ get_all_visible_local_variables s L,
      mapGet (snapshot_locals s L) n = some (get_variable s L n) := by
    intro n hn
    unfold snapshot_locals
    exact foldl_mapSet_get_mem hnodup hn
  have hch1 : ChainFrom (create_proxy_env s L).1.frames L
      (L :: s.next_proxy_frame :: P :: rest') := by
    rw [heq]
    exact spliced_chain s L P s.next_proxy_frame frL (snapshot_locals s L) rest' hch hnd hL hfresh
  have hlen : (L :: P :: rest').length ≤ s.frames.length := hch.length_le hnd
  have hlen1 : (L :: s.next_proxy_frame :: P :: rest').length
      ≤ (create_proxy_env s L).1.frames.length + 1 := by
    rw [heq]
    rw [spliced_frames_length s L P s.next_proxy_frame frL _ hL hfresh]
    simp only [List.length_cons] at hlen ⊢
    omega
  have hfrL1 : mapGet (create_proxy_env s L).1.frames L
      = some { frL with parent := some s.next_proxy_frame } := by
    rw [heq]
    exact spliced_frames_L s L P s.next_proxy_frame frL _ hL hne
  have hfrP1 : mapGet (create_proxy_env s L).1.frames s.next_proxy_frame
      = some ⟨some P, snapshot_locals s L⟩ := by
    rw [heq]
    exact spliced_frames_p0 s L P s.next_proxy_frame frL _
  refine ⟨by rw [heq], ?_, ?_, ?_, ?_⟩
  · intro n hn
    rw [hfrP1]
    exact hsnap n hn
  · intro hin
    have hfc : first_containing (create_proxy_env s L).1.frames
        (L :: s.next_proxy_frame :: P :: rest') name = some L := by
      unfold first_containing
      rw [hfrL1]
      simp only [hin, if_pos]
    obtain ⟨fr, hget, _, hupd⟩ := @update_walk_eq_chain_some _ _ v _ _ _ _ hch1 hlen1 hfc
    rw [hfrL1] at hget
    rcases Option.some.inj hget with rfl
    unfold update_existing_local_variable
    rw [hupd]
    constructor
    · dsimp only
      rw [mapGet_mapSet_self]
    · dsimp only
      rw [mapGet_mapSet_ne _ _ _ _ hne]
  · intro hnone
    have hsnapname := hsnap name hvis
    have hfc : first_containing (create_proxy_env s L).1.frames
        (L :: s.next_proxy_frame :: P :: rest') name = some s.next_proxy_frame := by
      unfold first_containing
      rw [hfrL1]
      simp only [hnone, Option.isSome_none, Bool.false_eq_true, if_false, if_neg]
      unfold first_containing
      rw [hfrP1]
      simp only [hsnapname, Option.isSome_some, if_pos]
    obtain ⟨fr, hget, _, hupd⟩ := @update_walk_eq_chain_some _ _ v _ _ _ _ hch1 hlen1 hfc
    rw [hfrP1] at hget
    rcases Option.some.inj hget with rfl
    unfold update_existing_local_variable
    rw [hupd]
    refine ⟨?_, ?_, ?_⟩
    · dsimp only
      rw [mapGet_mapSet_ne _ _ _ _ (fun h => hne h.symm)]
    · dsimp only
      rw [mapGet_mapSet_self]
    · dsimp only
      rw [mapGet_mapSet_self]
      dsimp only [Option.getD_some]
      rw [mapGet_mapSet_self]
  · intro l hlL hlp0
    have hfc : first_containing (create_proxy_env s L).1.frames
        (L :: s.next_proxy_frame :: P :: rest') name
        = some (if (mapGet frL.locals name).isSome then L else s.next_proxy_frame) := by
      unfold first_containing
      rw [hfrL1]
      by_cases hin : (mapGet frL.locals name).isSome
      · simp only [hin, if_pos, if_true]
      · simp only [hin, if_false, if_neg]
        unfold first_containing
        rw [hfrP1]
        simp only [hsnap name hvis, Option.isSome_some, if_pos]
        simp
    obtain ⟨fr, hget, _, hupd⟩ := @update_walk_eq_chain_some _ _ v _ _ _ _ hch1 hlen1 hfc
    unfold update_existing_local_variable
    rw [hupd]
    dsimp only
    by_cases hin : (mapGet frL.locals name).isSome
    · rw [if_pos hin] at hget hupd ⊢
      rw [mapGet_mapSet_ne _ _ _ _ hlL, heq]
      exact spliced_frames_other s L P s.next_proxy_frame frL _ l hlL hlp0
    · rw [if_neg hin] at hget hupd ⊢
      rw [mapGet_mapSet_ne _ _ _ _ hlp0, heq]
      exact spliced_frames_other s L P s.next_proxy_frame frL _ l hlL hlp0

/-- Witness for `proxy_update_amended` at the counterexample environment. -/
theorem proxy_update_amended_witness :
    (create_proxy_env ⟨[(ARGS_LABEL, ⟨none, [("x", .litInt 0)]⟩),
        (0, ⟨some ARGS_LABEL, []⟩)], INITIAL_PROXY_LABEL, [], 0, [], false⟩ 0).2
      = INITIAL_PROXY_LABEL := by
  have h := proxy_update_amended
    ⟨[(ARGS_LABEL, ⟨none, [("x", .litInt 0)]⟩), (0, ⟨some ARGS_LABEL, []⟩)],
      INITIAL_PROXY_LABEL, [], 0, [], false⟩
    0 ARGS_LABEL ⟨some ARGS_LABEL, []⟩ [] "x" (.litInt 1)
    (ChainFrom.step 0 ⟨some ARGS_LABEL, []⟩ ARGS_LABEL [ARGS_LABEL] (by decide) rfl
      (ChainFrom.root ARGS_LABEL ⟨none, [("x", .litInt 0)]⟩ (by decide) rfl))
    (by decide) (by decide) rfl (by decide) (by decide)
  exact h.1



/-! ### Congruence lemmas for chain walks -/

theorem chain_lookup_congr_name {fs fs' : List (Nat × EnvFrame)} {path : List Nat} {n : String}
    (h : ∀ x ∈ path, (mapGet fs' x).map (fun fr => mapGet fr.locals n)
        = (mapGet fs x).map (fun fr => mapGet fr.locals n)) :
    chain_lookup fs' path n = chain_lookup fs path n := by
  induction path with
  | nil => rfl
  | cons x rest ih =>
      have hx := h x (by simp)
      simp only [chain_lookup]
      cases hg : mapGet fs x with
      | none =>
          rw [hg, Option.map_none', Option.map_eq_none'] at hx
          rw [hx]
      | some fr =>
          cases hg' : mapGet fs' x with
          | none => rw [hg, hg'] at hx; simp at hx
          | some fr' =>
              rw [hg, hg'] at hx
              simp only [Option.map_some', Option.some.injEq] at hx
              dsimp only
              rw [hx]
              cases mapGet fr.locals n with
              | some v => rfl
              | none => exact ih (fun y hy => h y (List.mem_cons_of_mem _ hy))

theorem first_containing_congr_name {fs fs' : List (Nat × EnvFrame)} {path : List Nat}
    {n : String}
    (h : ∀ x ∈ path, (mapGet fs' x).map (fun fr => mapGet fr.locals n)
        = (mapGet fs x).map (fun fr => mapGet fr.locals n)) :
    first_containing fs' path n = first_containing fs path n := by
  induction path with
  | nil => rfl
  | cons x rest ih =>
      have hx := h x (by simp)
      simp only [first_containing]
      cases hg : mapGet fs x with
      | none =>
          rw [hg, Option.map_none', Option.map_eq_none'] at hx
          rw [hx]
      | some fr =>
          cases hg' : mapGet fs' x with
          | none => rw [hg, hg'] at hx; simp at hx
          | some fr' =>
              rw [hg, hg'] at hx
              simp only [Option.map_some', Option.some.injEq] at hx
              dsimp only
              rw [hx]
              cases mapGet fr.locals n with
              | some v => rfl
              | none =>
                  simp only [Option.isSome_none, Bool.false_eq_true, if_false, if_neg]
                  exact ih (fun y hy => h y (List.mem_cons_of_mem _ hy))

theorem ChainFrom.transfer_parents {fs fs' : List (Nat × EnvFrame)} {l : Nat}
    {path : List Nat} (h : ChainFrom fs l path)
    (hagree : ∀ x ∈ path, (mapGet fs' x).map EnvFrame.parent
        = (mapGet fs x).map EnvFrame.parent) :
    ChainFrom fs' l path := by
  induction h with
  | root l fr hget hpar =>
      have hx := hagree l (by simp)
      cases hg' : mapGet fs' l with
      | none => rw [hget, hg'] at hx; simp at hx
      | some fr' =>
          rw [hget, hg'] at hx
          simp only [Option.map_some', Option.some.injEq] at hx
          exact ChainFrom.root l fr' hg' (hx.trans hpar)
  | step l fr p rest hget hpar hch ih =>
      have hx := hagree l (by simp)
      cases hg' : mapGet fs' l with
      | none => rw [hget, hg'] at hx; simp at hx
      | some fr' =>
          rw [hget, hg'] at hx
          simp only [Option.map_some', Option.some.injEq] at hx
          exact ChainFrom.step l fr' p rest hg' (hx.trans hpar)
            (ih (fun y hy => hagree y (List.mem_cons_of_mem _ hy)))

theorem first_containing_mem {fs : List (Nat × EnvFrame)} :
    ∀ {path : List Nat} {n : String} {f : Nat},
    first_containing fs path n = some f → f ∈ path := by
  intro path
  induction path with
  | nil => intro n f h; cases h
  | cons x rest ih =>
      intro n f h
      simp only [first_containing] at h
      cases hg : mapGet fs x with
      | none => rw [hg] at h; cases h
      | some fr =>
          rw [hg] at h
          dsimp only at h
          by_cases hin : (mapGet fr.locals n).isSome
          · rw [if_pos hin] at h
            rcases Option.some.inj h with rfl
            simp
          · rw [if_neg hin] at h
            exact List.mem_cons_of_mem _ (ih h)

/-- Characterization of `update_existing_local_variable` when the walked
chain contains a binding. -/
theorem update_existing_spec {s : St} {l : Nat} {path : List Nat} {name : String}
    {v : Value} {f : Nat}
    (hch : ChainFrom s.frames l path) (hnd : path.Nodup)
    (hfc : first_containing s.frames path name = some f) :
    ∃ fr, mapGet s.frames f = some fr ∧ (mapGet fr.locals name).isSome ∧
      update_existing_local_variable s l name v
        = { s with frames := mapSet s.frames f { fr with locals := mapSet fr.locals name v } } := by
  have hlen : path.length ≤ s.frames.length + 1 :=
    le_trans (hch.length_le hnd) (Nat.le_succ _)
  obtain ⟨fr, hget, hin, hupd⟩ := @update_walk_eq_chain_some _ _ v _ _ _ _ hch hlen hfc
  refine ⟨fr, hget, hin, ?_⟩
  unfold update_existing_local_variable
  rw [hupd]

/-- `first_containing` really returns a frame that binds the name. -/
theorem first_containing_isSome_frame {fs : List (Nat × EnvFrame)} :
    ∀ {path : List Nat} {n : String} {f : Nat},
    first_containing fs path n = some f →
    ∃ fr, mapGet fs f = some fr ∧ (mapGet fr.locals n).isSome := by
  intro path
  induction path with
  | nil => intro n f h; cases h
  | cons x rest ih =>
      intro n f h
      simp only [first_containing] at h
      cases hg : mapGet fs x with
      | none => rw [hg] at h; cases h
      | some fr =>
          rw [hg] at h
          dsimp only at h
          by_cases hin : (mapGet fr.locals n).isSome
          · rw [if_pos hin] at h
            rcases Option.some.inj h with rfl
            exact ⟨fr, hg, hin⟩
          · rw [if_neg hin] at h
            exact ih h

/-- After updating `name` along the chain, looking `name` up along the
same path yields the new value. -/
theorem chain_lookup_after_update {fs : List (Nat × EnvFrame)} {name : String} {v : Value} :
    ∀ {path : List Nat} {f : Nat} {fr : EnvFrame},
    first_containing fs path name = some f →
    mapGet fs f = some fr →
    chain_lookup (mapSet fs f { fr with locals := mapSet fr.locals name v }) path name
      = some v := by
  intro path
  induction path with
  | nil => intro f fr h; cases h
  | cons x rest ih =>
      intro f fr hfc hget
      simp only [first_containing] at hfc
      cases hg : mapGet fs x with
      | none => rw [hg] at hfc; cases hfc
      | some frx =>
          rw [hg] at hfc
          dsimp only at hfc
          by_cases hin : (mapGet frx.locals name).isSome
          · rw [if_pos hin] at hfc
            have hxf : x = f := Option.some.inj hfc
            subst hxf
            have hfr : frx = fr := by
              rw [hg] at hget
              exact Option.some.inj hget
            subst hfr
            exact @chain_lookup_cons_hit _ _ _
              ({ frx with locals := mapSet frx.locals name v }) _ _
              (by rw [mapGet_mapSet_self]) (by dsimp only; rw [mapGet_mapSet_self])
          · rw [if_neg hin] at hfc
            have hxf : x ≠ f := by
              intro hh
              subst hh
              obtain ⟨fr2, hg2, hin2⟩ := first_containing_isSome_frame hfc
              rw [hg] at hg2
              rcases Option.some.inj hg2 with rfl
              exact hin hin2
            rw [@chain_lookup_cons_miss _ _ _ frx _
              (by rw [mapGet_mapSet_ne _ _ _ _ hxf]; exact hg)
              (Option.not_isSome_iff_eq_none.mp hin)]
            exact ih hfc hget


/-! ### Specification of the loop φ-stub preparation -/

theorem ChainFrom.tail_chain {fs : List (Nat × EnvFrame)} {l x : Nat} {rest : List Nat}
    (h : ChainFrom fs l (l :: x :: rest)) : ChainFrom fs x (x :: rest) := by
  cases h with
  | step _ fr p r hget hpar hch2 =>
      have hh := hch2.head_eq
      simp only [List.head?_cons, Option.some.injEq] at hh
      subst hh
      exact hch2

/-- The stub info `prepare_env_and_stub_phi_set_for_loop_cond` builds:
one entry per visible name, with consecutive fresh registers. -/
def expected_stub : Nat → List (String × Value) → List (String × Value × Value)
  | _, [] => []
  | c, (n, v) :: rest => (n, v, .register c v.get_type) :: expected_stub (c + 1) rest

/-- Parents are unchanged when one frame's locals are rewritten. -/
theorem mapSet_locals_parents {fs : List (Nat × EnvFrame)} {f : Nat} {fr : EnvFrame}
    (locals' : List (String × Value)) (hget : mapGet fs f = some fr) (x : Nat) :
    (mapGet (mapSet fs f { fr with locals := locals' }) x).map EnvFrame.parent
      = (mapGet fs x).map EnvFrame.parent := by
  by_cases hx : x = f
  · subst hx
    rw [mapGet_mapSet_self, hget]
    rfl
  · rw [mapGet_mapSet_ne _ _ _ _ hx]

/-- Bindings of a different name are unchanged when one frame's binding of
`n` is rewritten. -/
theorem mapSet_locals_at_other {fs : List (Nat × EnvFrame)} {f : Nat} {fr : EnvFrame}
    {n : String} (v : Value) {m : String} (hget : mapGet fs f = some fr) (hmn : m ≠ n)
    (x : Nat) :
    (mapGet (mapSet fs f { fr with locals := mapSet fr.locals n v }) x).map
        (fun fr2 => mapGet fr2.locals m)
      = (mapGet fs x).map (fun fr2 => mapGet fr2.locals m) := by
  by_cases hx : x = f
  · subst hx
    rw [mapGet_mapSet_self, hget]
    simp only [Option.map_some']
    rw [mapGet_mapSet_ne _ _ _ _ hmn]
  · rw [mapGet_mapSet_ne _ _ _ _ hx]

theorem mapSet_locals_length {fs : List (Nat × EnvFrame)} {f : Nat} {fr : EnvFrame}
    (fr' : EnvFrame) (hget : mapGet fs f = some fr) :
    (mapSet fs f fr').length = fs.length :=
  mapSet_length_of_isSome _ (by rw [hget]; rfl)

/-- `get_variable` only depends on the frames along the chain &mdash; their
parents and their binding of the name. -/
theorem get_variable_congr {s s' : St} {l : Nat} {path : List Nat} {name : String}
    (hch : ChainFrom s.frames l path) (hnd : path.Nodup)
    (hlen : s'.frames.length = s.frames.length)
    (hpar : ∀ x ∈ path, (mapGet s'.frames x).map EnvFrame.parent
        = (mapGet s.frames x).map EnvFrame.parent)
    (hloc : ∀ x ∈ path, (mapGet s'.frames x).map (fun fr => mapGet fr.locals name)
        = (mapGet s.frames x).map (fun fr => mapGet fr.locals name)) :
    get_variable s' l name = get_variable s l name := by
  have hch' : ChainFrom s'.frames l path := hch.transfer_parents hpar
  have hl : path.length ≤ s.frames.length := hch.length_le hnd
  unfold get_variable
  rw [hlen]
  rw [get_variable_walk_eq_chain hch' (by omega), get_variable_walk_eq_chain hch (by omega)]
  rw [chain_lookup_congr_name hloc]

/-- Full characterization of the `prepare_env_and_stub_phi_set_for_loop_cond`
fold. -/
theorem stub_fold_spec (pred cond : Nat) (rest' : List Nat) :
    ∀ (names : List String) (s : St) (acc : List (String × Value × Value)),
    ChainFrom s.frames cond (cond :: pred :: rest') →
    (cond :: pred :: rest').Nodup →
    mapGet s.frames cond = some ⟨some pred, []⟩ →
    names.Nodup →
    (∀ n ∈ names, (first_containing s.frames (pred :: rest') n).isSome) →
    (names.foldl (stub_step pred cond) (s, acc)).2
        = acc ++ expected_stub s.next_reg_num (names.map (fun n => (n, get_variable s pred n)))
    ∧ (names.foldl (stub_step pred cond) (s, acc)).1.next_reg_num
        = s.next_reg_num + names.length
    ∧ (names.foldl (stub_step pred cond) (s, acc)).1.blocks = s.blocks
    ∧ (names.foldl (stub_step pred cond) (s, acc)).1.next_proxy_frame = s.next_proxy_frame
    ∧ (names.foldl (stub_step pred cond) (s, acc)).1.global_strings = s.global_strings
    ∧ (names.foldl (stub_step pred cond) (s, acc)).1.panicked = s.panicked
    ∧ (names.foldl (stub_step pred cond) (s, acc)).1.frames.length = s.frames.length
    ∧ (∀ x, (mapGet (names.foldl (stub_step pred cond) (s, acc)).1.frames x).map
          EnvFrame.parent = (mapGet s.frames x).map EnvFrame.parent)
    ∧ (∀ m, m ∉ names →
        ∀ x, (mapGet (names.foldl (stub_step pred cond) (s, acc)).1.frames x).map
            (fun fr => mapGet fr.locals m)
          = (mapGet s.frames x).map (fun fr => mapGet fr.locals m))
    ∧ (∀ t ∈ expected_stub s.next_reg_num
          (names.map (fun n => (n, get_variable s pred n))),
        chain_lookup (names.foldl (stub_step pred cond) (s, acc)).1.frames
            (cond :: pred :: rest') t.1 = some t.2.2) := by
  intro names
  induction names with
  | nil =>
      intro s acc _ _ _ _ _
      simp [expected_stub]
  | cons n rest ih =>
      intro s acc hch hnd hcond hnodup hcontain
      -- the first step of the fold
      have hemp : mapGet ([] : List (String × Value)) n = none := rfl
      have hfc0 := hcontain n (by simp)
      obtain ⟨f, hfc⟩ := Option.isSome_iff_exists.mp hfc0
      have hfcc : first_containing s.frames (cond :: pred :: rest') n = some f := by
        simp only [first_containing, hcond]
        rw [if_neg (by rw [hemp]; simp)]
        exact hfc
      have hstep : stub_step pred cond (s, acc) n
          = (update_existing_local_variable { s with next_reg_num := s.next_reg_num + 1 }
               cond n (.register s.next_reg_num (get_variable s pred n).get_type),
             acc ++ [(n, get_variable s pred n,
               .register s.next_reg_num (get_variable s pred n).get_type)]) := rfl
      obtain ⟨fr, hgetf, hinf, hupd⟩ := @update_existing_spec
        { s with next_reg_num := s.next_reg_num + 1 } _ _ _
        (.register s.next_reg_num (get_variable s pred n).get_type) _ hch hnd hfcc
      have hfmem : f ∈ pred :: rest' := first_containing_mem hfc
      have hfcond : f ≠ cond := by
        intro hh
        subst hh
        exact (List.nodup_cons.mp hnd).1 hfmem
      -- the state after the first step
      set v := get_variable s pred n with hv
      set phi : Value := .register s.next_reg_num v.get_type with hphi
      set s1 : St := { s with
        next_reg_num := s.next_reg_num + 1,
        frames := mapSet s.frames f { fr with locals := mapSet fr.locals n phi } } with hs1
      have hs1eq : update_existing_local_variable { s with next_reg_num := s.next_reg_num + 1 }
          cond n phi = s1 := by
        rw [hupd]
      have hfr1 : s1.frames = mapSet s.frames f { fr with locals := mapSet fr.locals n phi } := rfl
      have hpar1 : ∀ x, (mapGet s1.frames x).map EnvFrame.parent
          = (mapGet s.frames x).map EnvFrame.parent := by
        intro x
        rw [hfr1]
        exact mapSet_locals_parents _ hgetf x
      have hloc1 : ∀ m, m ≠ n → ∀ x, (mapGet s1.frames x).map (fun fr2 => mapGet fr2.locals m)
          = (mapGet s.frames x).map (fun fr2 => mapGet fr2.locals m) := by
        intro m hmn x
        rw [hfr1]
        exact mapSet_locals_at_other _ hgetf hmn x
      have hlen1 : s1.frames.length = s.frames.length := by
        rw [hfr1]
        exact mapSet_locals_length _ hgetf
      have hch1 : ChainFrom s1.frames cond (cond :: pred :: rest') :=
        hch.transfer_parents (fun x _ => hpar1 x)
      have hcond1 : mapGet s1.frames cond = some ⟨some pred, []⟩ := by
        rw [hfr1, mapGet_mapSet_ne _ _ _ _ (Ne.symm hfcond)]
        exact hcond
      have hcontain1 : ∀ m ∈ rest, (first_containing s1.frames (pred :: rest') m).isSome := by
        intro m hm
        have hmn : m ≠ n := by
          intro hh
          subst hh
          exact (List.nodup_cons.mp hnodup).1 hm
        rw [first_containing_congr_name (fun x _ => hloc1 m hmn x)]
        exact hcontain m (List.mem_cons_of_mem _ hm)
      have hchp : ChainFrom s.frames pred (pred :: rest') := hch.tail_chain
      have hndp : (pred :: rest').Nodup := (List.nodup_cons.mp hnd).2
      have hvals : rest.map (fun m => (m, get_variable s1 pred m))
          = rest.map (fun m => (m, get_variable s pred m)) := by
        apply List.map_congr_left
        intro m hm
        have hmn : m ≠ n := by
          intro hh
          subst hh
          exact (List.nodup_cons.mp hnodup).1 hm
        rw [get_variable_congr hchp hndp hlen1 (fun x _ => hpar1 x)
          (fun x _ => hloc1 m hmn x)]
      have hfold : (List.foldl (stub_step pred cond) (s, acc) (n :: rest))
          = (List.foldl (stub_step pred cond) (s1, acc ++ [(n, v, phi)]) rest) := by
        rw [List.foldl_cons, hstep, hs1eq]
      obtain ⟨ih1, ih2, ih3, ih4, ih5, ih6, ih7, ih8, ih9, ih10⟩ :=
        ih s1 (acc ++ [(n, v, phi)]) hch1 hnd hcond1 (List.nodup_cons.mp hnodup).2 hcontain1
      rw [hfold]
      have hcount : s1.next_reg_num = s.next_reg_num + 1 := rfl
      refine ⟨?_, ?_, ?_, ?_, ?_, ?_, ?_, ?_, ?_, ?_⟩
      · rw [ih1, hvals, hcount]
        simp only [List.map_cons, expected_stub, ← hv, ← hphi]
        rw [List.append_assoc]
        rfl
      · rw [ih2, hcount]
        simp [List.length_cons]
        omega
      · rw [ih3]
      · rw [ih4]
      · rw [ih5]
      · rw [ih6]
      · rw [ih7, hlen1]
      · intro x
        rw [ih8 x, hpar1 x]
      · intro m hm x
        have hmn : m ≠ n := by
          intro hh
          subst hh
          exact hm (by simp)
        rw [ih9 m (fun hh => hm (List.mem_cons_of_mem _ hh)) x, hloc1 m hmn x]
      · intro t ht
        simp only [List.map_cons, expected_stub, ← hv, ← hphi, List.mem_cons] at ht
        rcases ht with rfl | ht
        · have hnr : n ∉ rest := (List.nodup_cons.mp hnodup).1
          rw [chain_lookup_congr_name (fun x _ => ih9 n hnr x)]
          exact chain_lookup_after_update hfcc hgetf
        · have := ih10 t
          rw [hvals, hcount] at this
          exact this (by exact ht)



/-- The names bound along a chain (specification of `visible_walk`). -/
def chain_keys (fs : List (Nat × EnvFrame)) : List Nat → List String
  | [] => []
  | l :: rest => ((mapGet fs l).getD ⟨none, []⟩).locals.map Prod.fst ++ chain_keys fs rest

theorem visible_walk_eq_chain {fs : List (Nat × EnvFrame)} :
    ∀ {l : Nat} {path : List Nat} {fuel : Nat}, ChainFrom fs l path → path.length ≤ fuel →
    visible_walk fs fuel (some l) = chain_keys fs path := by
  intro l path
  induction path generalizing l with
  | nil => intro fuel h; cases h
  | cons x rest ih =>
      intro fuel h hlen
      cases h with
      | root l fr hget hpar =>
          match fuel, hlen with
          | fuel + 1, _ =>
            simp only [visible_walk, hget, chain_keys, hpar]
            cases fuel <;> simp [visible_walk, chain_keys]
      | step l fr p rest2 hget hpar hch =>
          match fuel, hlen with
          | fuel + 1, hlen =>
            simp only [visible_walk, hget, chain_keys, hpar]
            rw [ih hch (by simpa using Nat.le_of_succ_le_succ hlen)]
            simp

theorem first_containing_isSome_of_mem_chain_keys {fs : List (Nat × EnvFrame)} :
    ∀ {l : Nat} {path : List Nat} {n : String}, ChainFrom fs l path →
    n ∈ chain_keys fs path → (first_containing fs path n).isSome := by
  intro l path
  induction path generalizing l with
  | nil => intro n h hm; simp [chain_keys] at hm
  | cons x rest ih =>
      intro n h hm
      have hget : ∃ fr, mapGet fs x = some fr := by
        cases h with
        | root _ fr hg _ => exact ⟨fr, hg⟩
        | step _ fr _ _ hg _ _ => exact ⟨fr, hg⟩
      obtain ⟨fr, hg⟩ := hget
      simp only [chain_keys, hg, Option.getD_some, List.mem_append] at hm
      simp only [first_containing, hg]
      by_cases hin : (mapGet fr.locals n).isSome
      · rw [if_pos hin]
        rfl
      · rw [if_neg hin]
        rcases hm with hm | hm
        · exact absurd (mapGet_isSome_of_mem_keys hm) hin
        · cases h with
          | root _ fr2 hg2 hpar =>
              simp [chain_keys] at hm
          | step _ fr2 p rest2 hg2 hpar hch =>
              have hh := hch.head_eq
              cases rest with
              | nil => simp [chain_keys] at hm
              | cons y rest3 =>
                  simp only [List.head?_cons, Option.some.injEq] at hh
                  subst hh
                  exact ih hch hm

/-- Where a visible name is recorded in `get_all_visible_local_variables`,
it is bound somewhere along the parent chain. -/
theorem first_containing_of_visible {s : St} {l : Nat} {path : List Nat} {n : String}
    (hch : ChainFrom s.frames l path) (hnd : path.Nodup)
    (hvis : n ∈ get_all_visible_local_variables s l) :
    (first_containing s.frames path n).isSome := by
  unfold get_all_visible_local_variables at hvis
  rw [List.mem_dedup] at hvis
  rw [visible_walk_eq_chain hch (le_trans (hch.length_le hnd) (Nat.le_succ _))] at hvis
  exact first_containing_isSome_of_mem_chain_keys hch hvis

/-- `get_variable` only reads the frames. -/
theorem get_variable_frames_eq {s s' : St} (h : s'.frames = s.frames) (l : Nat) (n : String) :
    get_variable s' l n = get_variable s l n := by
  unfold get_variable
  rw [h]

/-- C3's first half: the effect of
`prepare_env_and_stub_phi_set_for_loop_cond`.  The stub records each
visible name, its pre-header value, and a freshly allocated register of
the pre-header value's type; looking each name up through the cond frame
afterwards yields its stub register; no block is touched. -/
theorem prepare_env_spec (s : St) (pred cond : Nat) (rest' : List Nat)
    (hch : ChainFrom s.frames cond (cond :: pred :: rest'))
    (hnd : (cond :: pred :: rest').Nodup)
    (hcond : mapGet s.frames cond = some ⟨some pred, []⟩) :
    (prepare_env_and_stub_phi_set_for_loop_cond s pred cond).2
        = expected_stub s.next_reg_num
            ((get_all_visible_local_variables s pred).map
              (fun n => (n, get_variable s pred n)))
    ∧ (prepare_env_and_stub_phi_set_for_loop_cond s pred cond).1.next_reg_num
        = s.next_reg_num + (get_all_visible_local_variables s pred).length
    ∧ (prepare_env_and_stub_phi_set_for_loop_cond s pred cond).1.blocks = s.blocks
    ∧ (∀ t ∈ (prepare_env_and_stub_phi_set_for_loop_cond s pred cond).2,
        get_variable (prepare_env_and_stub_phi_set_for_loop_cond s pred cond).1 cond t.1
          = t.2.2) := by
  have hchp : ChainFrom s.frames pred (pred :: rest') := hch.tail_chain
  have hndp : (pred :: rest').Nodup := (List.nodup_cons.mp hnd).2
  have hnodup : (get_all_visible_local_variables s pred).Nodup := by
    unfold get_all_visible_local_variables
    exact List.nodup_dedup _
  have hcontain : ∀ n ∈ get_all_visible_local_variables s pred,
      (first_containing s.frames (pred :: rest') n).isSome := by
    intro n hn
    exact first_containing_of_visible hchp hndp hn
  obtain ⟨h1, h2, h3, _, _, _, h7, h8, _, h10⟩ := stub_fold_spec pred cond rest'
    (get_all_visible_local_variables s pred) s [] hch hnd hcond hnodup hcontain
  have hpre : prepare_env_and_stub_phi_set_for_loop_cond s pred cond
      = ((get_all_visible_local_variables s pred).foldl (stub_step pred cond) (s, [])) := rfl
  refine ⟨by rw [hpre, h1]; rfl, by rw [hpre, h2], by rw [hpre, h3], ?_⟩
  intro t ht
  rw [hpre] at ht ⊢
  rw [h1] at ht
  simp only [List.nil_append] at ht
  have hchc : ChainFrom
      ((get_all_visible_local_variables s pred).foldl (stub_step pred cond) (s, [])).1.frames
      cond (cond :: pred :: rest') :=
    hch.transfer_parents (fun x _ => h8 x)
  have hlk := h10 t (by simpa using ht)
  unfold get_variable
  rw [h7]
  rw [get_variable_walk_eq_chain hchc
    (by have := hch.length_le hnd; omega)]
  rw [hlk]
  rfl



/-! ### Specification of the loop φ-stub finalization -/

/-- The φ-set of the block at label `l`. -/
def phi_set_at (s : St) (l : Nat) : List PhiEntry :=
  ((s.blocks.get? l).getD ⟨0, [], [], []⟩).phi_set

theorem get_block_modify_frames (s : St) (l : Nat) (f : Block → Block) :
    (get_block_modify s l f).frames = s.frames := by
  unfold get_block_modify
  split <;> rfl

theorem get_block_modify_length (s : St) (l : Nat) (f : Block → Block) :
    (get_block_modify s l f).blocks.length = s.blocks.length := by
  unfold get_block_modify
  split
  · simp
  · rfl

theorem insert_phi_frames (s : St) (l : Nat) (e : PhiEntry) :
    (insert_phi s l e).frames = s.frames :=
  get_block_modify_frames _ _ _

theorem insert_phi_length (s : St) (l : Nat) (e : PhiEntry) :
    (insert_phi s l e).blocks.length = s.blocks.length :=
  get_block_modify_length _ _ _

theorem list_get_set_self {α : Type _} : ∀ (l : List α) (i : Nat) (a : α),
    i < l.length → (l.set i a).get? i = some a := by
  intro l
  induction l with
  | nil => intro i a h; simp at h
  | cons x xs ih =>
      intro i a h
      cases i with
      | zero => rfl
      | succ j => exact ih j a (by simpa using h)

theorem list_get_set_ne {α : Type _} : ∀ (l : List α) (i j : Nat) (a : α),
    i ≠ j → (l.set i a).get? j = l.get? j := by
  intro l
  induction l with
  | nil => intro i j a h; cases i <;> rfl
  | cons x xs ih =>
      intro i j a h
      cases i with
      | zero =>
          cases j with
          | zero => exact absurd rfl h
          | succ k => rfl
      | succ i2 =>
          cases j with
          | zero => rfl
          | succ k => exact ih i2 k a (fun hc => h (by rw [hc]))

theorem list_get_eq_get {α : Type _} : ∀ (l : List α) (i : Nat) (h : i < l.length),
    l.get? i = some (l.get ⟨i, h⟩) := by
  intro l
  induction l with
  | nil => intro i h; simp at h
  | cons x xs ih =>
      intro i h
      cases i with
      | zero => rfl
      | succ j => exact ih j (by simpa using h)

theorem insert_phi_mem {s : St} {l : Nat} (hl : l < s.blocks.length) (e : PhiEntry) :
    e ∈ phi_set_at (insert_phi s l e) l := by
  unfold insert_phi get_block_modify phi_set_at
  rw [dif_pos hl]
  dsimp only
  rw [list_get_set_self _ _ _ hl, Option.getD_some]
  dsimp only
  split
  · assumption
  · exact List.mem_append_right _ (List.mem_singleton.mpr rfl)

theorem insert_phi_mem_mono {s : St} {l l' : Nat} {e : PhiEntry} (e' : PhiEntry)
    (h : e ∈ phi_set_at s l) : e ∈ phi_set_at (insert_phi s l' e') l := by
  unfold insert_phi get_block_modify phi_set_at at *
  split
  · rename_i hlt
    dsimp only
    by_cases hll : l' = l
    · subst hll
      rw [list_get_set_self _ _ _ hlt, Option.getD_some]
      rw [list_get_eq_get _ _ hlt, Option.getD_some] at h
      dsimp only
      split
      · exact h
      · exact List.mem_append_left _ h
    · rw [list_get_set_ne _ _ _ _ hll]
      exact h
  · exact h

theorem finalize_step_frames (p c : Nat) (pr : Option Nat) (e : Nat)
    (s : St) (t : String × Value × Value) :
    (finalize_step p c pr e s t).frames = s.frames := by
  obtain ⟨n, v1, pv⟩ := t
  unfold finalize_step
  by_cases he : e ≠ UNREACHABLE_LABEL <;>
    cases pr <;>
      simp only [if_pos he, if_neg he] <;>
        (try dsimp only) <;>
          cases pv <;>
            (try dsimp only) <;>
              rw [insert_phi_frames] <;> rfl

theorem finalize_step_length (p c : Nat) (pr : Option Nat) (e : Nat)
    (s : St) (t : String × Value × Value) :
    (finalize_step p c pr e s t).blocks.length = s.blocks.length := by
  obtain ⟨n, v1, pv⟩ := t
  unfold finalize_step
  by_cases he : e ≠ UNREACHABLE_LABEL <;>
    cases pr <;>
      simp only [if_pos he, if_neg he] <;>
        (try dsimp only) <;>
          cases pv <;>
            (try dsimp only) <;>
              rw [insert_phi_length] <;> rfl

theorem finalize_step_mem_mono (p c : Nat) (pr : Option Nat) (eb : Nat)
    (s : St) (t : String × Value × Value) {l : Nat} {e : PhiEntry}
    (h : e ∈ phi_set_at s l) : e ∈ phi_set_at (finalize_step p c pr eb s t) l := by
  obtain ⟨n, v1, pv⟩ := t
  unfold finalize_step
  by_cases he : eb ≠ UNREACHABLE_LABEL <;>
    cases pr <;>
      simp only [if_pos he, if_neg he] <;>
        (try dsimp only) <;>
          cases pv <;>
            (try dsimp only) <;>
              exact insert_phi_mem_mono _ h

theorem finalize_fold_mem_mono (p c : Nat) (pr : Option Nat) (eb : Nat)
    (stub : List (String × Value × Value)) :
    ∀ (s : St) {l : Nat} {e : PhiEntry}, e ∈ phi_set_at s l →
    e ∈ phi_set_at (stub.foldl (finalize_step p c pr eb) s) l := by
  induction stub with
  | nil => intro s l e h; exact h
  | cons t rest ih =>
      intro s l e h
      exact ih _ (finalize_step_mem_mono p c pr eb s t h)

theorem finalize_fold_frames (p c : Nat) (pr : Option Nat) (eb : Nat)
    (stub : List (String × Value × Value)) :
    ∀ (s : St), (stub.foldl (finalize_step p c pr eb) s).frames = s.frames := by
  induction stub with
  | nil => intro s; rfl
  | cons t rest ih =>
      intro s
      rw [List.foldl_cons, ih, finalize_step_frames]

theorem finalize_fold_length (p c : Nat) (pr : Option Nat) (eb : Nat)
    (stub : List (String × Value × Value)) :
    ∀ (s : St), (stub.foldl (finalize_step p c pr eb) s).blocks.length
      = s.blocks.length := by
  induction stub with
  | nil => intro s; rfl
  | cons t rest ih =>
      intro s
      rw [List.foldl_cons, ih, finalize_step_length]

/-- The expected incoming vector of a finalized loop φ-entry: the
pre-header value from the pre-header edge, plus (when the body can fall
through) the value looked up in the body proxy from the body-end edge. -/
def expected_phi_vec (s : St) (pred : Nat) (pr : Option Nat) (eb : Nat)
    (t : String × Value × Value) : List (Value × Nat) :=
  [(t.2.1, pred)] ++
    (if eb ≠ UNREACHABLE_LABEL then
      [((match pr with | none => Value.litInt 0 | some p => get_variable s p t.1), eb)]
    else [])

theorem finalize_fold_mem (pred cond : Nat) (pr : Option Nat) (eb : Nat)
    (stub : List (String × Value × Value)) :
    ∀ (s : St), cond < s.blocks.length →
    ∀ t ∈ stub, ∀ r ty, t.2.2 = Value.register r ty →
    (r, ty, expected_phi_vec s pred pr eb t) ∈
      phi_set_at (stub.foldl (finalize_step pred cond pr eb) s) cond := by
  induction stub with
  | nil => intro s _ t ht; simp at ht
  | cons t0 rest ih =>
      intro s hlt t ht r ty hreg
      rcases List.mem_cons.mp ht with hh | htail
      · subst hh
        obtain ⟨n, v1, pv⟩ := t
        simp only at hreg
        subst hreg
        simp only [List.foldl_cons]
        apply finalize_fold_mem_mono
        unfold finalize_step expected_phi_vec
        by_cases he : eb ≠ UNREACHABLE_LABEL <;>
          cases pr <;>
            simp only [if_pos he, if_neg he] <;>
              (try dsimp only) <;>
                first
                | exact insert_phi_mem hlt _
                | exact insert_phi_mem (show cond < (St.setPanic s).blocks.length from hlt) _
      · simp only [List.foldl_cons]
        have hfr : (finalize_step pred cond pr eb s t0).frames = s.frames :=
          finalize_step_frames _ _ _ _ _ _
        have hlt2 : cond < (finalize_step pred cond pr eb s t0).blocks.length := by
          rw [finalize_step_length]; exact hlt
        have hvec : expected_phi_vec (finalize_step pred cond pr eb s t0) pred pr eb t
            = expected_phi_vec s pred pr eb t := by
          unfold expected_phi_vec
          cases pr with
          | none => rfl
          | some p => simp only [get_variable_frames_eq hfr]
        rw [← hvec]
        exact ih _ hlt2 t htail r ty hreg


theorem list_get_some_lt {α : Type _} : ∀ (l : List α) (i : Nat) (a : α),
    l.get? i = some a → i < l.length := by
  intro l
  induction l with
  | nil => intro i a h; cases i <;> simp [List.get?] at h
  | cons x xs ih =>
      intro i a h
      cases i with
      | zero => simp
      | succ j => exact Nat.succ_lt_succ (ih j a h)

/-- C3: for a general while (and for-each) loop, the preparation pass
rebinds every visible name `n` (with pre-header value `v_pre`) through the
cond frame to a fresh register of type `typeof(v_pre)`, recording
`(n, v_pre, r_n)` in the stub; the finalization pass reads the cond
block's predecessor list: with one predecessor each φ-entry is
`(r_n, ty, [(v_pre, pre_header)])`, and with two predecessors the body-end
label is the non-pre-header predecessor and each φ-entry is
`(r_n, ty, [(v_pre, pre_header), (v_post, body_end)])` where `v_post` is
looked up in the body proxy frame. -/
theorem loop_phi_stub_spec (s : St) (pred cond : Nat) (rest' : List Nat)
    (hch : ChainFrom s.frames cond (cond :: pred :: rest'))
    (hnd : (cond :: pred :: rest').Nodup)
    (hcond : mapGet s.frames cond = some ⟨some pred, []⟩) :
    ((prepare_env_and_stub_phi_set_for_loop_cond s pred cond).2
        = expected_stub s.next_reg_num
            ((get_all_visible_local_variables s pred).map
              (fun n => (n, get_variable s pred n)))
      ∧ ∀ t ∈ (prepare_env_and_stub_phi_set_for_loop_cond s pred cond).2,
          get_variable (prepare_env_and_stub_phi_set_for_loop_cond s pred cond).1
            cond t.1 = t.2.2)
    ∧ (∀ (s2 : St) (proxy : Option Nat) (stub : List (String × Value × Value))
        (b : Block) (p : Nat),
        s2.blocks.get? cond = some b → b.predecessors = [p] →
        ∀ t ∈ stub, ∀ r ty, t.2.2 = Value.register r ty →
        (r, ty, [(t.2.1, pred)]) ∈
          phi_set_at (finalize_phi_set_for_loop_cond s2 pred cond proxy stub) cond)
    ∧ (∀ (s2 : St) (proxy : Nat) (stub : List (String × Value × Value))
        (b : Block) (p0 p1 : Nat),
        s2.blocks.get? cond = some b → b.predecessors = [p0, p1] →
        (if p0 ≠ pred then p0 else p1) ≠ UNREACHABLE_LABEL →
        ∀ t ∈ stub, ∀ r ty, t.2.2 = Value.register r ty →
        (r, ty, [(t.2.1, pred),
          (get_variable s2 proxy t.1, if p0 ≠ pred then p0 else p1)]) ∈
          phi_set_at (finalize_phi_set_for_loop_cond s2 pred cond (some proxy) stub)
            cond) := by
  obtain ⟨h1, _, _, h4⟩ := prepare_env_spec s pred cond rest' hch hnd hcond
  refine ⟨⟨h1, h4⟩, ?_, ?_⟩
  · intro s2 proxy stub b p hb hpred t ht r ty hreg
    have hfin : finalize_phi_set_for_loop_cond s2 pred cond proxy stub
        = stub.foldl (finalize_step pred cond proxy UNREACHABLE_LABEL) s2 := by
      unfold finalize_phi_set_for_loop_cond
      rw [hb]
      dsimp only
      rw [hpred]
    rw [hfin]
    have hlt : cond < s2.blocks.length := list_get_some_lt _ _ _ hb
    have hmem := finalize_fold_mem pred cond proxy UNREACHABLE_LABEL stub s2 hlt
      t ht r ty hreg
    have hv : expected_phi_vec s2 pred proxy UNREACHABLE_LABEL t = [(t.2.1, pred)] := by
      simp [expected_phi_vec]
    rwa [hv] at hmem
  · intro s2 proxy stub b p0 p1 hb hpred hne t ht r ty hreg
    have hfin : finalize_phi_set_for_loop_cond s2 pred cond (some proxy) stub
        = stub.foldl
            (finalize_step pred cond (some proxy) (if p0 ≠ pred then p0 else p1)) s2 := by
      unfold finalize_phi_set_for_loop_cond
      rw [hb]
      dsimp only
      rw [hpred]
    rw [hfin]
    have hlt : cond < s2.blocks.length := list_get_some_lt _ _ _ hb
    have hmem := finalize_fold_mem pred cond (some proxy)
      (if p0 ≠ pred then p0 else p1) stub s2 hlt t ht r ty hreg
    have hv : expected_phi_vec s2 pred (some proxy) (if p0 ≠ pred then p0 else p1) t
        = [(t.2.1, pred),
            (get_variable s2 proxy t.1, if p0 ≠ pred then p0 else p1)] := by
      unfold expected_phi_vec
      rw [if_pos hne]
      rfl
    rwa [hv] at hmem

/-- Witness for `loop_phi_stub_spec` at a concrete three-frame environment. -/
theorem loop_phi_stub_spec_witness :
    (prepare_env_and_stub_phi_set_for_loop_cond
        ⟨[(ARGS_LABEL, ⟨none, [("x", .litInt 7)]⟩), (0, ⟨some ARGS_LABEL, []⟩),
          (1, ⟨some 0, []⟩)], INITIAL_PROXY_LABEL, [], 0, [], false⟩ 0 1).2
      = [("x", .litInt 7, .register 0 .int)] := by
  have h := loop_phi_stub_spec
    ⟨[(ARGS_LABEL, ⟨none, [("x", .litInt 7)]⟩), (0, ⟨some ARGS_LABEL, []⟩),
      (1, ⟨some 0, []⟩)], INITIAL_PROXY_LABEL, [], 0, [], false⟩
    0 1 [ARGS_LABEL]
    (ChainFrom.step 1 ⟨some 0, []⟩ 0 [0, ARGS_LABEL] (by decide) rfl
      (ChainFrom.step 0 ⟨some ARGS_LABEL, []⟩ ARGS_LABEL [ARGS_LABEL] (by decide) rfl
        (ChainFrom.root ARGS_LABEL ⟨none, [("x", .litInt 7)]⟩ (by decide) rfl)))
    (by decide) (by decide)
  rw [h.1.1]
  rfl



/-! ### Constant-condition control flow -/

/-- A minimal global context: no known functions, no enclosing class. -/
def trivial_ctx : Ctx :=
  ⟨fun _ => none, none, fun _ => ⟨fun _ => (0, .int), fun _ => (0, .int)⟩, fun _ => 1⟩

/-- C7: refuted on `int f(int x) { while(true) { } return 0; }`.  The
`While(LitBool(true))` arm passes `None` as the proxy label to
`finalize_phi_set_for_loop_cond`; since the empty body falls through, a
back edge is added, the body block gets two predecessors, and the
finalizer executes `proxy_label.unwrap()` on `None` — a Rust panic —
for the visible parameter `x`, instead of propagating the UNREACHABLE
sentinel as claimed. -/
theorem while_true_unwrap_panic :
    (generate_function_ir trivial_ctx []
        ⟨.int, "f", [(.int, "x")],
          [.whileStmt (.litBool true) [], .ret (some (.litInt 0))]⟩).2.panicked
      = true := by
  rfl



/-! ### Stale current-label in the comparison and method-call arms -/

/-- A context exporting `string f(boolean)` and `boolean g(boolean, boolean, string)`. -/
def c5_ctx : Ctx :=
  ⟨fun n => if n = "f" then some ⟨.string, [.bool]⟩
            else if n = "g" then some ⟨.bool, [.bool, .bool, .string]⟩
            else none,
   none, fun _ => ⟨fun _ => (0, .int), fun _ => (0, .int)⟩, fun _ => 1⟩

/-- `boolean g(boolean a, boolean b, string s) { return f(a && b) == s; }`. -/
def c5_fd : FunDef :=
  ⟨.bool, "g", [(.bool, "a"), (.bool, "b"), (.string, "s")],
    [.ret (some (.binaryOp (.funCall "f" [.binaryOp (.litVar "a") .and (.litVar "b")])
      .eq (.litVar "s")))]⟩

/-- C5: refuted on `boolean g(boolean a, boolean b, string s)
{ return f(a && b) == s; }` with `string f(boolean)`.  Lowering the
operand `f(a && b)` moves the current label from the entry block 0 to the
short-circuit merge block 4 (whose body ends with the call to `f`), but
the string-comparison arm appends the `_bltn_string_eq` call — and,
downstream, the `ret` — to the *original* block 0, after block 0's
`Branch2` terminator, and returns block 0 as the current label; block 4,
the label actually reached after lowering the operands, receives neither
the comparison nor a terminator. -/
theorem compare_string_stale_label :
    (generate_function_ir c5_ctx [] c5_fd).1.blocks
      = [⟨0, [], [],
          [.branch2 (.register 0 .bool) 3 2,
           .functionCall (some 5) .bool
             (.globalRegister "_bltn_string_eq"
               (.ptr (.func .bool [.ptr .char, .ptr .char])))
             [.register 4 (.ptr .char), .register 2 (.ptr .char)],
           .ret (some (.register 5 .bool))]⟩,
         ⟨1, [], [3], [.branch1 4]⟩,
         ⟨2, [], [0, 3], [.branch1 4]⟩,
         ⟨3, [], [0], [.branch2 (.register 1 .bool) 1 2]⟩,
         ⟨4, [(3, .bool, [(.litBool true, 1), (.litBool false, 2)])], [1, 2],
          [.functionCall (some 4) (.ptr .char)
             (.globalRegister "f" (.ptr (.func (.ptr .char) [.bool])))
             [.register 3 .bool]]⟩]
    ∧ (generate_function_ir c5_ctx [] c5_fd).2.panicked = false := by
  exact ⟨rfl, rfl⟩



/-! ### SSA ids, CFG edges, and the builder invariant -/

/-- The SSA register defined by an operation, if any. -/
def opResult : Operation → Option Nat
  | .ret _ => none
  | .functionCall res _ _ _ => res
  | .arithmetic r _ _ _ => some r
  | .compare r _ _ _ => some r
  | .getElementPtr r _ _ => some r
  | .castGlobalString r _ _ => some r
  | .castPtr d _ _ => some d
  | .castPtrToInt d _ => some d
  | .load r _ => some r
  | .store _ _ => none
  | .branch1 _ => none
  | .branch2 _ _ _ => none

/-- The control-flow targets named by an operation. -/
def branchTargets : Operation → List Nat
  | .branch1 l => [l]
  | .branch2 _ t f => [t, f]
  | _ => []

/-- The SSA ids defined inside one block: φ-results and operation results. -/
def blockDefs (b : Block) : List Nat :=
  b.phi_set.map (fun e => e.1) ++ b.body.filterMap opResult

/-- All SSA ids defined in a block list, as a multiset via the list. -/
def definedRegs (blocks : List Block) : List Nat := blocks.flatMap blockDefs

/-- The labelled control-flow edges emitted by one block. -/
def blockEdges (b : Block) : List (Nat × Nat) :=
  (b.body.flatMap branchTargets).map (fun t => (b.label, t))

/-- All labelled control-flow edges of a block list. -/
def allEdges (blocks : List Block) : List (Nat × Nat) := blocks.flatMap blockEdges

/-- Occurrence count in a list (multiplicity). -/
def cnt {α : Type _} [DecidableEq α] (a : α) (l : List α) : Nat :=
  (l.filter (fun x => decide (x = a))).length

/-- The builder's block invariant: labels are dense (block `i` carries
label `i`), every emitted edge targets an existing block, and every
block's predecessor list counts exactly the emitted edges into it. -/
structure WFcore (s : St) : Prop where
  density : ∀ i b, s.blocks.get? i = some b → b.label = i
  edges_lt : ∀ e ∈ allEdges s.blocks, e.2 < s.blocks.length
  pred_count : ∀ tgt b, s.blocks.get? tgt = some b → ∀ src : Nat,
    cnt src b.predecessors = cnt (src, tgt) (allEdges s.blocks)

/-- SSA freshness relative to a list `init` of pre-allocated ids (the
function parameters): all defined ids are mutually distinct and below the
allocator counter. -/
def RegInv (init : List Nat) (s : St) : Prop :=
  (init ++ definedRegs s.blocks).Nodup ∧ ∀ r ∈ init ++ definedRegs s.blocks, r < s.next_reg_num

/-- One build step's contract: panic is monotone, the register counter
never decreases, and — as long as no panic has occurred — the invariant is
preserved and every freshly defined id was drawn from the counter. -/
def Pres (s s' : St) : Prop :=
  (s.panicked = true → s'.panicked = true)
  ∧ s.next_reg_num ≤ s'.next_reg_num
  ∧ (s'.panicked = false →
      (∀ init : List Nat, WFcore s → RegInv init s → WFcore s' ∧ RegInv init s')
      ∧ (∀ r ∈ definedRegs s'.blocks, r ∈ definedRegs s.blocks ∨ s.next_reg_num ≤ r))

theorem Pres.rfl {s : St} : Pres s s :=
  ⟨id, le_refl _, fun _ => ⟨fun _ hc hr => ⟨hc, hr⟩, fun _ hr => Or.inl hr⟩⟩

theorem pan_false_of_pres {s s' : St} (h : Pres s s') (h' : s'.panicked = false) :
    s.panicked = false := by
  cases hp : s.panicked
  · rfl
  · rw [h.1 hp] at h'
    simp at h'

theorem Pres.trans {s1 s2 s3 : St} (h12 : Pres s1 s2) (h23 : Pres s2 s3) :
    Pres s1 s3 := by
  obtain ⟨m12, c12, w12⟩ := h12
  obtain ⟨m23, c23, w23⟩ := h23
  refine ⟨fun h => m23 (m12 h), le_trans c12 c23, fun h3 => ?_⟩
  have h2 : s2.panicked = false := pan_false_of_pres ⟨m23, c23, w23⟩ h3
  obtain ⟨pr23, win23⟩ := w23 h3
  obtain ⟨pr12, win12⟩ := w12 h2
  refine ⟨fun init hc hr => ?_, fun r hr => ?_⟩
  · obtain ⟨hc2, hr2⟩ := pr12 init hc hr
    exact pr23 init hc2 hr2
  · rcases win23 r hr with h | h
    · rcases win12 r h with h1 | h1
      · exact Or.inl h1
      · exact Or.inr h1
    · exact Or.inr (le_trans c12 h)

theorem flatMap_set_perm {α β : Type _} (g : α → List β) :
    ∀ (l : List α) (i : Nat) (h : i < l.length) (b : α) (extra : List β),
    g b = g (l.get ⟨i, h⟩) ++ extra →
    ((l.set i b).flatMap g).Perm (l.flatMap g ++ extra) := by
  intro l
  induction l with
  | nil => intro i h; simp at h
  | cons x xs ih =>
      intro i h b extra hg
      cases i with
      | zero =>
          simp only [List.set_cons_zero, List.flatMap_cons]
          have hg2 : g b = g x ++ extra := hg
          rw [hg2, List.append_assoc, List.append_assoc]
          exact List.perm_append_comm.append_left (g x)
      | succ j =>
          simp only [List.set_cons_succ, List.flatMap_cons]
          have hg2 : g b = g (xs.get ⟨j, by simpa using h⟩) ++ extra := by
            rw [hg]
            rfl
          have hp := ih j (by simpa using h) b extra hg2
          rw [List.append_assoc]
          exact hp.append_left (g x)



theorem cnt_nil {α : Type _} [DecidableEq α] (a : α) : cnt a ([] : List α) = 0 := rfl

theorem cnt_append {α : Type _} [DecidableEq α] (a : α) (l l2 : List α) :
    cnt a (l ++ l2) = cnt a l + cnt a l2 := by
  unfold cnt
  rw [List.filter_append, List.length_append]

theorem cnt_perm {α : Type _} [DecidableEq α] (a : α) {l l2 : List α}
    (h : l.Perm l2) : cnt a l = cnt a l2 :=
  (h.filter _).length_eq

theorem cnt_singleton {α : Type _} [DecidableEq α] (a b : α) :
    cnt a [b] = if b = a then 1 else 0 := by
  unfold cnt
  by_cases hb : b = a <;> simp [List.filter, hb]

theorem cnt_eq_zero_of_not_mem {α : Type _} [DecidableEq α] {a : α} :
    ∀ {l : List α}, a ∉ l → cnt a l = 0 := by
  intro l
  induction l with
  | nil => intro h; rfl
  | cons x xs ih =>
      intro h
      have hx : ¬ x = a := fun he => h (by rw [he]; exact List.mem_cons_self _ _)
      have h2 : a ∉ xs := fun hm => h (List.mem_cons_of_mem _ hm)
      show (List.filter _ (x :: xs)).length = 0
      rw [List.filter_cons, decide_eq_false hx]
      simp only [Bool.false_eq_true, if_false]
      exact ih h2

/-! ### Effect lemmas for the builder primitives -/

theorem list_get_append_left {α : Type _} :
    ∀ (l l2 : List α) (i : Nat), i < l.length → (l ++ l2).get? i = l.get? i := by
  intro l
  induction l with
  | nil => intro l2 i h; simp at h
  | cons x xs ih =>
      intro l2 i h
      cases i with
      | zero => rfl
      | succ j => exact ih l2 j (by simpa using h)

theorem list_get_concat_self {α : Type _} (l : List α) (b : α) :
    (l ++ [b]).get? l.length = some b := by
  induction l with
  | nil => rfl
  | cons x xs ih => simpa using ih

theorem list_get_some_iff {α : Type _} (l : List α) (i : Nat) :
    (∃ b, l.get? i = some b) ↔ i < l.length := by
  constructor
  · rintro ⟨b, hb⟩
    exact list_get_some_lt l i b hb
  · intro h
    exact ⟨l.get ⟨i, h⟩, list_get_eq_get l i h⟩

theorem St.setPanic_blocks (s : St) : s.setPanic.blocks = s.blocks := rfl

theorem St.setPanic_counter (s : St) : s.setPanic.next_reg_num = s.next_reg_num := rfl

theorem St.setPanic_panicked (s : St) : s.setPanic.panicked = true := rfl

theorem get_block_modify_eq {s : St} {l : Nat} (h : l < s.blocks.length)
    (f : Block → Block) :
    get_block_modify s l f
      = { s with blocks := s.blocks.set l (f (s.blocks.get ⟨l, h⟩)) } := by
  unfold get_block_modify
  rw [dif_pos h]

theorem get_block_modify_pan_mono {s : St} (l : Nat) (f : Block → Block)
    (h : s.panicked = true) : (get_block_modify s l f).panicked = true := by
  unfold get_block_modify
  split
  · exact h
  · rfl

theorem get_block_modify_pan_false {s : St} {l : Nat} {f : Block → Block}
    (h : (get_block_modify s l f).panicked = false) :
    s.panicked = false ∧ l < s.blocks.length := by
  unfold get_block_modify at h
  split at h
  · exact ⟨h, by assumption⟩
  · simp [St.setPanic] at h

theorem get_block_modify_counter (s : St) (l : Nat) (f : Block → Block) :
    (get_block_modify s l f).next_reg_num = s.next_reg_num := by
  unfold get_block_modify
  split <;> rfl

theorem push_op_counter (s : St) (l : Nat) (op : Operation) :
    (push_op s l op).next_reg_num = s.next_reg_num :=
  get_block_modify_counter _ _ _

theorem push_op_pan_mono {s : St} (l : Nat) (op : Operation)
    (h : s.panicked = true) : (push_op s l op).panicked = true :=
  get_block_modify_pan_mono _ _ h

theorem push_op_pan_false {s : St} {l : Nat} {op : Operation}
    (h : (push_op s l op).panicked = false) :
    s.panicked = false ∧ l < s.blocks.length :=
  get_block_modify_pan_false h

theorem push_op_length (s : St) (l : Nat) (op : Operation) :
    (push_op s l op).blocks.length = s.blocks.length :=
  get_block_modify_length _ _ _

theorem filterMap_opResult_single (op : Operation) :
    [op].filterMap opResult = (opResult op).toList := by
  cases hop : opResult op <;> simp [List.filterMap, hop]

theorem push_op_defined {s : St} {l : Nat} (h : l < s.blocks.length) (op : Operation) :
    (definedRegs (push_op s l op).blocks).Perm
      (definedRegs s.blocks ++ (opResult op).toList) := by
  unfold push_op
  rw [get_block_modify_eq h]
  apply flatMap_set_perm
  show blockDefs _ = blockDefs _ ++ _
  unfold blockDefs
  dsimp only
  rw [List.filterMap_append, filterMap_opResult_single, List.append_assoc]

theorem push_op_edges {s : St} {l : Nat} (h : l < s.blocks.length) (op : Operation) :
    (allEdges (push_op s l op).blocks).Perm
      (allEdges s.blocks
        ++ (branchTargets op).map (fun t => ((s.blocks.get ⟨l, h⟩).label, t))) := by
  unfold push_op
  rw [get_block_modify_eq h]
  apply flatMap_set_perm
  show blockEdges _ = blockEdges _ ++ _
  unfold blockEdges
  dsimp only
  rw [List.flatMap_append, List.map_append]
  simp [branchTargets]
  exact h



theorem WFcore.of_blocks_eq {s s2 : St} (h : s2.blocks = s.blocks) (hw : WFcore s) :
    WFcore s2 := by
  constructor
  · intro i b hb
    exact hw.density i b (h ▸ hb)
  · intro e he
    rw [h] at he ⊢
    exact hw.edges_lt e he
  · intro t b hb src
    rw [h] at hb ⊢
    exact hw.pred_count t b hb src

theorem Pres.of_same {s s2 : St} (hb : s2.blocks = s.blocks)
    (hc : s2.next_reg_num = s.next_reg_num)
    (hm : s.panicked = true → s2.panicked = true) : Pres s s2 := by
  refine ⟨hm, le_of_eq hc.symm, fun _ =>
    ⟨fun init hw hr => ⟨WFcore.of_blocks_eq hb hw, ?_⟩, fun r hr => Or.inl ?_⟩⟩
  · unfold RegInv at hr ⊢
    rw [hb, hc]
    exact hr
  · rw [hb] at hr
    exact hr

theorem Pres_setPanic {s : St} : Pres s s.setPanic :=
  Pres.of_same rfl rfl (fun _ => rfl)

theorem Pres_get_new_reg_num {s : St} : Pres s (get_new_reg_num s).1 := by
  refine ⟨fun h => h, Nat.le_succ _, fun _ =>
    ⟨fun init hw hr => ⟨@WFcore.of_blocks_eq s _ rfl hw, ?_⟩, fun r hr => Or.inl hr⟩⟩
  unfold RegInv at hr ⊢
  exact ⟨hr.1, fun r hrm => Nat.lt_succ_of_lt (hr.2 r hrm)⟩

theorem push_op_blocks_eq {s : St} {l : Nat} (h : l < s.blocks.length) (op : Operation) :
    (push_op s l op).blocks
      = s.blocks.set l
          { s.blocks.get ⟨l, h⟩ with body := (s.blocks.get ⟨l, h⟩).body ++ [op] } := by
  unfold push_op
  rw [get_block_modify_eq h]

theorem push_op_WFcore {s : St} (l : Nat) {op : Operation}
    (hbt : branchTargets op = []) (hw : WFcore s) : WFcore (push_op s l op) := by
  by_cases h : l < s.blocks.length
  case neg =>
    refine WFcore.of_blocks_eq ?_ hw
    unfold push_op get_block_modify
    rw [dif_neg h]
    rfl
  case pos =>
    have hedge := push_op_edges h op
    rw [hbt] at hedge
    simp only [List.map_nil, List.append_nil] at hedge
    have hblocks := push_op_blocks_eq h op
    constructor
    · intro i b hb
      rw [hblocks] at hb
      by_cases hil : l = i
      · subst hil
        rw [list_get_set_self _ _ _ h] at hb
        injection hb with hb2
        subst hb2
        exact hw.density l (s.blocks.get ⟨l, h⟩) (list_get_eq_get _ _ h)
      · rw [list_get_set_ne _ _ _ _ hil] at hb
        exact hw.density i b hb
    · intro e he
      rw [push_op_length]
      exact hw.edges_lt e (hedge.mem_iff.mp he)
    · intro t b hb src
      rw [hblocks] at hb
      by_cases hil : l = t
      · subst hil
        rw [list_get_set_self _ _ _ h] at hb
        injection hb with hb2
        subst hb2
        exact (hw.pred_count l (s.blocks.get ⟨l, h⟩) (list_get_eq_get _ _ h) src).trans
          (cnt_perm (src, l) hedge).symm
      · rw [list_get_set_ne _ _ _ _ hil] at hb
        exact (hw.pred_count t b hb src).trans (cnt_perm (src, t) hedge).symm

theorem Pres_push_noresult {s : St} (l : Nat) {op : Operation}
    (hres : opResult op = none) (hbt : branchTargets op = []) :
    Pres s (push_op s l op) := by
  refine ⟨push_op_pan_mono l op, le_of_eq (push_op_counter s l op).symm, fun hp => ?_⟩
  obtain ⟨hpf, hl⟩ := push_op_pan_false hp
  have hdef := push_op_defined hl op
  rw [hres] at hdef
  have htl : (none : Option Nat).toList = [] := rfl
  rw [htl, List.append_nil] at hdef
  refine ⟨fun init hw hr => ⟨push_op_WFcore l hbt hw, ?_⟩,
    fun r hr => Or.inl (hdef.mem_iff.mp hr)⟩
  unfold RegInv at hr ⊢
  refine ⟨((hdef.append_left init).nodup_iff).mpr hr.1, fun r hrm => ?_⟩
  rw [push_op_counter]
  exact hr.2 r ((hdef.append_left init).mem_iff.mp hrm)

theorem allEdges_concat_empty (bs : List Block) (lab : Nat) :
    allEdges (bs ++ [⟨lab, [], [], []⟩]) = allEdges bs := by
  unfold allEdges
  rw [List.flatMap_append]
  simp [blockEdges]

theorem definedRegs_concat_empty (bs : List Block) (lab : Nat) :
    definedRegs (bs ++ [⟨lab, [], [], []⟩]) = definedRegs bs := by
  unfold definedRegs
  rw [List.flatMap_append]
  simp [blockDefs]

theorem allocate_new_frame_blocks (s : St) (l p : Nat) :
    (allocate_new_frame s l p).blocks = s.blocks := by
  unfold allocate_new_frame
  dsimp only
  split <;> rfl

theorem allocate_new_frame_counter (s : St) (l p : Nat) :
    (allocate_new_frame s l p).next_reg_num = s.next_reg_num := by
  unfold allocate_new_frame
  dsimp only
  split <;> rfl

theorem allocate_new_frame_pan_mono (s : St) (l p : Nat) (h : s.panicked = true) :
    (allocate_new_frame s l p).panicked = true := by
  unfold allocate_new_frame
  dsimp only
  split
  · exact h
  · rfl

theorem allocate_new_block_blocks (s : St) (p : Nat) :
    (allocate_new_block s p).1.blocks
      = s.blocks ++ [⟨s.blocks.length, [], [], []⟩] := by
  unfold allocate_new_block
  dsimp only
  rw [allocate_new_frame_blocks]

theorem allocate_new_block_counter (s : St) (p : Nat) :
    (allocate_new_block s p).1.next_reg_num = s.next_reg_num := by
  unfold allocate_new_block
  dsimp only
  rw [allocate_new_frame_counter]

theorem allocate_new_block_pan_mono (s : St) (p : Nat) (h : s.panicked = true) :
    (allocate_new_block s p).1.panicked = true := by
  unfold allocate_new_block
  dsimp only
  exact allocate_new_frame_pan_mono _ _ _ h

theorem Pres_allocate {s : St} (p : Nat) : Pres s (allocate_new_block s p).1 := by
  have hb := allocate_new_block_blocks s p
  refine ⟨allocate_new_block_pan_mono s p, le_of_eq (allocate_new_block_counter s p).symm,
    fun _ => ⟨fun init hw hr => ⟨?_, ?_⟩, fun r hr => Or.inl ?_⟩⟩
  · constructor
    · intro i b hbi
      rw [hb] at hbi
      by_cases hi : i < s.blocks.length
      · rw [list_get_append_left _ _ _ hi] at hbi
        exact hw.density i b hbi
      · have hlt := list_get_some_lt _ _ _ hbi
        rw [List.length_append, List.length_singleton] at hlt
        have hieq : i = s.blocks.length := by omega
        subst hieq
        rw [list_get_concat_self] at hbi
        injection hbi with hbb
        subst hbb
        rfl
    · intro e he
      rw [hb, allEdges_concat_empty] at he
      rw [hb, List.length_append, List.length_singleton]
      exact Nat.lt_succ_of_lt (hw.edges_lt e he)
    · intro t b hbi src
      rw [hb, allEdges_concat_empty]
      rw [hb] at hbi
      by_cases hi : t < s.blocks.length
      · rw [list_get_append_left _ _ _ hi] at hbi
        exact hw.pred_count t b hbi src
      · have hlt := list_get_some_lt _ _ _ hbi
        rw [List.length_append, List.length_singleton] at hlt
        have hieq : t = s.blocks.length := by omega
        subst hieq
        rw [list_get_concat_self] at hbi
        injection hbi with hbb
        subst hbb
        show (0 : Nat) = cnt (src, s.blocks.length) (allEdges s.blocks)
        symm
        exact cnt_eq_zero_of_not_mem (fun hmem => absurd (hw.edges_lt _ hmem) (lt_irrefl _))
  · unfold RegInv at hr ⊢
    rw [hb, definedRegs_concat_empty, allocate_new_block_counter]
    exact hr
  · rw [hb, definedRegs_concat_empty] at hr
    exact hr



theorem get_block_modify_get? {s : St} {l : Nat} (hl : l < s.blocks.length)
    (f : Block → Block) (t : Nat) :
    (get_block_modify s l f).blocks.get? t
      = if l = t then some (f (s.blocks.get ⟨l, hl⟩)) else s.blocks.get? t := by
  rw [get_block_modify_eq hl]
  by_cases hlt : l = t
  · subst hlt
    rw [if_pos rfl, list_get_set_self _ _ _ hl]
  · rw [if_neg hlt, list_get_set_ne _ _ _ _ hlt]

theorem get_block_modify_proj_map {β : Type _} (proj : Block → β) {s : St} {l : Nat}
    (hl : l < s.blocks.length) (f : Block → Block)
    (hproj : proj (f (s.blocks.get ⟨l, hl⟩)) = proj (s.blocks.get ⟨l, hl⟩)) (t : Nat) :
    ((get_block_modify s l f).blocks.get? t).map proj = (s.blocks.get? t).map proj := by
  rw [get_block_modify_get? hl]
  by_cases ht : l = t
  · subst ht
    rw [if_pos rfl, list_get_eq_get s.blocks l hl]
    simp only [Option.map_some']
    exact congrArg some hproj
  · rw [if_neg ht]

theorem set_same_defs_perm {s : St} {l : Nat} (hl : l < s.blocks.length)
    (f : Block → Block)
    (hdefs : blockDefs (f (s.blocks.get ⟨l, hl⟩)) = blockDefs (s.blocks.get ⟨l, hl⟩)) :
    (definedRegs (get_block_modify s l f).blocks).Perm (definedRegs s.blocks) := by
  rw [get_block_modify_eq hl]
  have h := flatMap_set_perm blockDefs s.blocks l hl _ [] (by rw [hdefs, List.append_nil])
  simpa using h

theorem set_same_edges_perm {s : St} {l : Nat} (hl : l < s.blocks.length)
    (f : Block → Block)
    (hedges : blockEdges (f (s.blocks.get ⟨l, hl⟩)) = blockEdges (s.blocks.get ⟨l, hl⟩)) :
    (allEdges (get_block_modify s l f).blocks).Perm (allEdges s.blocks) := by
  rw [get_block_modify_eq hl]
  have h := flatMap_set_perm blockEdges s.blocks l hl _ [] (by rw [hedges, List.append_nil])
  simpa using h

theorem density_of_label_map {s s2 : St}
    (h : ∀ t, (s2.blocks.get? t).map Block.label = (s.blocks.get? t).map Block.label)
    (hd : ∀ i b, s.blocks.get? i = some b → b.label = i) :
    ∀ i b, s2.blocks.get? i = some b → b.label = i := by
  intro i b hb
  have hh := h i
  rw [hb] at hh
  cases hg : s.blocks.get? i with
  | none =>
      rw [hg] at hh
      simp at hh
  | some b0 =>
      rw [hg] at hh
      simp only [Option.map_some'] at hh
      injection hh with hh2
      rw [hh2]
      exact hd i b0 hg

theorem pred_append_cnt {s : St} {l : Nat} (hl : l < s.blocks.length) (src : Nat)
    (t : Nat) (b : Block)
    (hb : (get_block_modify s l
        (fun b => { b with predecessors := b.predecessors ++ [src] })).blocks.get? t
      = some b) (src0 : Nat) :
    ∃ b0, s.blocks.get? t = some b0 ∧
      cnt src0 b.predecessors
        = cnt src0 b0.predecessors + (if t = l ∧ src0 = src then 1 else 0) := by
  rw [get_block_modify_get? hl] at hb
  by_cases ht : l = t
  · subst ht
    rw [if_pos rfl] at hb
    injection hb with hb2
    refine ⟨s.blocks.get ⟨l, hl⟩, list_get_eq_get _ _ hl, ?_⟩
    rw [← hb2]
    show cnt src0 ((s.blocks.get ⟨l, hl⟩).predecessors ++ [src]) = _
    rw [cnt_append, cnt_singleton]
    by_cases hs : src = src0
    · subst hs
      simp
    · rw [if_neg hs, if_neg (fun hh => hs hh.2.symm)]
  · rw [if_neg ht] at hb
    refine ⟨b, hb, ?_⟩
    rw [if_neg (fun hh => ht hh.1.symm)]
    omega

theorem Pres_add_branch1 {s : St} (src dst : Nat) : Pres s (add_branch1_op s src dst) := by
  have heq : add_branch1_op s src dst
      = get_block_modify (push_op s src (.branch1 dst)) dst
          (fun b => { b with predecessors := b.predecessors ++ [src] }) := rfl
  rw [heq]
  refine ⟨?_, ?_, ?_⟩
  · intro h
    exact get_block_modify_pan_mono _ _ (push_op_pan_mono _ _ h)
  · exact le_of_eq (by rw [get_block_modify_counter, push_op_counter])
  · intro hp2
    obtain ⟨hp1, hdst⟩ := get_block_modify_pan_false hp2
    obtain ⟨hp0, hsrc⟩ := push_op_pan_false hp1
    have hlen1 : (push_op s src (.branch1 dst)).blocks.length = s.blocks.length :=
      push_op_length s src _
    have hdef1 : (definedRegs (push_op s src (.branch1 dst)).blocks).Perm
        (definedRegs s.blocks) := by
      have h := push_op_defined hsrc (.branch1 dst)
      simpa [opResult] using h
    have hdef2 := set_same_defs_perm hdst
      (fun b => { b with predecessors := b.predecessors ++ [src] }) rfl
    have hdef := hdef2.trans hdef1
    have hedge2 := set_same_edges_perm hdst
      (fun b => { b with predecessors := b.predecessors ++ [src] }) rfl
    refine ⟨fun init hw hr => ?_, fun r hr => Or.inl (hdef.mem_iff.mp hr)⟩
    have hlab : (s.blocks.get ⟨src, hsrc⟩).label = src :=
      hw.density src _ (list_get_eq_get _ _ hsrc)
    have hedge1 : (allEdges (push_op s src (.branch1 dst)).blocks).Perm
        (allEdges s.blocks ++ [(src, dst)]) := by
      have h := push_op_edges hsrc (.branch1 dst)
      rw [hlab] at h
      simpa [branchTargets] using h
    have hedge := hedge2.trans hedge1
    refine ⟨⟨?_, ?_, ?_⟩, ?_⟩
    · -- density
      refine density_of_label_map (fun t => ?_)
        (density_of_label_map
          (fun t => get_block_modify_proj_map Block.label hsrc
            (fun b => { b with body := b.body ++ [Operation.branch1 dst] }) rfl t)
          hw.density)
      exact get_block_modify_proj_map Block.label hdst
        (fun b => { b with predecessors := b.predecessors ++ [src] }) rfl t
    · -- edges_lt
      intro e he
      rw [get_block_modify_length, hlen1]
      rcases (List.mem_append).mp (hedge.mem_iff.mp he) with h | h
      · exact hw.edges_lt e h
      · rw [List.mem_singleton] at h
        subst h
        rw [hlen1] at hdst
        exact hdst
    · -- pred_count
      intro t b hb src0
      obtain ⟨b1, hb1, hcnt1⟩ := pred_append_cnt hdst src t b hb src0
      -- b1 comes from the pushed state; its predecessors agree with the base state
      have hmap : ((push_op s src (Operation.branch1 dst)).blocks.get? t).map
            Block.predecessors = (s.blocks.get? t).map Block.predecessors :=
        get_block_modify_proj_map Block.predecessors hsrc
          (fun b => { b with body := b.body ++ [Operation.branch1 dst] }) rfl t
      rw [hb1] at hmap
      cases hg : s.blocks.get? t with
      | none =>
          rw [hg] at hmap
          simp at hmap
      | some b0 =>
          rw [hg] at hmap
          simp only [Option.map_some'] at hmap
          injection hmap with hmap2
          rw [cnt_perm _ hedge, cnt_append, hcnt1, hmap2,
            hw.pred_count t b0 hg src0, cnt_singleton]
          by_cases hts : t = dst ∧ src0 = src
          · obtain ⟨h1, h2⟩ := hts
            subst h1
            subst h2
            simp
          · have hne : ¬ ((src, dst) = (src0, t)) := by
              intro hh
              injection hh with hh1 hh2
              exact hts ⟨hh2.symm, hh1.symm⟩
            rw [if_neg hts, if_neg hne]
    · -- RegInv
      unfold RegInv at hr ⊢
      refine ⟨(hdef.append_left init).nodup_iff.mpr hr.1, fun r hrm => ?_⟩
      rw [get_block_modify_counter, push_op_counter]
      exact hr.2 r ((hdef.append_left init).mem_iff.mp hrm)



theorem Pres_add_branch2 {s : St} (src : Nat) (c : Value) (br1 br2 : Nat) :
    Pres s (add_branch2_op s src c br1 br2) := by
  have heq : add_branch2_op s src c br1 br2
      = get_block_modify
          (get_block_modify (push_op s src (.branch2 c br1 br2)) br1
            (fun b => { b with predecessors := b.predecessors ++ [src] }))
          br2 (fun b => { b with predecessors := b.predecessors ++ [src] }) := rfl
  rw [heq]
  refine ⟨?_, ?_, ?_⟩
  · intro h
    exact get_block_modify_pan_mono _ _
      (get_block_modify_pan_mono _ _ (push_op_pan_mono _ _ h))
  · exact le_of_eq (by
      rw [get_block_modify_counter, get_block_modify_counter, push_op_counter])
  · intro hp3
    obtain ⟨hp2, hbr2⟩ := get_block_modify_pan_false hp3
    obtain ⟨hp1, hbr1⟩ := get_block_modify_pan_false hp2
    obtain ⟨hp0, hsrc⟩ := push_op_pan_false hp1
    have hlen1 : (push_op s src (.branch2 c br1 br2)).blocks.length = s.blocks.length :=
      push_op_length s src _
    have hdef1 : (definedRegs (push_op s src (.branch2 c br1 br2)).blocks).Perm
        (definedRegs s.blocks) := by
      have h := push_op_defined hsrc (.branch2 c br1 br2)
      simpa [opResult] using h
    have hdef2 := set_same_defs_perm hbr1
      (fun b => { b with predecessors := b.predecessors ++ [src] }) rfl
    have hdef3 := set_same_defs_perm hbr2
      (fun b => { b with predecessors := b.predecessors ++ [src] }) rfl
    have hdef := (hdef3.trans hdef2).trans hdef1
    have hedge2 := set_same_edges_perm hbr1
      (fun b => { b with predecessors := b.predecessors ++ [src] }) rfl
    have hedge3 := set_same_edges_perm hbr2
      (fun b => { b with predecessors := b.predecessors ++ [src] }) rfl
    refine ⟨fun init hw hr => ?_, fun r hr => Or.inl (hdef.mem_iff.mp hr)⟩
    have hlab : (s.blocks.get ⟨src, hsrc⟩).label = src :=
      hw.density src _ (list_get_eq_get _ _ hsrc)
    have hedge1 : (allEdges (push_op s src (.branch2 c br1 br2)).blocks).Perm
        (allEdges s.blocks ++ [(src, br1), (src, br2)]) := by
      have h := push_op_edges hsrc (.branch2 c br1 br2)
      rw [hlab] at h
      simpa [branchTargets] using h
    have hedge := (hedge3.trans hedge2).trans hedge1
    refine ⟨⟨?_, ?_, ?_⟩, ?_⟩
    · refine density_of_label_map (fun t => get_block_modify_proj_map Block.label hbr2
          (fun b => { b with predecessors := b.predecessors ++ [src] }) rfl t)
        (density_of_label_map (fun t => get_block_modify_proj_map Block.label hbr1
          (fun b => { b with predecessors := b.predecessors ++ [src] }) rfl t)
          (density_of_label_map (fun t => get_block_modify_proj_map Block.label hsrc
            (fun b => { b with body := b.body ++ [Operation.branch2 c br1 br2] }) rfl t)
            hw.density))
    · intro e he
      rw [get_block_modify_length, get_block_modify_length, hlen1]
      rcases (List.mem_append).mp (hedge.mem_iff.mp he) with h | h
      · exact hw.edges_lt e h
      · rw [hlen1] at hbr1
        rw [get_block_modify_length, hlen1] at hbr2
        rcases List.mem_cons.mp h with h1 | h1
        · subst h1
          exact hbr1
        · rw [List.mem_singleton] at h1
          subst h1
          exact hbr2
    · intro t b hb src0
      obtain ⟨b2, hb2, hcnt2⟩ := pred_append_cnt hbr2 src t b hb src0
      obtain ⟨b1, hb1, hcnt1⟩ := pred_append_cnt hbr1 src t b2 hb2 src0
      have hmap : ((push_op s src (Operation.branch2 c br1 br2)).blocks.get? t).map
            Block.predecessors = (s.blocks.get? t).map Block.predecessors :=
        get_block_modify_proj_map Block.predecessors hsrc
          (fun b => { b with body := b.body ++ [Operation.branch2 c br1 br2] }) rfl t
      rw [hb1] at hmap
      cases hg : s.blocks.get? t with
      | none =>
          rw [hg] at hmap
          simp at hmap
      | some b0 =>
          rw [hg] at hmap
          simp only [Option.map_some'] at hmap
          injection hmap with hmap2
          have hifeq : ∀ x : Nat, (if t = x ∧ src0 = src then (1 : Nat) else 0)
              = (if (src, x) = (src0, t) then 1 else 0) := by
            intro x
            by_cases hc : t = x ∧ src0 = src
            · rw [if_pos hc, if_pos (by rw [hc.1, hc.2])]
            · rw [if_neg hc, if_neg (fun hh => by
                injection hh with hh1 hh2
                exact hc ⟨hh2.symm, hh1.symm⟩)]
          have hpair : cnt (src0, t) [(src, br1), (src, br2)]
              = (if (src, br1) = (src0, t) then (1 : Nat) else 0)
                + (if (src, br2) = (src0, t) then 1 else 0) := by
            show cnt (src0, t) ([(src, br1)] ++ [(src, br2)]) = _
            rw [cnt_append, cnt_singleton, cnt_singleton]
          rw [cnt_perm _ hedge, cnt_append, hcnt2, hcnt1, hmap2,
            hw.pred_count t b0 hg src0, hpair, hifeq br1, hifeq br2]
          omega
    · unfold RegInv at hr ⊢
      refine ⟨(hdef.append_left init).nodup_iff.mpr hr.1, fun r hrm => ?_⟩
      rw [get_block_modify_counter, get_block_modify_counter, push_op_counter]
      exact hr.2 r ((hdef.append_left init).mem_iff.mp hrm)



theorem add_new_local_blocks (s : St) (f : Nat) (n : String) (v : Value) :
    (add_new_local_variable s f n v).blocks = s.blocks := by
  unfold add_new_local_variable
  split
  · rfl
  · dsimp only
    split <;> rfl

theorem add_new_local_counter (s : St) (f : Nat) (n : String) (v : Value) :
    (add_new_local_variable s f n v).next_reg_num = s.next_reg_num := by
  unfold add_new_local_variable
  split
  · rfl
  · dsimp only
    split <;> rfl

theorem add_new_local_pan_mono (s : St) (f : Nat) (n : String) (v : Value)
    (h : s.panicked = true) : (add_new_local_variable s f n v).panicked = true := by
  unfold add_new_local_variable
  split
  · rfl
  · dsimp only
    split
    · exact h
    · rfl

theorem Pres_add_new_local {s : St} (f : Nat) (n : String) (v : Value) :
    Pres s (add_new_local_variable s f n v) :=
  Pres.of_same (add_new_local_blocks s f n v) (add_new_local_counter s f n v)
    (add_new_local_pan_mono s f n v)

theorem update_existing_blocks (s : St) (f : Nat) (n : String) (v : Value) :
    (update_existing_local_variable s f n v).blocks = s.blocks := by
  unfold update_existing_local_variable
  split <;> rfl

theorem update_existing_counter (s : St) (f : Nat) (n : String) (v : Value) :
    (update_existing_local_variable s f n v).next_reg_num = s.next_reg_num := by
  unfold update_existing_local_variable
  split <;> rfl

theorem update_existing_pan_mono (s : St) (f : Nat) (n : String) (v : Value)
    (h : s.panicked = true) :
    (update_existing_local_variable s f n v).panicked = true := by
  unfold update_existing_local_variable
  split
  · exact h
  · rfl

theorem Pres_update_existing {s : St} (f : Nat) (n : String) (v : Value) :
    Pres s (update_existing_local_variable s f n v) :=
  Pres.of_same (update_existing_blocks s f n v) (update_existing_counter s f n v)
    (update_existing_pan_mono s f n v)

theorem copy_into_frame_blocks (t f : Nat) (s : St) (n : String) :
    (copy_into_frame t f s n).blocks = s.blocks := by
  unfold copy_into_frame
  split <;> rfl

theorem copy_into_frame_counter (t f : Nat) (s : St) (n : String) :
    (copy_into_frame t f s n).next_reg_num = s.next_reg_num := by
  unfold copy_into_frame
  split <;> rfl

theorem copy_into_frame_pan_mono (t f : Nat) (s : St) (n : String)
    (h : s.panicked = true) : (copy_into_frame t f s n).panicked = true := by
  unfold copy_into_frame
  split
  · rfl
  · exact h

theorem Pres_copy_into_frame {s : St} (t f : Nat) (n : String) :
    Pres s (copy_into_frame t f s n) :=
  Pres.of_same (copy_into_frame_blocks t f s n) (copy_into_frame_counter t f s n)
    (copy_into_frame_pan_mono t f s n)

theorem insert_empty_proxy_blocks (s : St) (f : Nat) :
    (insert_empty_proxy_frame s f).1.blocks = s.blocks := by
  unfold insert_empty_proxy_frame
  dsimp only
  split
  · rfl
  · split
    · rfl
    · rw [allocate_new_frame_blocks]

theorem insert_empty_proxy_counter (s : St) (f : Nat) :
    (insert_empty_proxy_frame s f).1.next_reg_num = s.next_reg_num := by
  unfold insert_empty_proxy_frame
  dsimp only
  split
  · rfl
  · split
    · rfl
    · rw [allocate_new_frame_counter]

theorem insert_empty_proxy_pan_mono (s : St) (f : Nat) (h : s.panicked = true) :
    (insert_empty_proxy_frame s f).1.panicked = true := by
  unfold insert_empty_proxy_frame
  dsimp only
  split
  · rfl
  · split
    · rfl
    · exact allocate_new_frame_pan_mono _ _ _ h

theorem Pres_insert_empty_proxy {s : St} (f : Nat) :
    Pres s (insert_empty_proxy_frame s f).1 :=
  Pres.of_same (insert_empty_proxy_blocks s f) (insert_empty_proxy_counter s f)
    (insert_empty_proxy_pan_mono s f)

theorem Pres_foldl {α : Type _} (f : St → α → St) (hf : ∀ s a, Pres s (f s a)) :
    ∀ (l : List α) (s : St), Pres s (l.foldl f s) := by
  intro l
  induction l with
  | nil => intro s; exact Pres.rfl
  | cons a rest ih =>
      intro s
      exact (hf s a).trans (ih (f s a))

theorem Pres_create_proxy {s : St} (f : Nat) : Pres s (create_proxy_env s f).1 := by
  refine (Pres_insert_empty_proxy f).trans ?_
  exact Pres_foldl _ (fun s2 a => Pres_copy_into_frame _ _ _)
    (get_all_visible_local_variables s f) (insert_empty_proxy_frame s f).1

theorem Pres_apply_proxy {s : St} (proxy target : Nat) :
    Pres s (apply_proxy_env s proxy target) :=
  Pres_foldl _ (fun s2 a => Pres_copy_into_frame _ _ _)
    (get_all_visible_local_variables s proxy) s

theorem get_global_string_blocks (s : St) (str : String) :
    (get_global_string s str).1.blocks = s.blocks := by
  unfold get_global_string
  split <;> rfl

theorem get_global_string_counter (s : St) (str : String) :
    (get_global_string s str).1.next_reg_num = s.next_reg_num := by
  unfold get_global_string
  split <;> rfl

theorem get_global_string_pan (s : St) (str : String) :
    (get_global_string s str).1.panicked = s.panicked := by
  unfold get_global_string
  split <;> rfl

theorem Pres_get_global_string {s : St} (str : String) :
    Pres s (get_global_string s str).1 :=
  Pres.of_same (get_global_string_blocks s str) (get_global_string_counter s str)
    (fun h => (get_global_string_pan s str).trans h)



theorem get_block_modify_WFcore {s : St} (l : Nat) (f : Block → Block)
    (hlab : ∀ b, (f b).label = b.label)
    (hpred : ∀ b, (f b).predecessors = b.predecessors)
    (hbody : ∀ b, (f b).body = b.body)
    (hw : WFcore s) : WFcore (get_block_modify s l f) := by
  by_cases hl : l < s.blocks.length
  case neg =>
    refine WFcore.of_blocks_eq ?_ hw
    unfold get_block_modify
    rw [dif_neg hl]
    rfl
  case pos =>
    have hedge := set_same_edges_perm hl f (by
      unfold blockEdges
      rw [hbody, hlab])
    constructor
    · exact density_of_label_map
        (fun t => get_block_modify_proj_map Block.label hl f (hlab _) t) hw.density
    · intro e he
      rw [get_block_modify_length]
      exact hw.edges_lt e (hedge.mem_iff.mp he)
    · intro t b hb src
      have hmap := get_block_modify_proj_map Block.predecessors hl f (hpred _) t
      rw [hb] at hmap
      cases hg : s.blocks.get? t with
      | none =>
          rw [hg] at hmap
          simp at hmap
      | some b0 =>
          rw [hg] at hmap
          simp only [Option.map_some'] at hmap
          injection hmap with hmap2
          rw [hmap2, hw.pred_count t b0 hg src]
          exact (cnt_perm _ hedge).symm

theorem flatMap_set_perm2 {α β : Type _} (g : α → List β) :
    ∀ (l : List α) (i : Nat) (h : i < l.length) (b : α) (extra : List β),
    (g b).Perm (g (l.get ⟨i, h⟩) ++ extra) →
    ((l.set i b).flatMap g).Perm (l.flatMap g ++ extra) := by
  intro l
  induction l with
  | nil => intro i h; simp at h
  | cons x xs ih =>
      intro i h b extra hg
      cases i with
      | zero =>
          simp only [List.set_cons_zero, List.flatMap_cons]
          have hg2 : (g b).Perm (g x ++ extra) := hg
          refine (hg2.append_right (xs.flatMap g)).trans ?_
          rw [List.append_assoc, List.append_assoc]
          exact List.perm_append_comm.append_left (g x)
      | succ j =>
          simp only [List.set_cons_succ, List.flatMap_cons]
          have hg2 : (g b).Perm (g (xs.get ⟨j, by simpa using h⟩) ++ extra) := hg
          have hp := ih j (by simpa using h) b extra hg2
          rw [List.append_assoc]
          exact hp.append_left (g x)

theorem insert_phi_defined_effect {s : St} {l : Nat} {e : PhiEntry}
    (hl : l < s.blocks.length) :
    (definedRegs (insert_phi s l e).blocks).Perm
      (definedRegs s.blocks
        ++ (if e ∈ (s.blocks.get ⟨l, hl⟩).phi_set then [] else [e.1])) := by
  unfold insert_phi
  rw [get_block_modify_eq hl]
  refine flatMap_set_perm2 blockDefs s.blocks l hl _ _ ?_
  by_cases hmem : e ∈ (s.blocks.get ⟨l, hl⟩).phi_set
  · simp only [if_pos hmem]
    rw [List.append_nil]
  · simp only [if_neg hmem]
    unfold blockDefs
    dsimp only
    rw [List.map_append]
    show ((_ ++ [e.1]) ++ _).Perm _
    rw [List.append_assoc, List.append_assoc]
    exact List.perm_append_comm.append_left _

theorem Pres_alloc_push {s : St} (l : Nat) (op : Operation)
    (hres : opResult op = some s.next_reg_num)
    (hbt : branchTargets op = []) :
    Pres s (push_op { s with next_reg_num := s.next_reg_num + 1 } l op) := by
  refine ⟨?_, ?_, ?_⟩
  · intro h
    exact push_op_pan_mono _ _ h
  · rw [push_op_counter]
    exact Nat.le_succ _
  · intro hp
    obtain ⟨hp1, hl⟩ := push_op_pan_false hp
    have hl2 : l < s.blocks.length := hl
    have hdef : (definedRegs
        (push_op { s with next_reg_num := s.next_reg_num + 1 } l op).blocks).Perm
        (definedRegs s.blocks ++ [s.next_reg_num]) := by
      have h := push_op_defined hl op
      rw [hres] at h
      exact h
    refine ⟨fun init hw hr =>
      ⟨push_op_WFcore l hbt (@WFcore.of_blocks_eq s _ rfl hw), ?_⟩,
      fun r hr => ?_⟩
    · unfold RegInv at hr ⊢
      constructor
      · refine ((hdef.append_left init).nodup_iff).mpr ?_
        rw [← List.append_assoc]
        refine (List.perm_append_singleton _ _).nodup_iff.mpr ?_
        rw [List.nodup_cons]
        exact ⟨fun hmem => absurd (hr.2 _ hmem) (lt_irrefl _), hr.1⟩
      · intro r hrm
        rw [push_op_counter]
        rcases List.mem_append.mp ((hdef.append_left init).mem_iff.mp hrm) with hm | hm
        · exact Nat.lt_succ_of_lt (hr.2 r (List.mem_append_left _ hm))
        · rcases List.mem_append.mp hm with hm2 | hm2
          · exact Nat.lt_succ_of_lt (hr.2 r (List.mem_append_right _ hm2))
          · rw [List.mem_singleton] at hm2
            subst hm2
            exact Nat.lt_succ_self _
    · rcases List.mem_append.mp (hdef.mem_iff.mp hr) with hm | hm
      · exact Or.inl hm
      · rw [List.mem_singleton] at hm
        subst hm
        exact Or.inr (le_refl _)

theorem Pres_alloc_insert_phi {s : St} (l : Nat) (ty : Ty) (vec : List (Value × Nat)) :
    Pres s (insert_phi { s with next_reg_num := s.next_reg_num + 1 } l
      (s.next_reg_num, ty, vec)) := by
  have hc : (insert_phi { s with next_reg_num := s.next_reg_num + 1 } l
      (s.next_reg_num, ty, vec)).next_reg_num = s.next_reg_num + 1 :=
    get_block_modify_counter _ _ _
  refine ⟨?_, ?_, ?_⟩
  · intro h
    exact get_block_modify_pan_mono _ _ h
  · rw [hc]
    exact Nat.le_succ _
  · intro hp
    obtain ⟨hp1, hl⟩ := get_block_modify_pan_false hp
    have hl2 : l < s.blocks.length := hl
    have hdef := @insert_phi_defined_effect
      { s with next_reg_num := s.next_reg_num + 1 } _ (s.next_reg_num, ty, vec) hl
    refine ⟨fun init hw hr => ⟨get_block_modify_WFcore l _
        (fun b => rfl) (fun b => rfl) (fun b => rfl)
        (@WFcore.of_blocks_eq s _ rfl hw), ?_⟩, fun r hr => ?_⟩
    · unfold RegInv at hr ⊢
      by_cases hmem : ((s.next_reg_num, ty, vec) : PhiEntry)
          ∈ (s.blocks.get ⟨l, hl2⟩).phi_set
      · rw [if_pos hmem, List.append_nil] at hdef
        refine ⟨((hdef.append_left init).nodup_iff).mpr hr.1, fun r hrm => ?_⟩
        rw [hc]
        exact Nat.lt_succ_of_lt (hr.2 r ((hdef.append_left init).mem_iff.mp hrm))
      · rw [if_neg hmem] at hdef
        constructor
        · refine ((hdef.append_left init).nodup_iff).mpr ?_
          rw [← List.append_assoc]
          refine (List.perm_append_singleton _ _).nodup_iff.mpr ?_
          rw [List.nodup_cons]
          exact ⟨fun hmem2 => absurd (hr.2 _ hmem2) (lt_irrefl _), hr.1⟩
        · intro r hrm
          rw [hc]
          rcases List.mem_append.mp ((hdef.append_left init).mem_iff.mp hrm) with hm | hm
          · exact Nat.lt_succ_of_lt (hr.2 r (List.mem_append_left _ hm))
          · rcases List.mem_append.mp hm with hm2 | hm2
            · exact Nat.lt_succ_of_lt (hr.2 r (List.mem_append_right _ hm2))
            · rw [List.mem_singleton] at hm2
              subst hm2
              exact Nat.lt_succ_self _
    · by_cases hmem : ((s.next_reg_num, ty, vec) : PhiEntry)
          ∈ (s.blocks.get ⟨l, hl2⟩).phi_set
      · rw [if_pos hmem, List.append_nil] at hdef
        exact Or.inl (hdef.mem_iff.mp hr)
      · rw [if_neg hmem] at hdef
        rcases List.mem_append.mp (hdef.mem_iff.mp hr) with hm | hm
        · exact Or.inl hm
        · rw [List.mem_singleton] at hm
          subst hm
          exact Or.inr (le_refl _)


theorem bool_mono_back {a b : Bool} (hm : a = true → b = true) (hf : b = false) :
    a = false := by
  cases ha : a
  · rfl
  · rw [hm ha] at hf
    simp at hf

theorem Pres.of_blocks_le {s s2 : St} (hb : s2.blocks = s.blocks)
    (hc : s.next_reg_num ≤ s2.next_reg_num)
    (hm : s.panicked = true → s2.panicked = true) : Pres s s2 := by
  refine ⟨hm, hc, fun _ =>
    ⟨fun init hw hr => ⟨WFcore.of_blocks_eq hb hw, ?_⟩, fun r hr => Or.inl ?_⟩⟩
  · unfold RegInv at hr ⊢
    rw [hb]
    exact ⟨hr.1, fun r hrm => lt_of_lt_of_le (hr.2 r hrm) hc⟩
  · rw [hb] at hr
    exact hr

theorem Pres_alloc2_push2 {s : St} (l1 l2 : Nat) (opA opB : Operation) (rA rB : Nat)
    (hresA : opResult opA = some rA) (hbtA : branchTargets opA = [])
    (hresB : opResult opB = some rB) (hbtB : branchTargets opB = [])
    (hset : (rA = s.next_reg_num ∧ rB = s.next_reg_num + 1)
          ∨ (rA = s.next_reg_num + 1 ∧ rB = s.next_reg_num)) :
    Pres s (push_op (push_op { s with next_reg_num := s.next_reg_num + 2 } l1 opA)
      l2 opB) := by
  have hAB : rA ≠ rB := by rcases hset with ⟨h1, h2⟩ | ⟨h1, h2⟩ <;> omega
  have hAbound : s.next_reg_num ≤ rA ∧ rA < s.next_reg_num + 2 := by
    rcases hset with ⟨h1, h2⟩ | ⟨h1, h2⟩ <;> omega
  have hBbound : s.next_reg_num ≤ rB ∧ rB < s.next_reg_num + 2 := by
    rcases hset with ⟨h1, h2⟩ | ⟨h1, h2⟩ <;> omega
  refine ⟨?_, ?_, ?_⟩
  · intro h
    exact push_op_pan_mono _ _ (push_op_pan_mono _ _ h)
  · rw [push_op_counter, push_op_counter]
    dsimp only
    omega
  · intro hp
    obtain ⟨hp1, hl2⟩ := push_op_pan_false hp
    obtain ⟨hp0, hl1⟩ := push_op_pan_false hp1
    have hdefA : (definedRegs
        (push_op { s with next_reg_num := s.next_reg_num + 2 } l1 opA).blocks).Perm
        (definedRegs s.blocks ++ [rA]) := by
      have h := push_op_defined hl1 opA
      rw [hresA] at h
      exact h
    have hdefB := push_op_defined hl2 opB
    rw [hresB] at hdefB
    have hdef : (definedRegs
        (push_op (push_op { s with next_reg_num := s.next_reg_num + 2 } l1 opA)
          l2 opB).blocks).Perm
        (definedRegs s.blocks ++ [rA, rB]) := by
      refine hdefB.trans ?_
      refine (hdefA.append_right _).trans ?_
      rw [List.append_assoc]
      exact List.Perm.refl _
    refine ⟨fun init hw hr =>
      ⟨push_op_WFcore l2 hbtB (push_op_WFcore l1 hbtA
        (@WFcore.of_blocks_eq s _ rfl hw)), ?_⟩, fun r hr => ?_⟩
    · unfold RegInv at hr ⊢
      constructor
      · refine ((hdef.append_left init).nodup_iff).mpr ?_
        rw [← List.append_assoc]
        rw [List.nodup_append]
        refine ⟨hr.1, by simp [hAB], fun a ha hb => ?_⟩
        have := hr.2 a ha
        rcases List.mem_cons.mp hb with h1 | h1
        · omega
        · rw [List.mem_singleton] at h1
          omega
      · intro r hrm
        rw [push_op_counter, push_op_counter]
        dsimp only
        rcases List.mem_append.mp ((hdef.append_left init).mem_iff.mp hrm) with hm | hm
        · have := hr.2 r (List.mem_append_left _ hm)
          omega
        · rcases List.mem_append.mp hm with hm2 | hm2
          · have := hr.2 r (List.mem_append_right _ hm2)
            omega
          · rcases List.mem_cons.mp hm2 with h1 | h1
            · omega
            · rw [List.mem_singleton] at h1
              omega
    · rcases List.mem_append.mp (hdef.mem_iff.mp hr) with hm | hm
      · exact Or.inl hm
      · rcases List.mem_cons.mp hm with h1 | h1
        · subst h1
          exact Or.inr hAbound.1
        · rw [List.mem_singleton] at h1
          subst h1
          exact Or.inr hBbound.1

theorem Pres_gen_calc_ref {s : St} (cur : Nat) (v : Value) :
    Pres s (generate_calculation_of_ref_to_array_length s cur v).1 := by
  unfold generate_calculation_of_ref_to_array_length
  dsimp only
  split
  all_goals try dsimp only
  all_goals try split
  all_goals try dsimp only
  all_goals try split
  all_goals dsimp only [get_new_reg_num]
  all_goals
    first
    | exact Pres_alloc_push cur _ (by rfl) (by rfl)
    | exact Pres_setPanic.trans (Pres_alloc_push cur _ (by rfl) (by rfl))
    | exact (Pres_alloc_push cur _ (by rfl) (by rfl)).trans
        (Pres_alloc_push cur _ (by rfl) (by rfl))
    | exact Pres_setPanic.trans
        ((Pres_alloc_push cur _ (by rfl) (by rfl)).trans
          (Pres_alloc_push cur _ (by rfl) (by rfl)))
    | exact (Pres_setPanic.trans Pres_setPanic).trans
        (Pres_alloc_push cur _ (by rfl) (by rfl))

theorem Pres_phi_if_step (cp cs b1 b1p b2 b2p : Nat) (s : St) (n : String) :
    Pres s (phi_if_step cp cs b1 b1p b2 b2p s n) := by
  unfold phi_if_step
  dsimp only [get_new_reg_num]
  split
  · split
    · exact Pres_update_existing _ _ _
    · exact (Pres_alloc_insert_phi cs _ _).trans (Pres_update_existing _ _ _)
  · exact Pres.rfl

theorem Pres_calculate_phi_if {s : St} (cp cs : Nat) (br1 br2 : Nat × Nat) :
    Pres s (calculate_phi_set_for_if s cp cs br1 br2) :=
  Pres_foldl _ (fun s2 n => Pres_phi_if_step cp cs br1.1 br1.2 br2.1 br2.2 s2 n) _ s



theorem stub_fold_light (pred cond : Nat) :
    ∀ (names : List String) (s : St) (acc : List (String × Value × Value)),
    ((names.foldl (stub_step pred cond) (s, acc)).1.blocks = s.blocks)
    ∧ ((names.foldl (stub_step pred cond) (s, acc)).1.next_reg_num
        = s.next_reg_num + names.length)
    ∧ (s.panicked = true → (names.foldl (stub_step pred cond) (s, acc)).1.panicked = true)
    ∧ ∃ tail, (names.foldl (stub_step pred cond) (s, acc)).2 = acc ++ tail
        ∧ tail.length = names.length
        ∧ (∀ i (n : String) (v pv : Value), tail.get? i = some (n, v, pv) →
            ∃ ty, pv = Value.register (s.next_reg_num + i) ty) := by
  intro names
  induction names with
  | nil =>
      intro s acc
      refine ⟨rfl, rfl, fun h => h, [], by simp, rfl, ?_⟩
      intro i n v pv h
      cases i <;> simp [List.get?] at h
  | cons name rest ih =>
      intro s acc
      rw [List.foldl_cons]
      have hstep2 : stub_step pred cond (s, acc) name
          = (update_existing_local_variable { s with next_reg_num := s.next_reg_num + 1 }
              cond name
              (Value.register s.next_reg_num (get_variable s pred name).get_type),
             acc ++ [(name, get_variable s pred name,
               Value.register s.next_reg_num (get_variable s pred name).get_type)]) := rfl
      rw [hstep2]
      obtain ⟨ihb, ihc, ihm, tail, iht, ihl, ihreg⟩ := ih
        (update_existing_local_variable { s with next_reg_num := s.next_reg_num + 1 }
          cond name (Value.register s.next_reg_num (get_variable s pred name).get_type))
        (acc ++ [(name, get_variable s pred name,
          Value.register s.next_reg_num (get_variable s pred name).get_type)])
      have hub : (update_existing_local_variable
          { s with next_reg_num := s.next_reg_num + 1 } cond name
          (Value.register s.next_reg_num (get_variable s pred name).get_type)).blocks
          = s.blocks := update_existing_blocks _ _ _ _
      have huc : (update_existing_local_variable
          { s with next_reg_num := s.next_reg_num + 1 } cond name
          (Value.register s.next_reg_num (get_variable s pred name).get_type)).next_reg_num
          = s.next_reg_num + 1 := update_existing_counter _ _ _ _
      refine ⟨by rw [ihb, hub], by rw [ihc, huc, List.length_cons]; omega, ?_, ?_⟩
      · intro h
        exact ihm (update_existing_pan_mono _ _ _ _ h)
      · refine ⟨(name, get_variable s pred name,
            Value.register s.next_reg_num (get_variable s pred name).get_type) :: tail,
          by rw [iht, List.append_assoc]; rfl, by simp [ihl], ?_⟩
        intro i n v pv h
        cases i with
        | zero =>
            simp only [List.get?] at h
            injection h with h2
            injection h2 with ha hbc
            injection hbc with hb hc
            refine ⟨(get_variable s pred name).get_type, ?_⟩
            rw [← hc, Nat.add_zero]
        | succ j =>
            simp only [List.get?] at h
            obtain ⟨ty, hty⟩ := ihreg j n v pv h
            refine ⟨ty, ?_⟩
            rw [hty, huc]
            congr 1
            omega

theorem Pres_prepare {s : St} (pred cond : Nat) :
    Pres s (prepare_env_and_stub_phi_set_for_loop_cond s pred cond).1 := by
  obtain ⟨hb, hc, hm, _⟩ := stub_fold_light pred cond
    (get_all_visible_local_variables s pred) s []
  show Pres s ((get_all_visible_local_variables s pred).foldl
    (stub_step pred cond) (s, [])).1
  exact Pres.of_blocks_le hb (by rw [hc]; omega) hm



theorem insert_phi_counter (s : St) (l : Nat) (e : PhiEntry) :
    (insert_phi s l e).next_reg_num = s.next_reg_num :=
  get_block_modify_counter _ _ _

theorem mem_defined_of_phi_mem {s : St} {l : Nat} (hl : l < s.blocks.length)
    {e : PhiEntry} (hmem : e ∈ (s.blocks.get ⟨l, hl⟩).phi_set) :
    e.1 ∈ definedRegs s.blocks := by
  unfold definedRegs
  rw [List.mem_flatMap]
  refine ⟨s.blocks.get ⟨l, hl⟩, List.get_mem _ _ _, ?_⟩
  unfold blockDefs
  exact List.mem_append_left _ (List.mem_map.mpr ⟨e, hmem, rfl⟩)

theorem finalize_step_counter (p c : Nat) (pr : Option Nat) (e : Nat)
    (s : St) (t : String × Value × Value) :
    (finalize_step p c pr e s t).next_reg_num = s.next_reg_num := by
  obtain ⟨n, v1, pv⟩ := t
  unfold finalize_step
  by_cases he : e ≠ UNREACHABLE_LABEL <;>
    cases pr <;>
      simp only [if_pos he, if_neg he] <;>
        (try dsimp only) <;>
          cases pv <;>
            (try dsimp only) <;>
              rw [insert_phi_counter] <;> rfl

theorem finalize_step_pan_mono (p c : Nat) (pr : Option Nat) (e : Nat)
    (s : St) (t : String × Value × Value) (h : s.panicked = true) :
    (finalize_step p c pr e s t).panicked = true := by
  obtain ⟨n, v1, pv⟩ := t
  unfold finalize_step
  by_cases he : e ≠ UNREACHABLE_LABEL <;>
    cases pr <;>
      simp only [if_pos he, if_neg he] <;>
        (try dsimp only) <;>
          cases pv <;>
            (try dsimp only) <;>
              exact get_block_modify_pan_mono _ _ (by first | exact h | rfl)

theorem finalize_step_pan_false {s : St} {pred cond : Nat} {pr : Option Nat} {eb : Nat}
    {t : String × Value × Value}
    (h : (finalize_step pred cond pr eb s t).panicked = false) :
    s.panicked = false ∧ cond < s.blocks.length := by
  obtain ⟨n, v1, pv⟩ := t
  unfold finalize_step at h
  by_cases he : eb ≠ UNREACHABLE_LABEL <;>
    cases pr <;>
      simp only [if_pos he, if_neg he] at h <;>
        (try dsimp only at h) <;>
          cases pv <;>
            (try dsimp only at h) <;>
              (obtain ⟨h1, h2⟩ := get_block_modify_pan_false h) <;>
                first
                | exact absurd h1 (fun hh => Bool.noConfusion hh)
                | exact ⟨h1, h2⟩

theorem finalize_step_WFcore {s : St} {pred cond : Nat} {pr : Option Nat} {eb : Nat}
    {t : String × Value × Value}
    (hpan : (finalize_step pred cond pr eb s t).panicked = false)
    (hw : WFcore s) : WFcore (finalize_step pred cond pr eb s t) := by
  obtain ⟨n, v1, pv⟩ := t
  unfold finalize_step at hpan ⊢
  by_cases he : eb ≠ UNREACHABLE_LABEL <;>
    cases pr <;>
      simp only [if_pos he, if_neg he] at hpan ⊢ <;>
        (try dsimp only at hpan ⊢) <;>
          cases pv <;>
            (try dsimp only at hpan ⊢) <;>
              first
              | (obtain ⟨h1, h2⟩ := get_block_modify_pan_false hpan
                 exact absurd h1 (fun hh => Bool.noConfusion hh))
              | exact get_block_modify_WFcore cond _
                  (fun b => rfl) (fun b => rfl) (fun b => rfl) hw

theorem finalize_step_defined {s : St} {pred cond : Nat} {pr : Option Nat} {eb : Nat}
    {n : String} {v1 : Value} {r : Nat} {ty : Ty}
    (hpan : (finalize_step pred cond pr eb s (n, v1, Value.register r ty)).panicked
      = false)
    (hnotin : r ∉ definedRegs s.blocks) :
    (definedRegs
        (finalize_step pred cond pr eb s (n, v1, Value.register r ty)).blocks).Perm
      (definedRegs s.blocks ++ [r]) := by
  obtain ⟨hp0, hcond⟩ := finalize_step_pan_false hpan
  unfold finalize_step
  by_cases he : eb ≠ UNREACHABLE_LABEL
  · cases pr with
    | none =>
        exfalso
        unfold finalize_step at hpan
        simp only [if_pos he] at hpan
        try dsimp only at hpan
        obtain ⟨h1, _⟩ := get_block_modify_pan_false hpan
        simp [St.setPanic] at h1
    | some p =>
        simp only [if_pos he]
        try dsimp only
        have heff := @insert_phi_defined_effect s cond
          (r, ty, [(v1, pred)] ++ [(get_variable s p n, eb)]) hcond
        rw [if_neg (fun hmem => hnotin (mem_defined_of_phi_mem hcond hmem))] at heff
        exact heff
  · simp only [if_neg he]
    try dsimp only
    have heff := @insert_phi_defined_effect s cond (r, ty, [(v1, pred)]) hcond
    rw [if_neg (fun hmem => hnotin (mem_defined_of_phi_mem hcond hmem))] at heff
    exact heff

/-- The stub registers named by the loop φ-stub entries. -/
def stubRegs (stub : List (String × Value × Value)) : List Nat :=
  stub.filterMap (fun t => match t.2.2 with | .register r _ => some r | _ => none)

theorem finalize_fold_pan_mono (pred cond : Nat) (pr : Option Nat) (eb : Nat) :
    ∀ (stub : List (String × Value × Value)) (s : St), s.panicked = true →
    (stub.foldl (finalize_step pred cond pr eb) s).panicked = true := by
  intro stub
  induction stub with
  | nil => intro s h; exact h
  | cons t rest ih =>
      intro s h
      exact ih _ (finalize_step_pan_mono _ _ _ _ _ _ h)

theorem finalize_fold_counter (pred cond : Nat) (pr : Option Nat) (eb : Nat) :
    ∀ (stub : List (String × Value × Value)) (s : St),
    (stub.foldl (finalize_step pred cond pr eb) s).next_reg_num = s.next_reg_num := by
  intro stub
  induction stub with
  | nil => intro s; rfl
  | cons t rest ih =>
      intro s
      rw [List.foldl_cons, ih, finalize_step_counter]

theorem finalize_step_reg_of_pan_false {s : St} {pred cond : Nat} {pr : Option Nat}
    {eb : Nat} {n : String} {v1 pv : Value}
    (h : (finalize_step pred cond pr eb s (n, v1, pv)).panicked = false) :
    ∃ r ty, pv = Value.register r ty := by
  cases pv <;>
    first
    | exact ⟨_, _, rfl⟩
    | (unfold finalize_step at h
       by_cases he : eb ≠ UNREACHABLE_LABEL <;>
         cases pr <;>
           simp only [if_pos he, if_neg he] at h <;>
             (try dsimp only at h) <;>
               (obtain ⟨h1, h2⟩ := get_block_modify_pan_false h) <;>
                 exact absurd h1 (fun hh => Bool.noConfusion hh))

theorem finalize_fold_pres (pred cond : Nat) (pr : Option Nat) (eb : Nat) :
    ∀ (stub : List (String × Value × Value)) (s : St),
    (stubRegs stub).Nodup →
    (∀ t ∈ stub, ∀ r ty, t.2.2 = Value.register r ty →
        r ∉ definedRegs s.blocks ∧ r < s.next_reg_num) →
    (stub.foldl (finalize_step pred cond pr eb) s).panicked = false →
    (WFcore s → WFcore (stub.foldl (finalize_step pred cond pr eb) s))
    ∧ (definedRegs (stub.foldl (finalize_step pred cond pr eb) s).blocks).Perm
        (definedRegs s.blocks ++ stubRegs stub) := by
  intro stub
  induction stub with
  | nil =>
      intro s _ _ _
      exact ⟨fun hw => hw, by simp [stubRegs]⟩
  | cons t0 rest ih =>
      intro s hnd hfresh hpfin
      obtain ⟨n0, v0, pv0⟩ := t0
      rw [List.foldl_cons] at hpfin ⊢
      have hp1 : (finalize_step pred cond pr eb s (n0, v0, pv0)).panicked = false :=
        bool_mono_back (finalize_fold_pan_mono pred cond pr eb rest _) hpfin
      obtain ⟨r0, ty0, hreg0⟩ := finalize_step_reg_of_pan_false hp1
      subst hreg0
      have hfr0 := hfresh (n0, v0, Value.register r0 ty0) (List.mem_cons_self _ _)
        r0 ty0 rfl
      have hdef0 := finalize_step_defined hp1 hfr0.1
      have hsr : stubRegs ((n0, v0, Value.register r0 ty0) :: rest)
          = r0 :: stubRegs rest := rfl
      rw [hsr] at hnd
      rw [List.nodup_cons] at hnd
      have hcnt0 : (finalize_step pred cond pr eb s (n0, v0, Value.register r0 ty0)).next_reg_num
          = s.next_reg_num := finalize_step_counter _ _ _ _ _ _
      have htail : ∀ t ∈ rest, ∀ r ty, t.2.2 = Value.register r ty →
          r ∉ definedRegs
              (finalize_step pred cond pr eb s (n0, v0, Value.register r0 ty0)).blocks
            ∧ r < (finalize_step pred cond pr eb s
                (n0, v0, Value.register r0 ty0)).next_reg_num := by
        intro t ht r ty hreg
        have hf := hfresh t (List.mem_cons_of_mem _ ht) r ty hreg
        constructor
        · intro hmem
          rcases List.mem_append.mp (hdef0.mem_iff.mp hmem) with hm | hm
          · exact hf.1 hm
          · rw [List.mem_singleton] at hm
            subst hm
            refine hnd.1 ?_
            unfold stubRegs
            rw [List.mem_filterMap]
            exact ⟨t, ht, by rw [hreg]⟩
        · rw [hcnt0]
          exact hf.2
      obtain ⟨ihw, ihperm⟩ := ih _ hnd.2 htail hpfin
      refine ⟨fun hw => ihw (finalize_step_WFcore hp1 hw), ?_⟩
      rw [hsr]
      refine ihperm.trans ?_
      refine (hdef0.append_right _).trans ?_
      rw [List.append_assoc]
      exact List.Perm.refl _


theorem stubRegs_nodup_of_consecutive :
    ∀ (tail : List (String × Value × Value)) (c : Nat),
    (∀ i (n : String) (v pv : Value), tail.get? i = some (n, v, pv) →
        ∃ ty, pv = Value.register (c + i) ty) →
    (stubRegs tail).Nodup ∧ ∀ r ∈ stubRegs tail, c ≤ r ∧ r < c + tail.length := by
  intro tail
  induction tail with
  | nil =>
      intro c _
      exact ⟨List.nodup_nil, fun r hr => by simp [stubRegs] at hr⟩
  | cons t rest ih =>
      intro c h
      obtain ⟨n0, v0, pv0⟩ := t
      obtain ⟨ty0, hty0⟩ := h 0 n0 v0 pv0 rfl
      rw [Nat.add_zero] at hty0
      subst hty0
      have hrest := ih (c + 1) (fun i n v pv hi => by
        obtain ⟨ty, hty⟩ := h (i + 1) n v pv hi
        exact ⟨ty, by rw [hty]; congr 1; omega⟩)
      have hsr : stubRegs ((n0, v0, Value.register c ty0) :: rest)
          = c :: stubRegs rest := rfl
      rw [hsr]
      constructor
      · rw [List.nodup_cons]
        exact ⟨fun hmem => absurd (hrest.2 c hmem).1 (by omega), hrest.1⟩
      · intro r hr
        rw [List.length_cons]
        rcases List.mem_cons.mp hr with h1 | h1
        · subst h1
          omega
        · have := hrest.2 r h1
          omega

theorem finalize_wrapper_eq (s : St) (pred cond : Nat) (pl : Option Nat)
    (stub : List (String × Value × Value)) :
    finalize_phi_set_for_loop_cond s pred cond pl stub
      = match s.blocks.get? cond with
        | none => stub.foldl (finalize_step pred cond pl UNREACHABLE_LABEL) s.setPanic
        | some b =>
          match b.predecessors with
          | [_] => stub.foldl (finalize_step pred cond pl UNREACHABLE_LABEL) s
          | [p0, p1] => stub.foldl
              (finalize_step pred cond pl (if p0 ≠ pred then p0 else p1)) s
          | _ => stub.foldl (finalize_step pred cond pl UNREACHABLE_LABEL) s.setPanic
      := by
  unfold finalize_phi_set_for_loop_cond
  cases hgb : s.blocks.get? cond
  · rfl
  · rename_i b
    dsimp only
    cases hp : b.predecessors with
    | nil => rfl
    | cons p rest =>
        cases rest with
        | nil => rfl
        | cons p1 rest2 => cases rest2 <;> rfl

theorem finalize_wrapper_pan_mono (s : St) (pred cond : Nat) (pl : Option Nat)
    (stub : List (String × Value × Value)) (h : s.panicked = true) :
    (finalize_phi_set_for_loop_cond s pred cond pl stub).panicked = true := by
  rw [finalize_wrapper_eq]
  cases hgb : s.blocks.get? cond
  · exact finalize_fold_pan_mono _ _ _ _ _ _ rfl
  · rename_i b
    dsimp only
    cases hp : b.predecessors with
    | nil => exact finalize_fold_pan_mono _ _ _ _ _ _ rfl
    | cons p rest =>
        cases rest with
        | nil => exact finalize_fold_pan_mono _ _ _ _ _ _ h
        | cons p1 rest2 =>
            cases rest2 with
            | nil => exact finalize_fold_pan_mono _ _ _ _ _ _ h
            | cons q rest3 => exact finalize_fold_pan_mono _ _ _ _ _ _ rfl

theorem finalize_wrapper_counter (s : St) (pred cond : Nat) (pl : Option Nat)
    (stub : List (String × Value × Value)) :
    (finalize_phi_set_for_loop_cond s pred cond pl stub).next_reg_num
      = s.next_reg_num := by
  rw [finalize_wrapper_eq]
  cases hgb : s.blocks.get? cond
  · rw [finalize_fold_counter]
    rfl
  · rename_i b
    dsimp only
    cases hp : b.predecessors with
    | nil =>
        rw [finalize_fold_counter]
        rfl
    | cons p rest =>
        cases rest with
        | nil => rw [finalize_fold_counter]
        | cons p1 rest2 =>
            cases rest2 with
            | nil => rw [finalize_fold_counter]
            | cons q rest3 =>
                rw [finalize_fold_counter]
                rfl

theorem finalize_step_defined_subset {s : St} {pred cond : Nat} {pr : Option Nat}
    {eb : Nat} {n : String} {v1 : Value} {r : Nat} {ty : Ty}
    (hpan : (finalize_step pred cond pr eb s (n, v1, Value.register r ty)).panicked
      = false) :
    ∀ x ∈ definedRegs
        (finalize_step pred cond pr eb s (n, v1, Value.register r ty)).blocks,
      x ∈ definedRegs s.blocks ∨ x = r := by
  obtain ⟨hp0, hcond⟩ := finalize_step_pan_false hpan
  intro x hx
  unfold finalize_step at hx
  by_cases he : eb ≠ UNREACHABLE_LABEL
  · cases pr with
    | none =>
        exfalso
        unfold finalize_step at hpan
        simp only [if_pos he] at hpan
        try dsimp only at hpan
        obtain ⟨h1, _⟩ := get_block_modify_pan_false hpan
        simp [St.setPanic] at h1
    | some p =>
        simp only [if_pos he] at hx
        try dsimp only at hx
        have heff := @insert_phi_defined_effect s cond
          (r, ty, [(v1, pred)] ++ [(get_variable s p n, eb)]) hcond
        rcases List.mem_append.mp (heff.mem_iff.mp hx) with hm | hm
        · exact Or.inl hm
        · right
          split at hm
          · simp at hm
          · rw [List.mem_singleton] at hm
            exact hm
  · simp only [if_neg he] at hx
    try dsimp only at hx
    have heff := @insert_phi_defined_effect s cond (r, ty, [(v1, pred)]) hcond
    rcases List.mem_append.mp (heff.mem_iff.mp hx) with hm | hm
    · exact Or.inl hm
    · right
      split at hm
      · simp at hm
      · rw [List.mem_singleton] at hm
        exact hm

theorem finalize_fold_defined_subset (pred cond : Nat) (pr : Option Nat) (eb : Nat) :
    ∀ (stub : List (String × Value × Value)) (s : St),
    (stub.foldl (finalize_step pred cond pr eb) s).panicked = false →
    ∀ x ∈ definedRegs (stub.foldl (finalize_step pred cond pr eb) s).blocks,
      x ∈ definedRegs s.blocks ∨ x ∈ stubRegs stub := by
  intro stub
  induction stub with
  | nil =>
      intro s _ x hx
      exact Or.inl hx
  | cons t0 rest ih =>
      intro s hpfin x hx
      obtain ⟨n0, v0, pv0⟩ := t0
      rw [List.foldl_cons] at hpfin hx
      have hp1 : (finalize_step pred cond pr eb s (n0, v0, pv0)).panicked = false :=
        bool_mono_back (finalize_fold_pan_mono pred cond pr eb rest _) hpfin
      obtain ⟨r0, ty0, hreg0⟩ := finalize_step_reg_of_pan_false hp1
      subst hreg0
      rcases ih _ hpfin x hx with hm | hm
      · rcases finalize_step_defined_subset hp1 x hm with hm2 | hm2
        · exact Or.inl hm2
        · subst hm2
          right
          exact List.mem_cons_self _ _
      · right
        exact List.mem_cons_of_mem _ hm

theorem Pres_finalize {s0 sB sI : St} (pred cond : Nat) (pl : Option Nat)
    (stub : List (String × Value × Value))
    (hP1 : Pres s0 sB) (hP2 : Pres sB sI)
    (hB0 : definedRegs sB.blocks = definedRegs s0.blocks)
    (hregs : ∀ i (n : String) (v pv : Value), stub.get? i = some (n, v, pv) →
        ∃ ty, pv = Value.register (s0.next_reg_num + i) ty)
    (hlen : s0.next_reg_num + stub.length ≤ sB.next_reg_num) :
    Pres s0 (finalize_phi_set_for_loop_cond sI pred cond pl stub) := by
  have hPI := hP1.trans hP2
  have hstub := stubRegs_nodup_of_consecutive stub s0.next_reg_num hregs
  refine ⟨?_, ?_, ?_⟩
  · intro h
    exact finalize_wrapper_pan_mono _ _ _ _ _ (hPI.1 h)
  · rw [finalize_wrapper_counter]
    exact hPI.2.1
  · intro hpJ
    have hshape : ∃ eb, finalize_phi_set_for_loop_cond sI pred cond pl stub
        = stub.foldl (finalize_step pred cond pl eb) sI := by
      rw [finalize_wrapper_eq] at hpJ ⊢
      cases hgb : sI.blocks.get? cond
      · try rw [hgb] at hpJ
        try dsimp only at hpJ
        exfalso
        have hmono := finalize_fold_pan_mono pred cond pl UNREACHABLE_LABEL stub
          sI.setPanic rfl
        rw [hmono] at hpJ
        simp at hpJ
      · rename_i b
        try rw [hgb] at hpJ
        try dsimp only at hpJ
        try dsimp only
        cases hp : b.predecessors with
        | nil =>
            try rw [hp] at hpJ
            try dsimp only at hpJ
            exfalso
            have hmono := finalize_fold_pan_mono pred cond pl UNREACHABLE_LABEL stub
              sI.setPanic rfl
            rw [hmono] at hpJ
            simp at hpJ
        | cons p rest =>
            cases rest with
            | nil => exact ⟨UNREACHABLE_LABEL, rfl⟩
            | cons p1 rest2 =>
                cases rest2 with
                | nil => exact ⟨if p ≠ pred then p else p1, rfl⟩
                | cons q rest3 =>
                    try rw [hp] at hpJ
                    try dsimp only at hpJ
                    exfalso
                    have hmono := finalize_fold_pan_mono pred cond pl
                      UNREACHABLE_LABEL stub sI.setPanic rfl
                    rw [hmono] at hpJ
                    simp at hpJ
    obtain ⟨eb, heq⟩ := hshape
    rw [heq] at hpJ ⊢
    have hpI : sI.panicked = false :=
      bool_mono_back (finalize_fold_pan_mono pred cond pl eb stub sI) hpJ
    have hpB : sB.panicked = false := pan_false_of_pres hP2 hpI
    refine ⟨fun init hw0 hr0 => ?_, fun r hr => ?_⟩
    · obtain ⟨prB, winB⟩ := hP1.2.2 hpB
      obtain ⟨hwB, hrB⟩ := prB init hw0 hr0
      obtain ⟨prI, winI⟩ := hP2.2.2 hpI
      obtain ⟨hwI, hrI⟩ := prI init hwB hrB
      have hc0 : ∀ x ∈ init ++ definedRegs s0.blocks, x < s0.next_reg_num := hr0.2
      have hfresh : ∀ t ∈ stub, ∀ r ty, t.2.2 = Value.register r ty →
          r ∉ definedRegs sI.blocks ∧ r < sI.next_reg_num := by
        intro t ht r ty hreg
        have hrs : r ∈ stubRegs stub := by
          unfold stubRegs
          rw [List.mem_filterMap]
          exact ⟨t, ht, by rw [hreg]⟩
        have hbnd := hstub.2 r hrs
        constructor
        · intro hmem
          rcases winI r hmem with hm | hm
          · rw [hB0] at hm
            have := hc0 r (List.mem_append_right _ hm)
            omega
          · omega
        · have h1 : sB.next_reg_num ≤ sI.next_reg_num := hP2.2.1
          omega
      obtain ⟨hwJ, hpermJ⟩ := finalize_fold_pres pred cond pl eb stub sI
        hstub.1 hfresh hpJ
      refine ⟨hwJ hwI, ?_, ?_⟩
      · refine ((hpermJ.append_left init).nodup_iff).mpr ?_
        rw [← List.append_assoc]
        rw [List.nodup_append]
        refine ⟨hrI.1, hstub.1, fun a ha hb => ?_⟩
        have hbnd := hstub.2 a hb
        rcases List.mem_append.mp ha with hm | hm
        · have := hc0 a (List.mem_append_left _ hm)
          omega
        · rcases winI a hm with hm2 | hm2
          · rw [hB0] at hm2
            have := hc0 a (List.mem_append_right _ hm2)
            omega
          · have h1 : sB.next_reg_num ≤ sI.next_reg_num := hP2.2.1
            omega
      · intro r hrm
        rw [finalize_fold_counter]
        rcases List.mem_append.mp ((hpermJ.append_left init).mem_iff.mp hrm) with hm | hm
        · exact hrI.2 r (List.mem_append_left _ hm)
        · rcases List.mem_append.mp hm with hm2 | hm2
          · exact hrI.2 r (List.mem_append_right _ hm2)
          · have hbnd := hstub.2 r hm2
            have h1 : sB.next_reg_num ≤ sI.next_reg_num := hP2.2.1
            have h2 := hrI.2 r
            omega
    · rcases finalize_fold_defined_subset pred cond pl eb stub sI hpJ r hr with hm | hm
      · rcases (hPI.2.2 hpI).2 r hm with hm2 | hm2
        · exact Or.inl hm2
        · exact Or.inr hm2
      · have hbnd := hstub.2 r hm
        exact Or.inr (by omega)



theorem Pres_alloc_push_via {s sM : St} (l : Nat) (op : Operation)
    (hres : opResult op = some s.next_reg_num) (hbt : branchTargets op = [])
    (hPm : Pres s sM) (hblocks : sM.blocks = s.blocks)
    (hcnt : sM.next_reg_num = s.next_reg_num + 1) :
    Pres s (push_op sM l op) := by
  refine ⟨?_, ?_, ?_⟩
  · intro h
    exact push_op_pan_mono _ _ (hPm.1 h)
  · rw [push_op_counter, hcnt]
    exact Nat.le_succ _
  · intro hp
    obtain ⟨hpM, hl⟩ := push_op_pan_false hp
    have hp0 : s.panicked = false := pan_false_of_pres hPm hpM
    have hl2 : l < s.blocks.length := by rw [← hblocks]; exact hl
    have hdef : (definedRegs (push_op sM l op).blocks).Perm
        (definedRegs s.blocks ++ [s.next_reg_num]) := by
      have h := push_op_defined hl op
      rw [hres, hblocks] at h
      exact h
    refine ⟨fun init hw hr => ⟨push_op_WFcore l hbt (WFcore.of_blocks_eq hblocks hw), ?_⟩,
      fun r hr => ?_⟩
    · unfold RegInv at hr ⊢
      constructor
      · refine ((hdef.append_left init).nodup_iff).mpr ?_
        rw [← List.append_assoc]
        refine (List.perm_append_singleton _ _).nodup_iff.mpr ?_
        rw [List.nodup_cons]
        exact ⟨fun hmem => absurd (hr.2 _ hmem) (lt_irrefl _), hr.1⟩
      · intro r hrm
        rw [push_op_counter, hcnt]
        rcases List.mem_append.mp ((hdef.append_left init).mem_iff.mp hrm) with hm | hm
        · exact Nat.lt_succ_of_lt (hr.2 r (List.mem_append_left _ hm))
        · rcases List.mem_append.mp hm with hm2 | hm2
          · exact Nat.lt_succ_of_lt (hr.2 r (List.mem_append_right _ hm2))
          · rw [List.mem_singleton] at hm2
            subst hm2
            exact Nat.lt_succ_self _
    · rcases List.mem_append.mp (hdef.mem_iff.mp hr) with hm | hm
      · exact Or.inl hm
      · rw [List.mem_singleton] at hm
        subst hm
        exact Or.inr (le_refl _)

theorem Pres_allocs_push {s : St} (k : Nat) (l : Nat) (op : Operation) (j : Nat)
    (hres : opResult op = some (s.next_reg_num + j)) (hj : j < k)
    (hbt : branchTargets op = []) :
    Pres s (push_op { s with next_reg_num := s.next_reg_num + k } l op) := by
  refine ⟨?_, ?_, ?_⟩
  · intro h
    exact push_op_pan_mono _ _ h
  · rw [push_op_counter]
    dsimp only
    omega
  · intro hp
    obtain ⟨hp1, hl⟩ := push_op_pan_false hp
    have hdef : (definedRegs
        (push_op { s with next_reg_num := s.next_reg_num + k } l op).blocks).Perm
        (definedRegs s.blocks ++ [s.next_reg_num + j]) := by
      have h := push_op_defined hl op
      rw [hres] at h
      exact h
    refine ⟨fun init hw hr =>
      ⟨push_op_WFcore l hbt (@WFcore.of_blocks_eq s _ rfl hw), ?_⟩, fun r hr => ?_⟩
    · unfold RegInv at hr ⊢
      constructor
      · refine ((hdef.append_left init).nodup_iff).mpr ?_
        rw [← List.append_assoc]
        refine (List.perm_append_singleton _ _).nodup_iff.mpr ?_
        rw [List.nodup_cons]
        refine ⟨fun hmem => ?_, hr.1⟩
        have := hr.2 _ hmem
        omega
      · intro r hrm
        rw [push_op_counter]
        dsimp only
        rcases List.mem_append.mp ((hdef.append_left init).mem_iff.mp hrm) with hm | hm
        · have := hr.2 r (List.mem_append_left _ hm)
          omega
        · rcases List.mem_append.mp hm with hm2 | hm2
          · have := hr.2 r (List.mem_append_right _ hm2)
            omega
          · rw [List.mem_singleton] at hm2
            omega
    · rcases List.mem_append.mp (hdef.mem_iff.mp hr) with hm | hm
      · exact Or.inl hm
      · rw [List.mem_singleton] at hm
        subst hm
        exact Or.inr (by omega)


end Latte
